import Mathlib

/-!
# CalculatorGUI: the calculator engine (`src/src/calculator.cpp`)

A shallow embedding of the `Calculator` class and of its file-local formatting
helpers, followed by theorems about it.

Modelling conventions.

* `std::string` is a `List Char` (`Str`).
* `long double` is the x87 extended format that GCC and Clang use on x86-64
  Linux: a 64-bit significand, least normal exponent -16382.  A value of the
  format is the rational number it denotes (`ℚ`), and every arithmetic
  operation of the engine rounds its exact result to the format (`ldRound`,
  `ldAdd`, `ldSub`, `ldMul`, `ldDiv`).  `double` is IEEE binary64, and
  `(double)v` is the rounding `toDouble`.  Both round to nearest, ties to even.
  There is no infinity and no NaN among the values: a `long double` beyond
  `2^16384` is not modelled, and a `double` beyond its range is `none`, which
  the stream prints as `inf`.
* `std::stold` either yields a value or throws; a throw is `none`.  A call of
  `press` therefore has an `Outcome`: it returns, or an exception leaves it.
* Member functions take the object state and give the new one back.
-/

namespace CalculatorGUI

/-- A `std::string`, as the list of its characters. -/
abbrev Str := List Char

/-- A `long double`: the rational number it denotes.  The values of the format are the
fixed points of `ldRound`; the engine's operations on them are `ldAdd`, `ldSub`, `ldMul`
and `ldDiv`. -/
abbrev LongDouble := ℚ

/-! ## Library functions used by the engine -/

/-- Embedding of `std::isdigit((unsigned char)c)` in the C locale. -/
def isdigit (c : Char) : Bool := decide ('0' ≤ c ∧ c ≤ '9')

/-- Embedding of `std::isspace` in the C locale: space, `\t`, `\n`, `\v`, `\f`, `\r`. -/
def isspace (c : Char) : Bool := decide (c = ' ' ∨ (9 ≤ c.toNat ∧ c.toNat ≤ 13))

/-- Value of a decimal digit character. -/
def digitVal (c : Char) : Nat := c.toNat - 48

/-- Value of a run of decimal digits read from the left, starting from `acc`. -/
def digitsVal (acc : Nat) (ds : Str) : Nat := ds.foldl (fun n c => 10 * n + digitVal c) acc

/-- Rounding of a non-negative value to the nearest natural number, halves to
even: what the stream does to the digits it does not print, and what the
floating-point formats do to the bits they do not keep. -/
def roundHalfEven (v : ℚ) : Nat :=
  let f := ⌊v⌋.toNat
  let r := v - (f : ℚ)
  if r < 1 / 2 then f
  else if 1 / 2 < r then f + 1
  else if f % 2 = 0 then f else f + 1

/-- The binary exponent of a positive value `a`: the `e` with
`2^e ≤ a < 2^(e+1)`. -/
def binaryExponent (a : ℚ) : Int :=
  if 1 ≤ a then (((Nat.toDigits 2 ⌊a⌋.toNat).length - 1 : Nat) : Int)
  else -(((Nat.toDigits 2 (⌈1 / a⌉.toNat - 1)).length : Nat) : Int)

/-- Rounding to the binary floating-point format with a significand of `p` bits
and least normal exponent `emin`: to the nearest value of the format, ties to
the even significand.  Below `2^emin` the spacing stays that of the subnormal
numbers.  The upper end of the format is not part of this function. -/
def roundToFormat (p : Nat) (emin : Int) (v : ℚ) : ℚ :=
  if v = 0 then 0
  else
    let e := max (binaryExponent |v|) emin
    let ulp : ℚ := (2 : ℚ) ^ (e - (p : Int) + 1)
    let n := roundHalfEven (|v| / ulp)
    if v < 0 then -((n : ℚ) * ulp) else (n : ℚ) * ulp

/-- Rounding of an exact result to `long double` (x87 extended: 64-bit
significand, least normal exponent -16382). -/
def ldRound (v : ℚ) : LongDouble := roundToFormat 64 (-16382) v

/-- The `long double` sum `x + y`. -/
def ldAdd (x y : LongDouble) : LongDouble := ldRound (x + y)

/-- The `long double` difference `x - y`. -/
def ldSub (x y : LongDouble) : LongDouble := ldRound (x - y)

/-- The `long double` product `x * y`. -/
def ldMul (x y : LongDouble) : LongDouble := ldRound (x * y)

/-- The `long double` quotient `x / y`, for `y ≠ 0`. -/
def ldDiv (x y : LongDouble) : LongDouble := ldRound (x / y)

/-- Embedding of the conversion `(double)v` (IEEE binary64: 53-bit significand, least normal
exponent -1022).  A value at or beyond the midpoint between the largest
`double` and `2^1024` converts to an infinity: that is `none`. -/
def toDouble (v : LongDouble) : Option ℚ :=
  if |v| < 2 ^ 1024 - 2 ^ 970 then some (roundToFormat 53 (-1022) v) else none

/-- The exponent part of a decimal floating literal: what `strtold` reads after
the mantissa.  An `e` or `E` followed by an optional sign and at least one
digit is an exponent; anything else is not part of the number. -/
def stoldExponent (r : Str) : Int :=
  match r with
  | [] => 0
  | c :: r1 =>
    if c = 'e' ∨ c = 'E' then
      match r1 with
      | '-' :: r2 =>
        if (r2.takeWhile isdigit) = [] then 0 else -((digitsVal 0 (r2.takeWhile isdigit) : Nat) : Int)
      | '+' :: r2 => ((digitsVal 0 (r2.takeWhile isdigit) : Nat) : Int)
      | _ => ((digitsVal 0 (r1.takeWhile isdigit) : Nat) : Int)
    else 0

/-- Embedding of `std::stold(s)` on decimal literals: leading white space is skipped, then an
optional sign, a run of digits with at most one `.` in it, and an optional
exponent are read; the rest of the string is ignored.  When no digit can be
read there is no conversion and `std::stold` throws `std::invalid_argument`:
that is `none`.  The decimal value read is rounded to `long double` once, as
`strtold` does.  Hexadecimal literals, `inf` and `nan`, and literals beyond
the range of `long double` (for which `std::stold` throws
`std::out_of_range`) are outside this embedding: the value type has no
infinity or NaN. -/
def stold (s : Str) : Option LongDouble :=
  let s1 := s.dropWhile isspace
  let neg : Bool := match s1 with
    | c :: _ => decide (c = '-')
    | [] => false
  let s2 : Str := match s1 with
    | c :: r => if c = '-' ∨ c = '+' then r else s1
    | [] => s1
  let ip := s2.takeWhile isdigit
  let r1 := s2.dropWhile isdigit
  let fp : Str := match r1 with
    | c :: r => if c = '.' then r.takeWhile isdigit else []
    | [] => []
  let r2 : Str := match r1 with
    | c :: r => if c = '.' then r.dropWhile isdigit else r1
    | [] => r1
  if ip = [] ∧ fp = [] then none
  else
    let mant : ℚ := (digitsVal 0 (ip ++ fp) : ℚ) / (10 : ℚ) ^ fp.length
    let v : ℚ := mant * (10 : ℚ) ^ (stoldExponent r2)
    some (ldRound (if neg then -v else v))

/-- Embedding of `std::round` on a `long double`: to the nearest integer, halves away from
zero. -/
def round (v : LongDouble) : Int :=
  if 0 ≤ v then ⌊v + 1 / 2⌋ else -⌊-v + 1 / 2⌋

/-- Embedding of `std::numeric_limits<long long>::max()`. -/
def LLONG_MAX : Int := 2 ^ 63 - 1

/-- Embedding of `std::numeric_limits<long long>::min()`. -/
def LLONG_MIN : Int := -(2 ^ 63)

/-- Embedding of `oss << n` for a `long long`. -/
def showLongLong (z : Int) : Str :=
  if z < 0 then '-' :: Nat.toDigits 10 z.natAbs else Nat.toDigits 10 z.natAbs

/-- Left padding with `'0'` up to width `w`. -/
def padZeros (w : Nat) (s : Str) : Str := List.replicate (w - s.length) '0' ++ s

/-- Embedding of `oss << std::fixed << std::setprecision(4) << (double)v`: the `double` is
printed with four decimals, correctly rounded from its exact value; an
infinity is printed as `inf`. -/
def showFixed4 (v : LongDouble) : Str :=
  match toDouble v with
  | none => (if v < 0 then ['-'] else []) ++ "inf".toList
  | some d =>
    let n := roundHalfEven (|d| * 10 ^ 4)
    (if v < 0 then ['-'] else []) ++
      Nat.toDigits 10 (n / 10 ^ 4) ++ '.' :: padZeros 4 (Nat.toDigits 10 (n % 10 ^ 4))

/-- The decimal exponent of a positive value `a`: the `e` with
`10^e ≤ a < 10^(e+1)`. -/
def decimalExponent (a : ℚ) : Int :=
  if 1 ≤ a then (((Nat.toDigits 10 ⌊a⌋.toNat).length - 1 : Nat) : Int)
  else -(((Nat.toDigits 10 (⌈1 / a⌉.toNat - 1)).length : Nat) : Int)

/-- Embedding of `oss << std::setprecision(10) << std::scientific << (double)v`: the `double`
is printed, correctly rounded from its exact value, as one digit, `.`, ten
digits, `e`, the sign of the exponent and at least two exponent digits; an
infinity is printed as `inf`. -/
def showScientific10 (v : LongDouble) : Str :=
  let sign : Str := if v < 0 then ['-'] else []
  match toDouble v with
  | none => sign ++ "inf".toList
  | some d =>
    if d = 0 then sign ++ "0.0000000000e+00".toList
    else
      let a := |d|
      let e0 := decimalExponent a
      let m0 := roundHalfEven (a / (10 : ℚ) ^ (e0 - 10))
      let m := if 10 ^ 11 ≤ m0 then m0 / 10 else m0
      let e := if 10 ^ 11 ≤ m0 then e0 + 1 else e0
      let ds := Nat.toDigits 10 m
      sign ++ ds.take 1 ++ '.' :: ds.drop 1 ++ 'e' :: (if e < 0 then '-' else '+') ::
        padZeros 2 (Nat.toDigits 10 e.natAbs)

/-- Embedding of `std::isfinite((double)out)`: a value converts to a finite `double` when it
lies below the midpoint between the largest `double` and `2^1024`. -/
def isfinite (v : LongDouble) : Bool := decide (|v| < 2 ^ 1024 - 2 ^ 970)

/-! ## File-local helpers of `calculator.cpp` -/

/-- Embedding of `stripChars(s, ch)`: erase every `ch` from `s`. -/
def stripChars (s : Str) (ch : Char) : Str := s.filter (fun c => c != ch)

/-- The loop `for (int i = (int)intPart.size() - 3; i > 0; i -= 3)
intPart.insert(i, ".")` from the value `i` on; the first argument bounds the
number of iterations left. -/
def insertDots : Nat → Int → Str → Str
  | 0, _, s => s
  | fuel + 1, i, s =>
    if 0 < i then insertDots fuel (i - 3) (s.take i.toNat ++ '.' :: s.drop i.toNat) else s

/-- Embedding of `formatTR_fromInternal`: an internal string such as `1234.50` to the
display string `1.234,50`. -/
def formatTR_fromInternal (s : Str) : Str :=
  if 'e' ∈ s ∨ 'E' ∈ s then s
  else
    let sign : Str := match s with
      | c :: _ => if c = '-' ∨ c = '+' then [c] else []
      | [] => []
    let s1 : Str := match s with
      | c :: r => if c = '-' ∨ c = '+' then r else s
      | [] => s
    let intPart0 : Str := if '.' ∈ s1 then s1.takeWhile (fun c => c != '.') else s1
    let fracPart0 : Str := if '.' ∈ s1 then (s1.dropWhile (fun c => c != '.')).drop 1 else []
    let intPart1 := stripChars (stripChars intPart0 ',') '.'
    let fracPart := stripChars (stripChars fracPart0 ',') '.'
    let intPart := insertDots intPart1.length ((intPart1.length : Int) - 3) intPart1
    if fracPart ≠ [] then sign ++ intPart ++ ',' :: fracPart
    else sign ++ intPart

/-- Embedding of `toInternalString`: a value to its internal string (no thousands
separators, `.` as decimal separator).  The literal `1e-12L` is the
`long double` nearest to `10^-12`. -/
def toInternalString (v : LongDouble) : Str :=
  let rounded := round v
  if |ldSub v (rounded : ℚ)| < ldRound (1 / 10 ^ 12) then
    if LLONG_MIN ≤ rounded ∧ rounded ≤ LLONG_MAX then showLongLong rounded
    else showScientific10 v
  else
    let s := showFixed4 v
    if '.' ∈ s then
      let s1 := (s.reverse.dropWhile (fun c => c == '0')).reverse
      if s1.getLast? = some '.' then s1.dropLast else s1
    else s

/-- Embedding of `Calculator::formatNumber`. -/
def formatNumber (v : LongDouble) : Str := formatTR_fromInternal (toInternalString v)

/-! ## The engine state -/

/-- The data members of `Calculator`. -/
structure Calculator where
  /-- The number being typed, in internal form. -/
  entry_ : Str
  /-- The accumulator. -/
  acc_ : Option LongDouble
  /-- The pending operator. -/
  op_ : Option Char
  justEvaluated_ : Bool
  error_ : Bool
  errorMsg_ : Str
  /-- The memory register. -/
  mem_ : Option LongDouble
  deriving DecidableEq

/-- Embedding of `Calculator::kMaxDigits`. -/
def kMaxDigits : Nat := 10

/-- How a call of `press` ends: it returns its `bool`, or the exception of
`std::stold` leaves it; either way the object is left in a state. -/
inductive Outcome where
  | returned (consumed : Bool) (s : Calculator)
  | threw (s : Calculator)
  deriving DecidableEq

/-- The object state a call leaves behind. -/
def Outcome.state : Outcome → Calculator
  | .returned _ s => s
  | .threw s => s

/-- Embedding of `Calculator::setError`. -/
def setError (s : Calculator) (msg : Str) : Calculator :=
  { s with error_ := true, errorMsg_ := msg }

/-- Embedding of `Calculator::clearError`. -/
def clearError (s : Calculator) : Calculator :=
  { s with error_ := false, errorMsg_ := [] }

/-- Embedding of `Calculator::clearAll`: everything but the memory register. -/
def clearAll (s : Calculator) : Calculator :=
  clearError { s with entry_ := [], acc_ := none, op_ := none, justEvaluated_ := false }

/-- The object after the constructor `Calculator::Calculator()`: the members'
default values, then `clearAll()`. -/
def fresh : Calculator :=
  clearAll { entry_ := [], acc_ := none, op_ := none, justEvaluated_ := false,
             error_ := false, errorMsg_ := [], mem_ := none }

/-- Embedding of `Calculator::appendDigit`. -/
def appendDigit (s : Calculator) (d : Char) : Bool × Calculator :=
  let digits := (s.entry_.filter isdigit).length
  if kMaxDigits ≤ digits then (true, setError s "Max 10 digits".toList)
  else if s.entry_ = ['0'] then (true, { s with entry_ := [d] })
  else (true, { s with entry_ := s.entry_ ++ [d] })

/-- Embedding of `Calculator::backspace`. -/
def backspace (s : Calculator) : Calculator :=
  if s.entry_ ≠ [] then
    let e := s.entry_.dropLast
    if e = [] then { s with entry_ := e, justEvaluated_ := false } else { s with entry_ := e }
  else s

/-- Embedding of `Calculator::entryValue`: `none` when `std::stold` throws. -/
def entryValue (s : Calculator) : Option LongDouble := stold s.entry_

/-- Embedding of `Calculator::setEntryFromNumber`. -/
def setEntryFromNumber (s : Calculator) (v : LongDouble) : Calculator :=
  { s with entry_ := toInternalString v }

/-- The end of `Calculator::applyPendingOp`, from the finiteness test on. -/
def storeResult (s : Calculator) (out : LongDouble) : Bool × Calculator :=
  if ¬ isfinite out then (false, setError s "Overflow/invalid".toList)
  else (true, { s with acc_ := some out })

/-- Embedding of `Calculator::applyPendingOp`. -/
def applyPendingOp (s : Calculator) (rhs : LongDouble) : Bool × Calculator :=
  match s.acc_, s.op_ with
  | some lhs, some op =>
    if op = '+' then storeResult s (ldAdd lhs rhs)
    else if op = '-' then storeResult s (ldSub lhs rhs)
    else if op = '*' then storeResult s (ldMul lhs rhs)
    else if op = '/' then
      if rhs = 0 then (false, setError s "Division by zero".toList)
      else storeResult s (ldDiv lhs rhs)
    else storeResult s 0
  | _, _ => (true, { s with acc_ := some rhs })

/-- Embedding of `Calculator::memoryClear`. -/
def memoryClear (s : Calculator) : Calculator := { s with mem_ := none }

/-- Embedding of `Calculator::memoryRecall`. -/
def memoryRecall (s : Calculator) : Calculator :=
  match s.mem_ with
  | none => s
  | some m => clearError { setEntryFromNumber s m with justEvaluated_ := false }

/-- Embedding of `Calculator::memoryAdd`; `none` when `entryValue()` throws, which happens
before any member is written. -/
def memoryAdd (s : Calculator) : Option Calculator :=
  let v? : Option LongDouble :=
    if s.entry_ ≠ [] then entryValue s
    else match s.acc_ with
      | some a => some a
      | none => some 0
  match v? with
  | none => none
  | some v => some { s with mem_ := some (ldAdd (s.mem_.getD 0) v) }

/-- Embedding of `Calculator::percent`; `none` when `entryValue()` throws, which happens
before any member is written. -/
def percent (s : Calculator) : Option Calculator :=
  if s.entry_ = [] then
    match s.acc_ with
    | some a => some (setEntryFromNumber s (ldDiv a 100))
    | none => some s
  else
    match entryValue s with
    | none => none
    | some e =>
      let e1 : LongDouble := match s.acc_, s.op_ with
        | some a, some _ => ldMul a (ldDiv e 100)
        | _, _ => ldDiv e 100
      some { setEntryFromNumber s e1 with justEvaluated_ := false }

/-- The reset `acc_.reset(); op_.reset(); entry_.clear(); justEvaluated_ =
false;` that a digit or a decimal point makes after an evaluation. -/
def startNewEntry (s : Calculator) : Calculator :=
  if s.justEvaluated_ then
    { s with acc_ := none, op_ := none, entry_ := [], justEvaluated_ := false }
  else s

/-- The operator branch of `Calculator::press` (`+`, `-`, `*`, `/`). -/
def pressOperator (s : Calculator) (key : Char) : Outcome :=
  let s1 := { s with justEvaluated_ := false }
  match s1.acc_ with
  | none =>
    if s1.entry_ ≠ [] then
      match entryValue s1 with
      | none => .threw s1
      | some v => .returned true { s1 with acc_ := some v, op_ := some key, entry_ := [] }
    else .returned true { s1 with acc_ := some 0, op_ := some key, entry_ := [] }
  | some _ =>
    if s1.op_.isSome ∧ s1.entry_ ≠ [] then
      match entryValue s1 with
      | none => .threw s1
      | some v =>
        match applyPendingOp s1 v with
        | (false, s2) => .returned true s2
        | (true, s2) => .returned true { s2 with op_ := some key, entry_ := [] }
    else .returned true { s1 with op_ := some key, entry_ := [] }

/-- The `=` branch of `Calculator::press`. -/
def pressEquals (s : Calculator) : Outcome :=
  match s.acc_ with
  | none =>
    .returned true
      { s with entry_ := if s.entry_ = [] then ['0'] else s.entry_, justEvaluated_ := true }
  | some a =>
    if s.op_.isSome then
      if s.entry_ = [] then .returned true (setError s "Enter a number before '='".toList)
      else
        match entryValue s with
        | none => .threw s
        | some v =>
          match applyPendingOp s v with
          | (false, s2) => .returned true s2
          | (true, s2) =>
            .returned true
              { setEntryFromNumber s2 (s2.acc_.getD 0) with op_ := none, justEvaluated_ := true }
    else .returned true { setEntryFromNumber s a with justEvaluated_ := true }

/-- The part of `Calculator::press` below the error gate: digits, clear,
backspace, decimal point, operators, equals, and the final `return false`. -/
def pressUnlatched (s : Calculator) (key : Char) : Outcome :=
  if '0' ≤ key ∧ key ≤ '9' then
    .returned (appendDigit (startNewEntry s) key).1 (appendDigit (startNewEntry s) key).2
  else if key = 'c' ∨ key = 'C' then .returned true (clearAll s)
  else if key = 'b' ∨ key = 'B' then .returned true (backspace s)
  else if key = '.' ∨ key = ',' then
    let s1 := startNewEntry s
    if s1.entry_ = [] then .returned true { s1 with entry_ := ['0', '.'] }
    else if '.' ∉ s1.entry_ then .returned true { s1 with entry_ := s1.entry_ ++ ['.'] }
    else .returned true s1
  else if key = '+' ∨ key = '-' ∨ key = '*' ∨ key = '/' then pressOperator s key
  else if key = '=' then pressEquals s
  else .returned false s

/-- Embedding of `Calculator::press`. -/
def press (s : Calculator) (key : Char) : Outcome :=
  if key = 'X' then .returned true (memoryClear s)
  else if key = 'R' then .returned true (memoryRecall s)
  else if key = 'M' then
    match memoryAdd s with
    | some t => .returned true t
    | none => .threw s
  else if key = '%' then
    match percent s with
    | some t => .returned true t
    | none => .threw s
  else if key = ' ' ∨ key = '\n' ∨ key = '\r' ∨ key = '\t' then .returned false s
  else if s.error_ then
    if key = 'c' ∨ key = 'C' then .returned true (clearAll s) else .returned false s
  else pressUnlatched s key

/-- Embedding of `Calculator::display`. -/
def display (s : Calculator) : Str :=
  if s.error_ then "ERROR".toList
  else if s.entry_ ≠ [] then formatTR_fromInternal s.entry_
  else match s.acc_ with
    | some a => formatNumber a
    | none => ['0']

/-- Embedding of `Calculator::statusLine`. -/
def statusLine (s : Calculator) : Str :=
  if s.error_ then s.errorMsg_
  else match s.acc_ with
    | some a => formatNumber a ++ (match s.op_ with
        | some op => [' ', op]
        | none => [])
    | none => "Ready".toList

/-- Embedding of `Calculator::hasMemory`. -/
def hasMemory (s : Calculator) : Bool := s.mem_.isSome

/-- Embedding of `Calculator::hasError`. -/
def hasError (s : Calculator) : Bool := s.error_

/-- Embedding of `Calculator::errorMessage`. -/
def errorMessage (s : Calculator) : Str := s.errorMsg_

/-! ## Key sequences -/

/-- Feeding a key sequence, one `press` after the other: the values returned
and the final state, or `none` when a call throws (nothing catches it, so no
later key is fed). -/
def pressAll (s : Calculator) : List Char → Option (List Bool × Calculator)
  | [] => some ([], s)
  | k :: ks =>
    match press s k with
    | .returned b s1 =>
      match pressAll s1 ks with
      | some (bs, t) => some (b :: bs, t)
      | none => none
    | .threw _ => none

/-- A state the engine can be in: the one some key sequence leaves a fresh
engine in. -/
def Reachable (s : Calculator) : Prop := ∃ ks bs, pressAll fresh ks = some (bs, s)

/-! ## The display form, in the words of the specification -/

/-- Grouping of a reversed digit string: a `.` after every complete group of
three characters that still has a character behind it. -/
def groupFromRight : Str → Str
  | a :: b :: c :: d :: rest => a :: b :: c :: '.' :: groupFromRight (d :: rest)
  | s => s

/-- A numeral with a `.` inserted between each group of three digits counted
from the right. -/
def groupThousands (s : Str) : Str := (groupFromRight s.reverse).reverse

/-- The display form of an integer: its decimal numeral with the thousands
grouped by `.`, and a leading `-` if it is negative. -/
def displayForm (z : Int) : Str :=
  (if z < 0 then ['-'] else []) ++ groupThousands (Nat.toDigits 10 z.natAbs)

/-- White-space keys: space, newline, carriage return, tab. -/
abbrev isWhitespaceKey (key : Char) : Prop :=
  key = ' ' ∨ key = '\n' ∨ key = '\r' ∨ key = '\t'

/-- The four memory and percent keys, which `press` serves before anything
else. -/
abbrev isMemoryOrPercentKey (key : Char) : Prop :=
  key = 'X' ∨ key = 'R' ∨ key = 'M' ∨ key = '%'

/-- The clear key, in either case. -/
abbrev isClearKey (key : Char) : Prop := key = 'c' ∨ key = 'C'

/-- The four binary operator keys. -/
abbrev isOperatorKey (key : Char) : Prop := key = '+' ∨ key = '-' ∨ key = '*' ∨ key = '/'

/-- The recognised symbols: digits, `.`, `,`, the operators, `=`, clear,
backspace, and the memory and percent keys. -/
abbrev isRecognisedKey (key : Char) : Prop :=
  ('0' ≤ key ∧ key ≤ '9') ∨ key = '.' ∨ key = ',' ∨ isOperatorKey key ∨ key = '=' ∨
    isClearKey key ∨ key = 'b' ∨ key = 'B' ∨ isMemoryOrPercentKey key

/-! ## Concrete states used below -/

/-- The state after the keys `5`, `M`, `c`, `8`, `/`, `0`, `=`: a division by
zero with 5 in the memory register. -/
def divisionErrorWithMemory : Calculator :=
  { entry_ := ['0'], acc_ := some 8, op_ := some '/', justEvaluated_ := false,
    error_ := true, errorMsg_ := "Division by zero".toList, mem_ := some 5 }

/-- The state after the keys `3`, `-`, `5`, `=`, `b`: the result `-2` with its
last character erased. -/
def loneMinusSign : Calculator :=
  { entry_ := ['-'], acc_ := some (-2), op_ := none, justEvaluated_ := true,
    error_ := false, errorMsg_ := [], mem_ := none }

/-! ## Predicates on states and strings -/

/-- What every reachable state satisfies: after an evaluation no operator is
pending, and a pending operator comes with an accumulator. -/
def Consistent (s : Calculator) : Prop :=
  (s.justEvaluated_ = true → s.op_ = none) ∧ (s.op_.isSome = true → s.acc_.isSome = true)

/-- A string of decimal digits only. -/
def PlainDigits (d : Str) : Prop := ∀ c ∈ d, '0' ≤ c ∧ c ≤ '9'

/-- The error message is empty whenever the error flag is clear. -/
def MessageClean (s : Calculator) : Prop := s.error_ = false → s.errorMsg_ = []

/-- Groups of digits written one after the other with a `.` between
neighbours. -/
def joinWithDots : List Str → Str
  | [] => []
  | [g] => g
  | g :: h :: t => g ++ '.' :: joinWithDots (h :: t)

/-- The entry holds at most one decimal point. -/
def OneDot (s : Calculator) : Prop := s.entry_.count '.' ≤ 1

/-- The decimals of `r / 100` for `0 < r < 100`, written without a trailing
zero. -/
def twoDecimals (r : Nat) : Str :=
  if r % 10 = 0 then [Nat.digitChar (r / 10)]
  else [Nat.digitChar (r / 10), Nat.digitChar (r % 10)]

/-- The internal form of the number `k / 100`: a `-` if it is negative, the
numeral of its integer part, and, when it is not an integer, a `.` and its
decimals. -/
def internalFormHundredths (k : Int) : Str :=
  (if k < 0 then ['-'] else []) ++ (Nat.toDigits 10 (k.natAbs / 100) ++
    (if k.natAbs % 100 = 0 then [] else '.' :: twoDecimals (k.natAbs % 100)))

/-- The display form of the number `k / 100`: a `-` if it is negative, its
integer part with the thousands grouped by `.`, and, when it is not an
integer, a `,` and its decimals. -/
def displayFormHundredths (k : Int) : Str :=
  (if k < 0 then ['-'] else []) ++ (groupThousands (Nat.toDigits 10 (k.natAbs / 100)) ++
    (if k.natAbs % 100 = 0 then [] else ',' :: twoDecimals (k.natAbs % 100)))

/-- The exact result of `x op y` on rational operands for the operators `+`,
`-` and `*`. -/
def exactOpRat (op : Char) (x y : ℚ) : ℚ :=
  if op = '+' then x + y else if op = '-' then x - y else x * y

/-- The exact value of `a op (a * b / 100)` in hundredths. -/
def percentHundredths (op : Char) (a b : Nat) : Int :=
  if op = '+' then 100 * a + a * b else if op = '-' then 100 * a - a * b else a * (a * b)

/-- The state after the keys `5`, `M`, `c`: a cleared engine with 5 in the
memory register. -/
def clearedWithMemoryFive : Calculator :=
  { entry_ := [], acc_ := none, op_ := none, justEvaluated_ := false,
    error_ := false, errorMsg_ := [], mem_ := some 5 }

/-! ## Frame lemmas -/

theorem storeResult_frame (s : Calculator) (out : LongDouble) :
    (storeResult s out).2.entry_ = s.entry_ ∧ (storeResult s out).2.op_ = s.op_ ∧
    (storeResult s out).2.justEvaluated_ = s.justEvaluated_ ∧
    (storeResult s out).2.mem_ = s.mem_ := by
  unfold storeResult
  split <;> simp [setError]

theorem applyPendingOp_frame (s : Calculator) (rhs : LongDouble) :
    (applyPendingOp s rhs).2.entry_ = s.entry_ ∧ (applyPendingOp s rhs).2.op_ = s.op_ ∧
    (applyPendingOp s rhs).2.justEvaluated_ = s.justEvaluated_ ∧
    (applyPendingOp s rhs).2.mem_ = s.mem_ := by
  unfold applyPendingOp
  split
  · split_ifs <;> first | exact storeResult_frame _ _ | simp [setError]
  · simp

theorem pressOperator_mem (s : Calculator) (key : Char) :
    (pressOperator s key).state.mem_ = s.mem_ := by
  unfold pressOperator
  simp only
  split
  · split_ifs
    · split <;> simp [Outcome.state]
    · simp [Outcome.state]
  · split_ifs
    · split
      · simp [Outcome.state]
      · rename_i v _
        have h := (applyPendingOp_frame { s with justEvaluated_ := false } v).2.2.2
        split <;> rename_i heq <;> rw [heq] at h <;> simpa [Outcome.state] using h
    · simp [Outcome.state]

theorem pressEquals_mem (s : Calculator) : (pressEquals s).state.mem_ = s.mem_ := by
  unfold pressEquals
  split
  · simp [Outcome.state]
  · split_ifs
    · simp [Outcome.state, setError]
    · split
      · simp [Outcome.state]
      · rename_i v _
        have h := (applyPendingOp_frame s v).2.2.2
        split <;> rename_i heq <;> rw [heq] at h <;>
          simpa [Outcome.state, setEntryFromNumber] using h
    · simp [Outcome.state, setEntryFromNumber]

theorem appendDigit_fst (s : Calculator) (d : Char) : (appendDigit s d).1 = true := by
  simp only [appendDigit]
  split_ifs <;> rfl

theorem appendDigit_mem (s : Calculator) (d : Char) : (appendDigit s d).2.mem_ = s.mem_ := by
  simp only [appendDigit]
  split_ifs <;> simp [setError]

theorem startNewEntry_mem (s : Calculator) : (startNewEntry s).mem_ = s.mem_ := by
  unfold startNewEntry
  split_ifs <;> rfl

theorem memoryRecall_mem (s : Calculator) : (memoryRecall s).mem_ = s.mem_ := by
  unfold memoryRecall
  split
  · rfl
  · simp [clearError, setEntryFromNumber]

theorem percent_mem (s t : Calculator) (h : percent s = some t) : t.mem_ = s.mem_ := by
  unfold percent at h
  split_ifs at h
  · split at h <;> simp [setEntryFromNumber] at h <;> subst h <;> rfl
  · split at h
    · simp at h
    · simp [setEntryFromNumber] at h
      subst h
      rfl

theorem pressUnlatched_mem (s : Calculator) (key : Char) :
    (pressUnlatched s key).state.mem_ = s.mem_ := by
  unfold pressUnlatched
  split_ifs
  · simp only [Outcome.state, appendDigit_mem, startNewEntry_mem]
  · rfl
  · simp only [Outcome.state, backspace]
    split_ifs <;> rfl
  · simp only
    split_ifs <;> simp only [Outcome.state, startNewEntry_mem]
  · exact pressOperator_mem s key
  · exact pressEquals_mem s
  · rfl

/-! ## How `press` dispatches -/

theorem digit_toNat (c : Char) : ('0' ≤ c ∧ c ≤ '9') ↔ (48 ≤ c.toNat ∧ c.toNat ≤ 57) :=
  Iff.rfl

theorem press_X (s : Calculator) : press s 'X' = .returned true (memoryClear s) := by
  unfold press
  rw [if_pos rfl]

theorem press_R (s : Calculator) : press s 'R' = .returned true (memoryRecall s) := by
  unfold press
  rw [if_neg (by decide), if_pos rfl]

theorem press_M (s : Calculator) :
    press s 'M' = (match memoryAdd s with
      | some t => .returned true t
      | none => .threw s) := by
  unfold press
  rw [if_neg (by decide), if_neg (by decide), if_pos rfl]

theorem press_percent (s : Calculator) :
    press s '%' = (match percent s with
      | some t => .returned true t
      | none => .threw s) := by
  unfold press
  rw [if_neg (by decide), if_neg (by decide), if_neg (by decide), if_pos rfl]

theorem press_whitespace (s : Calculator) (key : Char) (hw : isWhitespaceKey key) :
    press s key = .returned false s := by
  have hX : key ≠ 'X' := by rintro rfl; revert hw; decide
  have hR : key ≠ 'R' := by rintro rfl; revert hw; decide
  have hM : key ≠ 'M' := by rintro rfl; revert hw; decide
  have hP : key ≠ '%' := by rintro rfl; revert hw; decide
  unfold press
  rw [if_neg hX, if_neg hR, if_neg hM, if_neg hP, if_pos hw]

/-- Below the memory, percent and white-space keys, `press` is the error gate
in front of `pressUnlatched`. -/
theorem press_gate (s : Calculator) (key : Char) (hm : ¬ isMemoryOrPercentKey key)
    (hw : ¬ isWhitespaceKey key) :
    press s key =
      if s.error_ then
        if key = 'c' ∨ key = 'C' then .returned true (clearAll s) else .returned false s
      else pressUnlatched s key := by
  have hX : key ≠ 'X' := fun h => hm (Or.inl h)
  have hR : key ≠ 'R' := fun h => hm (Or.inr (Or.inl h))
  have hM : key ≠ 'M' := fun h => hm (Or.inr (Or.inr (Or.inl h)))
  have hP : key ≠ '%' := fun h => hm (Or.inr (Or.inr (Or.inr h)))
  unfold press
  rw [if_neg hX, if_neg hR, if_neg hM, if_neg hP, if_neg hw]

theorem digit_not_special (key : Char) (hd : '0' ≤ key ∧ key ≤ '9') :
    ¬ isMemoryOrPercentKey key ∧ ¬ isWhitespaceKey key ∧ ¬ isClearKey key := by
  rw [digit_toNat] at hd
  refine ⟨?_, ?_, ?_⟩
  · rintro (rfl | rfl | rfl | rfl) <;> revert hd <;> decide
  · rintro (rfl | rfl | rfl | rfl) <;> revert hd <;> decide
  · rintro (rfl | rfl) <;> revert hd <;> decide

theorem press_digit (s : Calculator) (key : Char) (hd : '0' ≤ key ∧ key ≤ '9')
    (he : s.error_ = false) :
    press s key = .returned true (appendDigit (startNewEntry s) key).2 := by
  obtain ⟨hm, hw, _⟩ := digit_not_special key hd
  rw [press_gate s key hm hw, he]
  simp only [Bool.false_eq_true, if_false]
  unfold pressUnlatched
  rw [if_pos hd, appendDigit_fst]

theorem operator_not_special (key : Char) (ho : isOperatorKey key) :
    ¬ isMemoryOrPercentKey key ∧ ¬ isWhitespaceKey key ∧ ¬ isClearKey key ∧
      ¬ ('0' ≤ key ∧ key ≤ '9') ∧ ¬ (key = 'b' ∨ key = 'B') ∧ ¬ (key = '.' ∨ key = ',') := by
  rcases ho with rfl | rfl | rfl | rfl <;> decide

theorem press_operator (s : Calculator) (key : Char) (ho : isOperatorKey key)
    (he : s.error_ = false) : press s key = pressOperator s key := by
  obtain ⟨hm, hw, hc, hd, hb, hp⟩ := operator_not_special key ho
  rw [press_gate s key hm hw, he]
  simp only [Bool.false_eq_true, if_false]
  unfold pressUnlatched
  rw [if_neg hd, if_neg hc, if_neg hb, if_neg hp, if_pos ho]

theorem press_equals (s : Calculator) (he : s.error_ = false) :
    press s '=' = pressEquals s := by
  rw [press_gate s '=' (by decide) (by decide), he]
  simp only [Bool.false_eq_true, if_false]
  unfold pressUnlatched
  rw [if_neg (by decide), if_neg (by decide), if_neg (by decide), if_neg (by decide),
    if_neg (by decide), if_pos rfl]

theorem press_clear (s : Calculator) (key : Char) (hc : isClearKey key) :
    press s key = .returned true (clearAll s) := by
  have hm : ¬ isMemoryOrPercentKey key := by rcases hc with rfl | rfl <;> decide
  have hw : ¬ isWhitespaceKey key := by rcases hc with rfl | rfl <;> decide
  have hd : ¬ ('0' ≤ key ∧ key ≤ '9') := by rcases hc with rfl | rfl <;> decide
  rw [press_gate s key hm hw]
  unfold pressUnlatched
  rw [if_pos hc, if_neg hd, if_pos hc]
  split <;> rfl

theorem press_other (s : Calculator) (key : Char) (hr : ¬ isRecognisedKey key) :
    press s key = .returned false s := by
  by_cases hw : isWhitespaceKey key
  · exact press_whitespace s key hw
  have hm : ¬ isMemoryOrPercentKey key := fun h => hr (by simp [isRecognisedKey, h])
  have hd : ¬ ('0' ≤ key ∧ key ≤ '9') := fun h => hr (Or.inl h)
  have hc : ¬ (key = 'c' ∨ key = 'C') := fun h => hr (by simp [isRecognisedKey, isClearKey, h])
  have hb : ¬ (key = 'b' ∨ key = 'B') := by
    rintro (h | h) <;> exact hr (by simp [isRecognisedKey, h])
  have hp : ¬ (key = '.' ∨ key = ',') := by
    rintro (h | h) <;> exact hr (by simp [isRecognisedKey, h])
  have ho : ¬ (key = '+' ∨ key = '-' ∨ key = '*' ∨ key = '/') :=
    fun h => hr (by simp [isRecognisedKey, isOperatorKey, h])
  have he : ¬ key = '=' := fun h => hr (by simp [isRecognisedKey, h])
  rw [press_gate s key hm hw]
  unfold pressUnlatched
  rw [if_neg hc, if_neg hd, if_neg hc, if_neg hb, if_neg hp, if_neg ho, if_neg he]
  split <;> rfl

theorem pressOperator_not_false (s : Calculator) (key : Char) (t : Calculator) :
    pressOperator s key ≠ .returned false t := by
  unfold pressOperator
  simp only
  split
  · split_ifs
    · split <;> simp
    · simp
  · split_ifs
    · split
      · simp
      · split <;> simp
    · simp

theorem pressEquals_not_false (s t : Calculator) : pressEquals s ≠ .returned false t := by
  unfold pressEquals
  split
  · simp
  · split_ifs
    · simp
    · split
      · simp
      · split <;> simp
    · simp

theorem pressUnlatched_not_false (s : Calculator) (key : Char) (hr : isRecognisedKey key)
    (hm : ¬ isMemoryOrPercentKey key) (t : Calculator) :
    pressUnlatched s key ≠ .returned false t := by
  unfold pressUnlatched
  split_ifs with h1 h2 h3 h4 h5 h6
  · simp [appendDigit_fst]
  · simp
  · simp
  · simp only
    split_ifs <;> simp
  · exact pressOperator_not_false s key t
  · exact pressEquals_not_false s t
  · exfalso
    rcases hr with h | h | h | h | h | h | h | h | h
    · exact h1 h
    · exact h4 (Or.inl h)
    · exact h4 (Or.inr h)
    · exact h5 h
    · exact h6 h
    · exact h2 h
    · exact h3 (Or.inl h)
    · exact h3 (Or.inr h)
    · exact hm h

theorem press_memory_key_not_false (s : Calculator) (key : Char)
    (hm : isMemoryOrPercentKey key) (t : Calculator) : press s key ≠ .returned false t := by
  rcases hm with rfl | rfl | rfl | rfl
  · simp [press_X]
  · simp [press_R]
  · rw [press_M]
    split <;> simp
  · rw [press_percent]
    split <;> simp

/-! ## C6: when `press` returns false -/

/-- C6. `press` returns false exactly when the key is white space, or is not a
recognised symbol, or the engine is in error state and the key is neither
clear nor one of the memory and percent keys; and whenever `press` returns
false, the state it leaves is the state it was given. -/
theorem press_false_iff (s : Calculator) (key : Char) :
    ((∃ t, press s key = .returned false t) ↔
      (isWhitespaceKey key ∨ ¬ isRecognisedKey key ∨
        (s.error_ = true ∧ ¬ isClearKey key ∧ ¬ isMemoryOrPercentKey key))) ∧
    (∀ t, press s key = .returned false t → t = s) := by
  by_cases hw : isWhitespaceKey key
  · rw [press_whitespace s key hw]
    exact ⟨⟨fun _ => Or.inl hw, fun _ => ⟨s, rfl⟩⟩, fun t h => by cases h; rfl⟩
  by_cases hr : isRecognisedKey key
  swap
  · rw [press_other s key hr]
    exact ⟨⟨fun _ => Or.inr (Or.inl hr), fun _ => ⟨s, rfl⟩⟩, fun t h => by cases h; rfl⟩
  by_cases hm : isMemoryOrPercentKey key
  · refine ⟨⟨?_, ?_⟩, ?_⟩
    · rintro ⟨t, ht⟩
      exact absurd ht (press_memory_key_not_false s key hm t)
    · rintro (h | h | ⟨_, _, h⟩)
      · exact absurd h hw
      · exact absurd hr h
      · exact absurd hm h
    · intro t ht
      exact absurd ht (press_memory_key_not_false s key hm t)
  rw [press_gate s key hm hw]
  by_cases he : s.error_ = true
  · rw [if_pos he]
    by_cases hc : isClearKey key
    · rw [if_pos hc]
      refine ⟨⟨?_, ?_⟩, ?_⟩
      · rintro ⟨t, ht⟩
        cases ht
      · rintro (h | h | ⟨_, h, _⟩)
        · exact absurd h hw
        · exact absurd hr h
        · exact absurd hc h
      · intro t ht
        cases ht
    · rw [if_neg hc]
      exact ⟨⟨fun _ => Or.inr (Or.inr ⟨he, hc, hm⟩), fun _ => ⟨s, rfl⟩⟩,
        fun t h => by cases h; rfl⟩
  · rw [if_neg he]
    refine ⟨⟨?_, ?_⟩, ?_⟩
    · rintro ⟨t, ht⟩
      exact absurd ht (pressUnlatched_not_false s key hr hm t)
    · rintro (h | h | ⟨h, _, _⟩)
      · exact absurd h hw
      · exact absurd hr h
      · exact absurd h he
    · intro t ht
      exact absurd ht (pressUnlatched_not_false s key hr hm t)

/-! ## C9: clear -/

/-- C9. In every state, in error or not, the clear key (`c` or `C`) is
consumed and leaves entry empty, no accumulator, no pending operator,
`justEvaluated` false, no error and an empty message, with the memory register
as before; pressing it again gives the same state again. -/
theorem clear_resets (s : Calculator) (key : Char) (hc : isClearKey key) :
    press s key = .returned true
      { entry_ := [], acc_ := none, op_ := none, justEvaluated_ := false,
        error_ := false, errorMsg_ := [], mem_ := s.mem_ } ∧
    press (press s key).state key = press s key := by
  have h1 : press s key = .returned true
      { entry_ := [], acc_ := none, op_ := none, justEvaluated_ := false,
        error_ := false, errorMsg_ := [], mem_ := s.mem_ } := by
    rw [press_clear s key hc]
    rfl
  refine ⟨h1, ?_⟩
  rw [h1, press_clear _ key hc]
  rfl

/-- C9, at a concrete input: the state after `5`, `M`, `c`, `8`, `/`, `0`, `=`
(division by zero, 5 in memory), key `c`. -/
theorem clear_resets_witness :
    isClearKey 'c' ∧
    press { entry_ := ['0'], acc_ := some 8, op_ := some '/', justEvaluated_ := false,
            error_ := true, errorMsg_ := "Division by zero".toList, mem_ := some 5 } 'c' =
      .returned true
        { entry_ := [], acc_ := none, op_ := none, justEvaluated_ := false,
          error_ := false, errorMsg_ := [], mem_ := some 5 } :=
  ⟨by decide, (clear_resets _ 'c' (by decide)).1⟩

/-! ## C5: the digit cap -/

/-- C5. In an error-free state with `justEvaluated` false whose entry holds ten
or more digit characters, a digit key is consumed, raises the error
`Max 10 digits`, and changes nothing else: entry, accumulator, pending
operator, `justEvaluated` and memory are as before. -/
theorem digit_cap (s : Calculator) (key : Char) (hd : '0' ≤ key ∧ key ≤ '9')
    (he : s.error_ = false) (hj : s.justEvaluated_ = false)
    (hlen : 10 ≤ (s.entry_.filter isdigit).length) :
    press s key = .returned true
      { s with error_ := true, errorMsg_ := "Max 10 digits".toList } := by
  rw [press_digit s key hd he]
  have hs : startNewEntry s = s := by
    unfold startNewEntry
    rw [hj]
    rfl
  rw [hs]
  simp only [appendDigit, kMaxDigits, if_pos hlen, setError]

/-- C5, at a concrete input: entry `1234567890`, accumulator 7, pending `+`,
memory 3, key `5`. -/
theorem digit_cap_witness :
    press { entry_ := "1234567890".toList, acc_ := some 7, op_ := some '+',
            justEvaluated_ := false, error_ := false, errorMsg_ := [], mem_ := some 3 } '5' =
      .returned true
        { entry_ := "1234567890".toList, acc_ := some 7, op_ := some '+',
          justEvaluated_ := false, error_ := true, errorMsg_ := "Max 10 digits".toList,
          mem_ := some 3 } :=
  digit_cap _ '5' (by decide) rfl rfl (by decide)

/-! ## C10: the memory frame -/

/-- C10. For every state and every key other than memory-clear (`X`) and
memory-add (`M`), the state `press` leaves behind (whether the call returns or
throws) has the memory register of the state before. -/
theorem press_memory_frame (s : Calculator) (key : Char) (hX : key ≠ 'X') (hM : key ≠ 'M') :
    (press s key).state.mem_ = s.mem_ := by
  by_cases hR : key = 'R'
  · subst hR
    rw [press_R]
    exact memoryRecall_mem s
  by_cases hP : key = '%'
  · subst hP
    rw [press_percent]
    split
    · rename_i t ht
      exact percent_mem s t ht
    · rfl
  by_cases hw : isWhitespaceKey key
  · rw [press_whitespace s key hw]
    rfl
  have hm : ¬ isMemoryOrPercentKey key := by
    rintro (h | h | h | h) <;> contradiction
  rw [press_gate s key hm hw]
  split_ifs
  · rfl
  · rfl
  · exact pressUnlatched_mem s key

/-- C10, at a concrete input: the clear key on an error state with 5 in
memory. -/
theorem press_memory_frame_witness :
    (press { entry_ := ['0'], acc_ := some 8, op_ := some '/', justEvaluated_ := false,
             error_ := true, errorMsg_ := "Division by zero".toList, mem_ := some 5 }
        'c').state.mem_ = some 5 :=
  press_memory_frame _ 'c' (by decide) (by decide)

/-! ## C7: error latching -/

theorem percent_frame (s t : Calculator) (h : percent s = some t) :
    t.acc_ = s.acc_ ∧ t.op_ = s.op_ ∧ t.error_ = s.error_ ∧ t.errorMsg_ = s.errorMsg_ := by
  unfold percent at h
  split_ifs at h
  · split at h <;> simp [setEntryFromNumber] at h <;> subst h <;> simp
  · split at h
    · simp at h
    · simp [setEntryFromNumber] at h
      subst h
      simp

theorem memoryAdd_frame (s t : Calculator) (h : memoryAdd s = some t) :
    t.entry_ = s.entry_ ∧ t.acc_ = s.acc_ ∧ t.op_ = s.op_ ∧
    t.justEvaluated_ = s.justEvaluated_ ∧ t.error_ = s.error_ ∧ t.errorMsg_ = s.errorMsg_ := by
  simp only [memoryAdd] at h
  split at h
  · simp at h
  · simp at h
    subst h
    simp

/-- C7 as stated fails: after `5`, `M`, `c`, `8`, `/`, `0`, `=` the error flag is
set, and the key `R`, which is not clear, leaves a state whose error flag is
reset and whose entry is no longer the one before. -/
theorem error_latch_counterexample :
    pressAll fresh "5Mc8/0=".toList =
      some ([true, true, true, true, true, true, true], divisionErrorWithMemory) ∧
    divisionErrorWithMemory.error_ = true ∧ ¬ isClearKey 'R' ∧
    press divisionErrorWithMemory 'R' =
      .returned true
        { entry_ := ['5'], acc_ := some 8, op_ := some '/', justEvaluated_ := false,
          error_ := false, errorMsg_ := [], mem_ := some 5 } := by
  decide!

/-- C7, amended. In a state whose error flag is set: a key that is neither
clear nor one of the memory and percent keys (`X`, `R`, `M`, `%`) is refused
and changes no field; every key other than clear and memory-recall leaves the
error flag set, whether the call returns or throws; memory-clear and
memory-add leave entry, accumulator, pending operator and `justEvaluated` as
they were; and memory-recall with an empty memory register changes nothing.
So only clear, or memory-recall with a value in memory, leaves the error
state. -/
theorem error_latch (s : Calculator) (key : Char) (he : s.error_ = true) :
    (¬ isClearKey key → ¬ isMemoryOrPercentKey key → press s key = .returned false s) ∧
    (¬ isClearKey key → key ≠ 'R' → (press s key).state.error_ = true) ∧
    (key = 'X' ∨ key = 'M' →
      (press s key).state.entry_ = s.entry_ ∧ (press s key).state.acc_ = s.acc_ ∧
      (press s key).state.op_ = s.op_ ∧
      (press s key).state.justEvaluated_ = s.justEvaluated_) ∧
    (key = 'R' → s.mem_ = none → press s key = .returned true s) := by
  have hgate : ¬ isClearKey key → ¬ isMemoryOrPercentKey key →
      press s key = .returned false s := by
    intro hc hm
    by_cases hw : isWhitespaceKey key
    · exact press_whitespace s key hw
    · rw [press_gate s key hm hw, if_pos he, if_neg hc]
  refine ⟨hgate, ?_, ?_, ?_⟩
  · intro hc hR
    by_cases hm : isMemoryOrPercentKey key
    · rcases hm with rfl | rfl | rfl | rfl
      · rw [press_X]
        exact he
      · exact absurd rfl hR
      · rw [press_M]
        split
        · rename_i t ht
          have := (memoryAdd_frame s t ht).2.2.2.2.1
          simpa [Outcome.state, this] using he
        · exact he
      · rw [press_percent]
        split
        · rename_i t ht
          have := (percent_frame s t ht).2.2.1
          simpa [Outcome.state, this] using he
        · exact he
    · rw [hgate hc hm]
      exact he
  · rintro (rfl | rfl)
    · rw [press_X]
      exact ⟨rfl, rfl, rfl, rfl⟩
    · rw [press_M]
      split
      · rename_i t ht
        obtain ⟨h1, h2, h3, h4, _, _⟩ := memoryAdd_frame s t ht
        exact ⟨h1, h2, h3, h4⟩
      · exact ⟨rfl, rfl, rfl, rfl⟩
  · rintro rfl hmem
    rw [press_R]
    simp [memoryRecall, hmem]

/-- C7 amended, at a concrete input: the key `5` on the division-by-zero
state with 5 in memory is refused and changes nothing. -/
theorem error_latch_witness :
    press divisionErrorWithMemory '5' = .returned false divisionErrorWithMemory :=
  (error_latch divisionErrorWithMemory '5' rfl).1 (by decide) (by decide)

/-! ## Invariants of the reachable states -/

theorem storeResult_acc (s : Calculator) (out : LongDouble) (h : s.acc_.isSome = true) :
    (storeResult s out).2.acc_.isSome = true := by
  unfold storeResult
  split <;> simp [setError, h]

theorem applyPendingOp_acc (s : Calculator) (rhs : LongDouble) :
    (applyPendingOp s rhs).2.acc_.isSome = true := by
  unfold applyPendingOp
  split
  · rename_i lhs op hl ho
    have h : s.acc_.isSome = true := by simp [hl]
    split_ifs <;> first | exact storeResult_acc _ _ h | simp [setError, h]
  · simp

theorem pressOperator_consistent (s : Calculator) (key : Char) (b : Bool) (t : Calculator)
    (h : pressOperator s key = .returned b t) : Consistent t := by
  unfold pressOperator at h
  simp only at h
  split at h
  · split_ifs at h
    · split at h
      · simp at h
      · simp at h
        obtain ⟨_, rfl⟩ := h
        simp [Consistent]
    · simp at h
      obtain ⟨_, rfl⟩ := h
      simp [Consistent]
  · rename_i a ha
    split_ifs at h
    · split at h
      · simp at h
      · rename_i v _
        have hf := applyPendingOp_frame { s with justEvaluated_ := false } v
        have hacc := applyPendingOp_acc { s with justEvaluated_ := false } v
        split at h <;> rename_i s2 heq <;> rw [heq] at hf hacc <;> simp at h <;>
          obtain ⟨_, rfl⟩ := h <;> simp only at hf hacc
        · exact ⟨by simp [hf.2.2.1], fun _ => hacc⟩
        · simp only [Consistent]
          exact ⟨by simp [hf.2.2.1], fun _ => hacc⟩
    · simp at h
      obtain ⟨_, rfl⟩ := h
      simp [Consistent, ha]

theorem pressEquals_consistent (s : Calculator) (b : Bool) (t : Calculator)
    (hs : Consistent s) (h : pressEquals s = .returned b t) : Consistent t := by
  unfold pressEquals at h
  split at h
  · rename_i ha
    simp at h
    obtain ⟨_, rfl⟩ := h
    have hop : s.op_ = none := by
      cases hop : s.op_ with
      | none => rfl
      | some o =>
        have := hs.2 (by simp [hop])
        simp [ha] at this
    simp [Consistent, hop]
  · rename_i a ha
    split_ifs at h
    · simp at h
      obtain ⟨_, rfl⟩ := h
      exact hs
    · split at h
      · simp at h
      · rename_i v _
        have hf := applyPendingOp_frame s v
        have hacc := applyPendingOp_acc s v
        split at h <;> rename_i s2 heq <;> rw [heq] at hf hacc <;> simp at h <;>
          obtain ⟨_, rfl⟩ := h
        · exact ⟨by rw [hf.2.2.1, hf.2.1]; exact hs.1, fun _ => hacc⟩
        · simp [Consistent, setEntryFromNumber]
    · rename_i hop
      simp at h
      obtain ⟨_, rfl⟩ := h
      simp only [Bool.not_eq_true, Option.not_isSome, Option.isNone_iff_eq_none] at hop
      simp [Consistent, setEntryFromNumber, ha, hop]

theorem startNewEntry_consistent (s : Calculator) (hs : Consistent s) :
    Consistent (startNewEntry s) ∧ (startNewEntry s).justEvaluated_ = false := by
  unfold startNewEntry
  by_cases hj : s.justEvaluated_ = true
  · rw [if_pos hj]
    simp [Consistent]
  · rw [if_neg hj]
    exact ⟨hs, by simpa using hj⟩

theorem appendDigit_frame (s : Calculator) (d : Char) :
    (appendDigit s d).2.acc_ = s.acc_ ∧ (appendDigit s d).2.op_ = s.op_ ∧
    (appendDigit s d).2.justEvaluated_ = s.justEvaluated_ := by
  simp only [appendDigit]
  split_ifs <;> simp [setError]

theorem pressUnlatched_consistent (s : Calculator) (key : Char) (b : Bool) (t : Calculator)
    (hs : Consistent s) (h : pressUnlatched s key = .returned b t) : Consistent t := by
  unfold pressUnlatched at h
  split_ifs at h
  · simp at h
    obtain ⟨_, rfl⟩ := h
    obtain ⟨h1, _⟩ := startNewEntry_consistent s hs
    obtain ⟨ha, ho, hj⟩ := appendDigit_frame (startNewEntry s) key
    simp only [Consistent, ha, ho, hj]
    exact h1
  · simp at h
    obtain ⟨_, rfl⟩ := h
    simp [Consistent, clearAll, clearError]
  · simp at h
    obtain ⟨_, rfl⟩ := h
    simp only [backspace]
    split_ifs
    · exact ⟨fun h => by simp at h, hs.2⟩
    · exact hs
    · exact hs
  · obtain ⟨h1, _⟩ := startNewEntry_consistent s hs
    simp only at h
    split_ifs at h <;> simp at h <;> obtain ⟨_, rfl⟩ := h <;> exact h1
  · exact pressOperator_consistent s key b t h
  · exact pressEquals_consistent s b t hs h
  · simp at h
    obtain ⟨_, rfl⟩ := h
    exact hs

theorem percent_justEvaluated (s t : Calculator) (h : percent s = some t) :
    t.justEvaluated_ = true → s.justEvaluated_ = true := by
  unfold percent at h
  split_ifs at h
  · split at h <;> simp [setEntryFromNumber] at h <;> subst h <;> simp
  · split at h
    · simp at h
    · simp [setEntryFromNumber] at h
      subst h
      simp

theorem press_consistent (s : Calculator) (key : Char) (b : Bool) (t : Calculator)
    (hs : Consistent s) (h : press s key = .returned b t) : Consistent t := by
  by_cases hm : isMemoryOrPercentKey key
  · rcases hm with rfl | rfl | rfl | rfl
    · rw [press_X] at h
      simp at h
      obtain ⟨_, rfl⟩ := h
      exact hs
    · rw [press_R] at h
      simp at h
      obtain ⟨_, rfl⟩ := h
      unfold memoryRecall
      split
      · exact hs
      · exact ⟨fun h => by simp [clearError] at h, hs.2⟩
    · rw [press_M] at h
      split at h
      · rename_i u hu
        simp at h
        obtain ⟨_, rfl⟩ := h
        obtain ⟨_, h2, h3, h4, _, _⟩ := memoryAdd_frame s u hu
        simp only [Consistent, h2, h3, h4]
        exact hs
      · simp at h
    · rw [press_percent] at h
      split at h
      · rename_i u hu
        simp at h
        obtain ⟨_, rfl⟩ := h
        obtain ⟨h2, h3, _, _⟩ := percent_frame s u hu
        simp only [Consistent, h2, h3]
        exact ⟨fun hj => hs.1 (percent_justEvaluated s u hu hj), hs.2⟩
      · simp at h
  by_cases hw : isWhitespaceKey key
  · rw [press_whitespace s key hw] at h
    simp at h
    obtain ⟨_, rfl⟩ := h
    exact hs
  rw [press_gate s key hm hw] at h
  split_ifs at h
  · simp at h
    obtain ⟨_, rfl⟩ := h
    simp [Consistent, clearAll, clearError]
  · simp at h
    obtain ⟨_, rfl⟩ := h
    exact hs
  · exact pressUnlatched_consistent s key b t hs h

theorem pressAll_consistent (ks : List Char) :
    ∀ (s : Calculator) (bs : List Bool) (t : Calculator),
      Consistent s → pressAll s ks = some (bs, t) → Consistent t := by
  induction ks with
  | nil =>
    intro s bs t hs h
    simp [pressAll] at h
    obtain ⟨_, rfl⟩ := h
    exact hs
  | cons k ks ih =>
    intro s bs t hs h
    simp only [pressAll] at h
    split at h
    · rename_i b s1 hk
      split at h
      · rename_i bs1 t1 hrest
        simp at h
        obtain ⟨_, rfl⟩ := h
        exact ih s1 bs1 _ (press_consistent s k b s1 hs hk) hrest
      · simp at h
    · simp at h

theorem reachable_consistent (s : Calculator) (h : Reachable s) : Consistent s := by
  obtain ⟨ks, bs, hks⟩ := h
  exact pressAll_consistent ks fresh bs s (by simp [Consistent, fresh, clearAll, clearError]) hks

/-! ## C3: division by zero -/

/-- C3. In a reachable, error-free state with an accumulator, pending operator
`/` and a non-empty entry whose value is zero, the key `=` and each of the
four operator keys is consumed, raises the error `Division by zero` (the
display reads `ERROR`), and changes nothing else: entry, accumulator, pending
operator, `justEvaluated` and memory are as before. -/
theorem division_by_zero_atomic (s : Calculator) (key : Char) (A : LongDouble)
    (hr : Reachable s) (he : s.error_ = false) (hacc : s.acc_ = some A)
    (hop : s.op_ = some '/') (hne : s.entry_ ≠ []) (hv : entryValue s = some 0)
    (hk : key = '=' ∨ isOperatorKey key) :
    press s key = .returned true
      { s with error_ := true, errorMsg_ := "Division by zero".toList } ∧
    errorMessage (press s key).state = "Division by zero".toList ∧
    display (press s key).state = "ERROR".toList := by
  have happ : applyPendingOp s 0 = (false, setError s "Division by zero".toList) := by
    simp [applyPendingOp, hacc, hop]
  have hj : s.justEvaluated_ = false := by
    cases hj : s.justEvaluated_ with
    | false => rfl
    | true =>
      have := (reachable_consistent s hr).1 hj
      simp [hop] at this
  have hs1 : ({ s with justEvaluated_ := false } : Calculator) = s := by
    cases s
    simp_all
  have hpress : press s key = .returned true
      { s with error_ := true, errorMsg_ := "Division by zero".toList } := by
    rcases hk with rfl | ho
    · rw [press_equals s he]
      simp [pressEquals, hacc, hop, hne, hv, happ, setError]
    · rw [press_operator s key ho he]
      unfold pressOperator
      simp only [hs1]
      simp [hacc, hop, hne, hv, happ, setError]
  refine ⟨hpress, ?_, ?_⟩
  · rw [hpress]
    rfl
  · rw [hpress]
    simp [Outcome.state, display]

/-- C3, at a concrete input: the state after the keys `8`, `/`, `0`, and the
key `=`. -/
theorem division_by_zero_atomic_witness :
    press { entry_ := ['0'], acc_ := some 8, op_ := some '/', justEvaluated_ := false,
            error_ := false, errorMsg_ := [], mem_ := none } '=' =
      .returned true
        { entry_ := ['0'], acc_ := some 8, op_ := some '/', justEvaluated_ := false,
          error_ := true, errorMsg_ := "Division by zero".toList, mem_ := none } :=
  (division_by_zero_atomic
    { entry_ := ['0'], acc_ := some 8, op_ := some '/', justEvaluated_ := false,
      error_ := false, errorMsg_ := [], mem_ := none } '=' 8
    ⟨"8/0".toList, [true, true, true], by decide!⟩ rfl rfl rfl (by decide) (by decide!)
    (Or.inl rfl)).1

/-! ## C8: exceptions -/

/-- C8 fails on the code: the keys `3`, `-`, `5`, `=`, `b` are all consumed
and leave entry `-`, which `std::stold` cannot convert; the memory-add key
(and likewise the percent key) then throws out of `press` with the error flag
still clear. -/
theorem lone_minus_sign_throws :
    pressAll fresh "3-5=b".toList = some ([true, true, true, true, true], loneMinusSign) ∧
    stold loneMinusSign.entry_ = none ∧
    press loneMinusSign 'M' = .threw loneMinusSign ∧
    press loneMinusSign '%' = .threw loneMinusSign ∧
    pressAll fresh "3-5=bM".toList = none := by
  decide!

/-! ## Binary floating point -/

theorem binDigitsCore_append (n : Nat) :
    ∀ (fuel : Nat) (acc : List Char), n < fuel →
      Nat.toDigitsCore 2 fuel n acc = Nat.toDigitsCore 2 (n + 1) n [] ++ acc := by
  induction n using Nat.strong_induction_on with
  | _ n ih =>
    intro fuel acc hf
    obtain ⟨f, rfl⟩ : ∃ f, fuel = f + 1 := ⟨fuel - 1, by omega⟩
    simp only [Nat.toDigitsCore]
    by_cases h0 : n / 2 = 0
    · simp [h0]
    · rw [if_neg h0, if_neg h0]
      have hlt : n / 2 < n := by omega
      rw [ih (n / 2) hlt f _ (by omega), ih (n / 2) hlt n _ hlt]
      simp

theorem binDigits_step (n : Nat) (h : 2 ≤ n) :
    Nat.toDigits 2 n = Nat.toDigits 2 (n / 2) ++ [Nat.digitChar (n % 2)] := by
  have h0 : n / 2 ≠ 0 := by omega
  have hlt : n / 2 < n := by omega
  unfold Nat.toDigits
  conv_lhs => rw [Nat.toDigitsCore]
  simp only [if_neg h0]
  rw [binDigitsCore_append (n / 2) n _ hlt]

theorem binDigits_length (n : Nat) (h : 0 < n) :
    2 ^ ((Nat.toDigits 2 n).length - 1) ≤ n ∧ n < 2 ^ (Nat.toDigits 2 n).length := by
  induction n using Nat.strong_induction_on with
  | _ n ih =>
    by_cases h2 : n < 2
    · have h1 : n = 1 := by omega
      subst h1
      decide
    · rw [binDigits_step n (by omega)]
      obtain ⟨ih1, ih2⟩ := ih (n / 2) (by omega) (by omega)
      have hpos : 0 < (Nat.toDigits 2 (n / 2)).length := by
        rcases Nat.eq_zero_or_pos (Nat.toDigits 2 (n / 2)).length with h0 | h0
        · rw [h0] at ih2
          simp at ih2
          omega
        · exact h0
      simp only [List.length_append, List.length_singleton, Nat.add_sub_cancel]
      obtain ⟨l, hl⟩ : ∃ l, (Nat.toDigits 2 (n / 2)).length = l + 1 := ⟨_, (Nat.succ_pred_eq_of_pos hpos).symm⟩
      rw [hl] at ih1 ih2 ⊢
      simp only [Nat.add_sub_cancel] at ih1
      constructor
      · rw [pow_succ]; omega
      · rw [pow_succ]; omega

theorem binaryExponent_spec (a : ℚ) (ha : 0 < a) :
    (2 : ℚ) ^ (binaryExponent a) ≤ a ∧ a < (2 : ℚ) ^ (binaryExponent a + 1) := by
  unfold binaryExponent
  by_cases h1 : 1 ≤ a
  · rw [if_pos h1]
    have hfl : (1 : Int) ≤ ⌊a⌋ := Int.le_floor.mpr (by simpa using h1)
    obtain ⟨n, hn⟩ : ∃ n : Nat, ⌊a⌋ = (n : Int) := ⟨⌊a⌋.toNat, (Int.toNat_of_nonneg (by omega)).symm⟩
    have hn1 : 0 < n := by omega
    have hna : (n : ℚ) ≤ a := by
      have := Int.floor_le a
      rw [hn] at this
      simpa using this
    have han : a < (n : ℚ) + 1 := by
      have := Int.lt_floor_add_one a
      rw [hn] at this
      simpa using this
    rw [hn, Int.toNat_ofNat]
    obtain ⟨b1, b2⟩ := binDigits_length n hn1
    have hpos : 0 < (Nat.toDigits 2 n).length := by
      rcases Nat.eq_zero_or_pos (Nat.toDigits 2 n).length with h0 | h0
      · rw [h0] at b2; simp at b2; omega
      · exact h0
    constructor
    · rw [zpow_natCast]
      calc (2 : ℚ) ^ ((Nat.toDigits 2 n).length - 1) ≤ (n : ℚ) := by exact_mod_cast b1
        _ ≤ a := hna
    · have he : (((Nat.toDigits 2 n).length - 1 : Nat) : Int) + 1 = ((Nat.toDigits 2 n).length : Nat) := by
        omega
      rw [he, zpow_natCast]
      calc a < (n : ℚ) + 1 := han
        _ ≤ (2 : ℚ) ^ (Nat.toDigits 2 n).length := by exact_mod_cast b2
  · rw [if_neg h1]
    push_neg at h1
    have hinv : 1 < 1 / a := by
      rw [lt_div_iff₀ ha]; simpa using h1
    have hc : (2 : Int) ≤ ⌈1 / a⌉ := by
      have : (1 : Int) < ⌈1 / a⌉ := Int.lt_ceil.mpr (by simpa using hinv)
      omega
    obtain ⟨m, hm⟩ : ∃ m : Nat, ⌈1 / a⌉ = ((m + 1 : Nat) : Int) :=
      ⟨⌈1 / a⌉.toNat - 1, by have := Int.toNat_of_nonneg (show 0 ≤ ⌈1 / a⌉ by omega); omega⟩
    have hm1 : 0 < m := by omega
    have hle : 1 / a ≤ (m : ℚ) + 1 := by
      have := Int.le_ceil (1 / a)
      rw [hm] at this
      simpa using this
    have hlt : (m : ℚ) < 1 / a := by
      have := Int.ceil_lt_add_one (1 / a)
      rw [hm] at this
      push_cast at this
      linarith
    have hmm : ⌈1 / a⌉.toNat - 1 = m := by rw [hm]; simp
    rw [hmm]
    obtain ⟨b1, b2⟩ := binDigits_length m hm1
    have hpos : 0 < (Nat.toDigits 2 m).length := by
      rcases Nat.eq_zero_or_pos (Nat.toDigits 2 m).length with h0 | h0
      · rw [h0] at b2; simp at b2; omega
      · exact h0
    have hp : (0 : ℚ) < (2 : ℚ) ^ (Nat.toDigits 2 m).length := by positivity
    constructor
    · rw [zpow_neg, zpow_natCast, ← one_div, div_le_iff₀ hp]
      have h3 : 1 / a ≤ (2 : ℚ) ^ (Nat.toDigits 2 m).length := by
        calc 1 / a ≤ (m : ℚ) + 1 := hle
          _ ≤ (2 : ℚ) ^ (Nat.toDigits 2 m).length := by exact_mod_cast b2
      rw [div_le_iff₀ ha] at h3
      linarith
    · have he : -(((Nat.toDigits 2 m).length : Nat) : Int) + 1 = -(((Nat.toDigits 2 m).length - 1 : Nat) : Int) := by
        omega
      have hp2 : (0 : ℚ) < (2 : ℚ) ^ ((Nat.toDigits 2 m).length - 1) := by positivity
      rw [he, zpow_neg, zpow_natCast, ← one_div, lt_div_iff₀ hp2]
      have h3 : (2 : ℚ) ^ ((Nat.toDigits 2 m).length - 1) < 1 / a := by
        calc (2 : ℚ) ^ ((Nat.toDigits 2 m).length - 1) ≤ (m : ℚ) := by exact_mod_cast b1
          _ < 1 / a := hlt
      rw [lt_div_iff₀ ha] at h3
      linarith

theorem roundHalfEven_sub_le (y : ℚ) (hy : 0 ≤ y) : |(roundHalfEven y : ℚ) - y| ≤ 1 / 2 := by
  have hfl : (0 : Int) ≤ ⌊y⌋ := Int.floor_nonneg.mpr hy
  obtain ⟨f, hf⟩ : ∃ f : Nat, ⌊y⌋ = (f : Int) := ⟨⌊y⌋.toNat, (Int.toNat_of_nonneg hfl).symm⟩
  have h1 : (f : ℚ) ≤ y := by
    have := Int.floor_le y
    rw [hf] at this
    simpa using this
  have h2 : y < (f : ℚ) + 1 := by
    have := Int.lt_floor_add_one y
    rw [hf] at this
    simpa using this
  unfold roundHalfEven
  simp only [hf, Int.toNat_ofNat]
  split_ifs with c1 c2 c3
  · rw [abs_le]; constructor <;> linarith
  · rw [abs_le]; push_cast; constructor <;> linarith
  · rw [abs_le]; constructor <;> linarith
  · rw [abs_le]; push_cast; constructor <;> linarith

theorem roundHalfEven_of_near (y : ℚ) (N : Nat) (h : |y - (N : ℚ)| < 1 / 2) :
    roundHalfEven y = N := by
  rw [abs_lt] at h
  obtain ⟨h1, h2⟩ := h
  by_cases hc : (N : ℚ) ≤ y
  · have hf : ⌊y⌋ = (N : Int) := by
      rw [Int.floor_eq_iff]
      constructor
      · simpa using hc
      · push_cast; linarith
    unfold roundHalfEven
    simp only [hf, Int.toNat_ofNat]
    rw [if_pos (by linarith)]
  · push_neg at hc
    have hN : 0 < N ∨ N = 0 := by omega
    rcases hN with hN | hN
    · obtain ⟨M, rfl⟩ : ∃ M, N = M + 1 := ⟨N - 1, by omega⟩
      have hf : ⌊y⌋ = (M : Int) := by
        rw [Int.floor_eq_iff]
        push_cast at h1 hc ⊢
        constructor <;> linarith
      unfold roundHalfEven
      simp only [hf, Int.toNat_ofNat]
      push_cast at h1 hc
      rw [if_neg (by linarith), if_pos (by linarith)]
    · subst hN
      have hneg : ⌊y⌋ < 0 := by
        rw [Int.floor_lt]
        simpa using hc
      have hz : ⌊y⌋.toNat = 0 := by omega
      unfold roundHalfEven
      simp only [hz]
      rw [if_pos]
      simp only [Nat.cast_zero, sub_zero] at hc ⊢
      linarith

theorem roundHalfEven_natCast (n : Nat) : roundHalfEven (n : ℚ) = n := by
  unfold roundHalfEven
  have h : ⌊(n : ℚ)⌋.toNat = n := by simp
  simp only [h, sub_self]
  rw [if_pos (by norm_num)]

theorem roundToFormat_exponent (emin : Int) (v : ℚ) (hv : (2 : ℚ) ^ emin ≤ |v|) :
    max (binaryExponent |v|) emin = binaryExponent |v| := by
  have hpos : 0 < |v| := lt_of_lt_of_le (by positivity) hv
  obtain ⟨_, h2⟩ := binaryExponent_spec |v| hpos
  have h3 : (2 : ℚ) ^ emin < (2 : ℚ) ^ (binaryExponent |v| + 1) := lt_of_le_of_lt hv h2
  rw [zpow_lt_zpow_iff_right₀ (by norm_num : (1 : ℚ) < 2)] at h3
  exact max_eq_left (by omega)

theorem roundToFormat_of_nonneg (p : Nat) (emin : Int) (v : ℚ) (hv : 0 ≤ v) :
    roundToFormat p emin v =
      (roundHalfEven (v / (2 : ℚ) ^ (max (binaryExponent v) emin - (p : Int) + 1)) : ℚ) *
        (2 : ℚ) ^ (max (binaryExponent v) emin - (p : Int) + 1) := by
  unfold roundToFormat
  by_cases h0 : v = 0
  · subst h0
    simp [roundHalfEven]
  · rw [if_neg h0]
    simp only [abs_of_nonneg hv]
    rw [if_neg (not_lt.mpr hv)]

theorem roundToFormat_neg (p : Nat) (emin : Int) (v : ℚ) :
    roundToFormat p emin (-v) = -roundToFormat p emin v := by
  unfold roundToFormat
  by_cases h0 : v = 0
  · subst h0; simp
  · have h1 : -v ≠ 0 := by simpa using h0
    rw [if_neg h0, if_neg h1]
    simp only [abs_neg]
    rcases lt_or_gt_of_ne h0 with h | h
    · rw [if_neg (by linarith), if_pos h]; simp
    · rw [if_pos (by linarith), if_neg (by linarith)]

theorem roundToFormat_error (p : Nat) (emin : Int) (v : ℚ) (hv : (2 : ℚ) ^ emin ≤ |v|) :
    |roundToFormat p emin v - v| ≤ |v| / 2 ^ p := by
  have key : ∀ w : ℚ, 0 ≤ w → (2 : ℚ) ^ emin ≤ w → |roundToFormat p emin w - w| ≤ w / 2 ^ p := by
    intro w hw0 hw
    have hw' : (2 : ℚ) ^ emin ≤ |w| := by rwa [abs_of_nonneg hw0]
    have hpos : 0 < w := lt_of_lt_of_le (by positivity) hw
    have he := roundToFormat_exponent emin w hw'
    rw [abs_of_nonneg hw0] at he
    obtain ⟨s1, _⟩ := binaryExponent_spec w hpos
    rw [roundToFormat_of_nonneg p emin w hw0, he]
    set e := binaryExponent w with hedef
    set u : ℚ := (2 : ℚ) ^ (e - (p : Int) + 1) with hu
    have hupos : 0 < u := by positivity
    have hr := roundHalfEven_sub_le (w / u) (by positivity)
    have h4 : ((roundHalfEven (w / u) : ℚ) * u - w) = ((roundHalfEven (w / u) : ℚ) - w / u) * u := by
      field_simp
    rw [h4, abs_mul, abs_of_pos hupos]
    have h5 : u / 2 = (2 : ℚ) ^ e / 2 ^ p := by
      rw [hu]
      rw [show e - (p : Int) + 1 = e + 1 - (p : Int) by ring]
      rw [zpow_sub₀ (by norm_num), zpow_add₀ (by norm_num), zpow_natCast]
      simp
      ring
    have h6 : (2 : ℚ) ^ e / 2 ^ p ≤ w / 2 ^ p := by
      apply div_le_div_of_nonneg_right s1 (by positivity)
    calc |(roundHalfEven (w / u) : ℚ) - w / u| * u ≤ (1 / 2) * u := by
          apply mul_le_mul_of_nonneg_right hr (le_of_lt hupos)
      _ = u / 2 := by ring
      _ = (2 : ℚ) ^ e / 2 ^ p := h5
      _ ≤ w / 2 ^ p := h6
  rcases le_or_lt 0 v with h | h
  · rw [abs_of_nonneg h] at hv ⊢
    exact key v h hv
  · rw [abs_of_neg h] at hv ⊢
    have := key (-v) (by linarith) hv
    rw [roundToFormat_neg] at this
    rw [show roundToFormat p emin v - v = -(-roundToFormat p emin v - -v) by ring, abs_neg]
    exact this

theorem roundToFormat_fixed (p : Nat) (emin : Int) (v : ℚ) (N : Nat) (k : Int)
    (hv : |v| = (N : ℚ) * (2 : ℚ) ^ k) (hN : N < 2 ^ p) (hk : emin - (p : Int) + 1 ≤ k) :
    roundToFormat p emin v = v := by
  have key : ∀ w : ℚ, 0 ≤ w → w = (N : ℚ) * (2 : ℚ) ^ k → roundToFormat p emin w = w := by
    intro w hw0 hw
    by_cases hz : w = 0
    · subst hz; simp [roundToFormat]
    have hpos : 0 < w := lt_of_le_of_ne hw0 (Ne.symm hz)
    rw [roundToFormat_of_nonneg p emin w hw0]
    obtain ⟨s1, _⟩ := binaryExponent_spec w hpos
    have hlt : (2 : ℚ) ^ binaryExponent w < (2 : ℚ) ^ ((p : Int) + k) := by
      calc (2 : ℚ) ^ binaryExponent w ≤ w := s1
        _ = (N : ℚ) * (2 : ℚ) ^ k := hw
        _ < (2 : ℚ) ^ p * (2 : ℚ) ^ k := by
          apply mul_lt_mul_of_pos_right _ (by positivity)
          exact_mod_cast hN
        _ = (2 : ℚ) ^ ((p : Int) + k) := by
          rw [zpow_add₀ (by norm_num), zpow_natCast]
    rw [zpow_lt_zpow_iff_right₀ (by norm_num : (1 : ℚ) < 2)] at hlt
    set e := max (binaryExponent w) emin with he
    have hek : e - (p : Int) + 1 ≤ k := by
      rcases max_cases (binaryExponent w) emin with ⟨h1, _⟩ | ⟨h1, _⟩
      · rw [he, h1]; omega
      · rw [he, h1]; omega
    obtain ⟨j, hj⟩ : ∃ j : Nat, k = e - (p : Int) + 1 + (j : Int) :=
      ⟨(k - (e - (p : Int) + 1)).toNat, by omega⟩
    have hdiv : w / (2 : ℚ) ^ (e - (p : Int) + 1) = ((N * 2 ^ j : Nat) : ℚ) := by
      rw [hw, hj, zpow_add₀ (by norm_num), zpow_natCast]
      push_cast
      field_simp
      ring
    rw [hdiv, roundHalfEven_natCast]
    have h2 : (2 : ℚ) ^ k = (2 : ℚ) ^ (e - (p : Int) + 1) * (2 : ℚ) ^ j := by
      rw [hj, zpow_add₀ (by norm_num), zpow_natCast]
    rw [hw, h2]
    push_cast
    ring
  rcases le_or_lt 0 v with h | h
  · rw [abs_of_nonneg h] at hv
    exact key v h hv
  · rw [abs_of_neg h] at hv
    have := key (-v) (by linarith) hv
    rw [roundToFormat_neg] at this
    linarith

theorem ldRound_intCast (z : Int) (h : |z| < 2 ^ 64) : ldRound (z : ℚ) = z := by
  unfold ldRound
  apply roundToFormat_fixed 64 (-16382) (z : ℚ) z.natAbs 0
  · rw [zpow_zero, mul_one, Nat.cast_natAbs, Int.cast_abs]
  · have : (z.natAbs : Int) < 2 ^ 64 := by rw [Int.natCast_natAbs]; exact h
    exact_mod_cast this
  · norm_num

theorem ldRound_natCast (n : Nat) (h : n < 2 ^ 64) : ldRound (n : ℚ) = n := by
  have := ldRound_intCast (n : Int) (by rw [abs_of_nonneg (by positivity)]; exact_mod_cast h)
  simpa using this

theorem ldRound_zero : ldRound 0 = 0 := by
  simp [ldRound, roundToFormat]

theorem roundToFormat_error_le (p : Nat) (emin : Int) (v : ℚ) :
    |roundToFormat p emin v - v| ≤ |v| / 2 ^ p + (2 : ℚ) ^ (emin - (p : Int)) := by
  have hq : (0 : ℚ) < (2 : ℚ) ^ (emin - (p : Int)) := by positivity
  have hvp : 0 ≤ |v| / 2 ^ p := by positivity
  by_cases hv : (2 : ℚ) ^ emin ≤ |v|
  · have := roundToFormat_error p emin v hv
    linarith
  · push_neg at hv
    have key : ∀ w : ℚ, 0 ≤ w → w < (2 : ℚ) ^ emin →
        |roundToFormat p emin w - w| ≤ (2 : ℚ) ^ (emin - (p : Int)) := by
      intro w hw0 hw
      by_cases hz : w = 0
      · subst hz
        simp [roundToFormat]
        exact le_of_lt hq
      have hpos : 0 < w := lt_of_le_of_ne hw0 (Ne.symm hz)
      obtain ⟨s1, _⟩ := binaryExponent_spec w hpos
      have hlt : (2 : ℚ) ^ binaryExponent w < (2 : ℚ) ^ emin := lt_of_le_of_lt s1 hw
      rw [zpow_lt_zpow_iff_right₀ (by norm_num : (1 : ℚ) < 2)] at hlt
      have he : max (binaryExponent w) emin = emin := max_eq_right (le_of_lt hlt)
      rw [roundToFormat_of_nonneg p emin w hw0, he]
      set u : ℚ := (2 : ℚ) ^ (emin - (p : Int) + 1) with hu
      have hupos : 0 < u := by positivity
      have hr := roundHalfEven_sub_le (w / u) (by positivity)
      have h4 : ((roundHalfEven (w / u) : ℚ) * u - w) = ((roundHalfEven (w / u) : ℚ) - w / u) * u := by
        field_simp
      rw [h4, abs_mul, abs_of_pos hupos]
      have h5 : u / 2 = (2 : ℚ) ^ (emin - (p : Int)) := by
        rw [hu, zpow_add₀ (by norm_num)]
        simp
      calc |(roundHalfEven (w / u) : ℚ) - w / u| * u ≤ (1 / 2) * u :=
            mul_le_mul_of_nonneg_right hr (le_of_lt hupos)
        _ = u / 2 := by ring
        _ = (2 : ℚ) ^ (emin - (p : Int)) := h5
    rcases le_or_lt 0 v with h | h
    · rw [abs_of_nonneg h] at hv
      have := key v h hv
      linarith
    · rw [abs_of_neg h] at hv
      have := key (-v) (by linarith) hv
      rw [roundToFormat_neg] at this
      rw [show roundToFormat p emin v - v = -(-roundToFormat p emin v - -v) by ring, abs_neg]
      linarith

/-- The `long double` nearest to `10^-12`, the literal `1e-12L`. -/
theorem ldRound_tolerance :
    ldRound (1 / 10 ^ 12) = (2535301200456458803 : ℚ) / 2535301200456458802993406410752 := by
  decide!

theorem ldRound_tolerance_pos : 0 < ldRound (1 / 10 ^ 12) := by
  rw [ldRound_tolerance]; norm_num

theorem ldRound_tolerance_lt : ldRound (1 / 10 ^ 12) < 1 / 10 ^ 11 := by
  rw [ldRound_tolerance]; norm_num

/-! ## Decimal numerals -/

theorem toDigitsCore_append (n : Nat) :
    ∀ (fuel : Nat) (acc : List Char), n < fuel →
      Nat.toDigitsCore 10 fuel n acc = Nat.toDigitsCore 10 (n + 1) n [] ++ acc := by
  induction n using Nat.strong_induction_on with
  | _ n ih =>
    intro fuel acc hf
    obtain ⟨f, rfl⟩ : ∃ f, fuel = f + 1 := ⟨fuel - 1, by omega⟩
    simp only [Nat.toDigitsCore]
    by_cases h0 : n / 10 = 0
    · simp [h0]
    · rw [if_neg h0, if_neg h0]
      have hlt : n / 10 < n := by omega
      rw [ih (n / 10) hlt f _ (by omega), ih (n / 10) hlt n _ hlt]
      simp

theorem toDigits_lt_ten (n : Nat) (h : n < 10) : Nat.toDigits 10 n = [Nat.digitChar n] := by
  have h0 : n / 10 = 0 := by omega
  have h1 : n % 10 = n := by omega
  simp [Nat.toDigits, Nat.toDigitsCore, h0, h1]

theorem toDigits_step (n : Nat) (h : 10 ≤ n) :
    Nat.toDigits 10 n = Nat.toDigits 10 (n / 10) ++ [Nat.digitChar (n % 10)] := by
  have h0 : n / 10 ≠ 0 := by omega
  have hlt : n / 10 < n := by omega
  unfold Nat.toDigits
  conv_lhs => rw [Nat.toDigitsCore]
  simp only [if_neg h0]
  rw [toDigitsCore_append (n / 10) n _ hlt]

theorem digitChar_isDigit (d : Nat) (h : d < 10) :
    ('0' ≤ Nat.digitChar d ∧ Nat.digitChar d ≤ '9') ∧ digitVal (Nat.digitChar d) = d := by
  interval_cases d <;> decide

theorem key_eq_digitChar (c : Char) (h : '0' ≤ c ∧ c ≤ '9') :
    digitVal c < 10 ∧ c = Nat.digitChar (digitVal c) := by
  have h2 : 48 ≤ c.toNat ∧ c.toNat ≤ 57 := h
  unfold digitVal
  refine ⟨by omega, ?_⟩
  rw [← Char.ofNat_toNat c]
  generalize c.toNat = n at h2
  obtain ⟨h3, h4⟩ := h2
  interval_cases n <;> decide

theorem toDigits_ne_nil (n : Nat) : Nat.toDigits 10 n ≠ [] := by
  by_cases h : n < 10
  · rw [toDigits_lt_ten n h]
    simp
  · rw [toDigits_step n (by omega)]
    simp

theorem toDigits_all_digits (n : Nat) : ∀ c ∈ Nat.toDigits 10 n, '0' ≤ c ∧ c ≤ '9' := by
  induction n using Nat.strong_induction_on with
  | _ n ih =>
    intro c hc
    by_cases h : n < 10
    · rw [toDigits_lt_ten n h] at hc
      simp only [List.mem_singleton] at hc
      subst hc
      exact (digitChar_isDigit n h).1
    · rw [toDigits_step n (by omega)] at hc
      simp only [List.mem_append, List.mem_singleton] at hc
      rcases hc with hc | rfl
      · exact ih (n / 10) (by omega) c hc
      · exact (digitChar_isDigit (n % 10) (by omega)).1

theorem toDigits_length_le (k : Nat) :
    ∀ n : Nat, n < 10 ^ (k + 1) → (Nat.toDigits 10 n).length ≤ k + 1 := by
  induction k with
  | zero =>
    intro n hn
    rw [toDigits_lt_ten n (by simpa using hn)]
    simp
  | succ k ih =>
    intro n hn
    by_cases h : n < 10
    · rw [toDigits_lt_ten n h]
      simp
    · rw [toDigits_step n (by omega)]
      have hlt : n / 10 < 10 ^ (k + 1) := by
        rw [Nat.div_lt_iff_lt_mul (by decide)]
        calc n < 10 ^ (k + 1 + 1) := hn
          _ = 10 ^ (k + 1) * 10 := by ring
      have := ih (n / 10) hlt
      simp only [List.length_append, List.length_singleton]
      omega

theorem toDigits_eq_zero_iff (n : Nat) : Nat.toDigits 10 n = ['0'] ↔ n = 0 := by
  constructor
  · intro h
    by_cases h10 : n < 10
    · rw [toDigits_lt_ten n h10] at h
      simp only [List.cons.injEq, and_true] at h
      revert h
      interval_cases n <;> decide
    · rw [toDigits_step n (by omega)] at h
      have hl := congrArg List.length h
      have hne := toDigits_ne_nil (n / 10)
      have : 0 < (Nat.toDigits 10 (n / 10)).length := List.length_pos.mpr hne
      simp only [List.length_append, List.length_singleton] at hl
      omega
  · rintro rfl
    rfl

theorem digitsVal_append (acc : Nat) (xs ys : Str) :
    digitsVal acc (xs ++ ys) = digitsVal (digitsVal acc xs) ys := by
  simp [digitsVal, List.foldl_append]

theorem digitsVal_toDigits (n : Nat) : digitsVal 0 (Nat.toDigits 10 n) = n := by
  induction n using Nat.strong_induction_on with
  | _ n ih =>
    by_cases h : n < 10
    · rw [toDigits_lt_ten n h]
      simp [digitsVal, (digitChar_isDigit n h).2]
    · rw [toDigits_step n (by omega), digitsVal_append, ih (n / 10) (by omega)]
      simp only [digitsVal, List.foldl_cons, List.foldl_nil,
        (digitChar_isDigit (n % 10) (by omega)).2]
      omega

theorem digitsVal_ge (ks : Str) : ∀ acc : Nat, acc ≤ digitsVal acc ks := by
  induction ks with
  | nil => intro acc; simp [digitsVal]
  | cons k ks ih =>
    intro acc
    have := ih (10 * acc + digitVal k)
    simp only [digitsVal, List.foldl_cons] at this ⊢
    omega

/-! ## The grouping loop against the grouping of the specification -/

theorem insertDots_nonpos (fuel : Nat) (i : Int) (s : Str) (hi : i ≤ 0) :
    insertDots fuel i s = s := by
  cases fuel with
  | zero => rfl
  | succ f =>
    simp only [insertDots]
    rw [if_neg (by omega)]

theorem insertDots_append (fuel : Nat) :
    ∀ (i : Int) (s q : Str), i ≤ s.length →
      insertDots fuel i (s ++ q) = insertDots fuel i s ++ q := by
  induction fuel with
  | zero => intro i s q _; rfl
  | succ f ih =>
    intro i s q hi
    simp only [insertDots]
    by_cases h0 : 0 < i
    · rw [if_pos h0, if_pos h0]
      have hn : i.toNat ≤ s.length := by omega
      have h1 : List.take i.toNat (s ++ q) = List.take i.toNat s := List.take_append_of_le_length hn
      have h2 : List.drop i.toNat (s ++ q) = List.drop i.toNat s ++ q := List.drop_append_of_le_length hn
      rw [h1, h2]
      have h3 : List.take i.toNat s ++ '.' :: (List.drop i.toNat s ++ q) =
          (List.take i.toNat s ++ '.' :: List.drop i.toNat s) ++ q := by simp
      rw [h3]
      apply ih
      simp only [List.length_append, List.length_cons, List.length_take, List.length_drop]
      omega
    · rw [if_neg h0, if_neg h0]

theorem groupFromRight_short (r : Str) (h : r.length ≤ 3) : groupFromRight r = r := by
  match r, h with
  | [], _ => rfl
  | [_], _ => rfl
  | [_, _], _ => rfl
  | [_, _, _], _ => rfl
  | _ :: _ :: _ :: _ :: _, h => simp at h

theorem groupThousands_short (s : Str) (h : s.length ≤ 3) : groupThousands s = s := by
  unfold groupThousands
  rw [groupFromRight_short _ (by simpa using h)]
  simp

theorem groupThousands_append_three (p : Str) (a b c : Char) (hp : p ≠ []) :
    groupThousands (p ++ [a, b, c]) = groupThousands p ++ ['.', a, b, c] := by
  unfold groupThousands
  have hr : p.reverse ≠ [] := by simpa using hp
  obtain ⟨d, rest, hd⟩ := List.exists_cons_of_ne_nil hr
  have h1 : (p ++ [a, b, c]).reverse = c :: b :: a :: d :: rest := by
    simp [hd]
  rw [h1, hd]
  simp [groupFromRight]

/-- The loop of `formatTR_fromInternal` groups as the specification says, on
any string and with any bound that covers its iterations. -/
theorem insertDots_eq_groupThousands (n : Nat) :
    ∀ (p : Str) (fuel : Nat), p.length = n → n ≤ fuel + 3 →
      insertDots fuel ((n : Int) - 3) p = groupThousands p := by
  induction n using Nat.strong_induction_on with
  | _ n ih =>
    intro p fuel hlen hfuel
    by_cases hn : n ≤ 3
    · rw [insertDots_nonpos fuel _ p (by omega), groupThousands_short p (by omega)]
    · obtain ⟨f, rfl⟩ : ∃ f, fuel = f + 1 := ⟨fuel - 1, by omega⟩
      have hsplit : p = p.take (n - 3) ++ p.drop (n - 3) := (List.take_append_drop _ _).symm
      have htl : (p.drop (n - 3)).length = 3 := by
        rw [List.length_drop]
        omega
      have hpl : (p.take (n - 3)).length = n - 3 := by
        rw [List.length_take]
        omega
      obtain ⟨a, b, c, habc⟩ : ∃ a b c, p.drop (n - 3) = [a, b, c] := by
        match hq : p.drop (n - 3), htl with
        | [a, b, c], _ => exact ⟨a, b, c, rfl⟩
      have hpne : p.take (n - 3) ≠ [] := by
        intro h
        rw [h] at hpl
        simp at hpl
        omega
      have hi : (((n : Int) - 3).toNat) = n - 3 := by omega
      simp only [insertDots]
      rw [if_pos (by omega), hi, habc]
      rw [insertDots_append f _ (p.take (n - 3)) ('.' :: [a, b, c]) (by rw [hpl]; omega)]
      have hidx : ((n : Int) - 3 - 3) = (((n - 3 : Nat) : Int) - 3) := by omega
      rw [hidx, ih (n - 3) (by omega) (p.take (n - 3)) f hpl (by omega)]
      conv_rhs => rw [hsplit, habc]
      rw [groupThousands_append_three _ a b c hpne]

theorem insertDots_length (p : Str) :
    insertDots p.length ((p.length : Int) - 3) p = groupThousands p :=
  insertDots_eq_groupThousands p.length p p.length rfl (by omega)

/-! ## Formatting and parsing of plain numerals -/

/-- The display form of the specification and the engine's own conversion on
sample values: `1234567` is `1.234.567`, `-1234` is `-1.234`, and the value
`1234.5` is displayed as `1.234,5`. -/
theorem displayForm_samples :
    displayForm 1234567 = "1.234.567".toList ∧ displayForm (-1234) = "-1.234".toList ∧
    displayForm 0 = "0".toList ∧ formatNumber (2469 / 2) = "1.234,5".toList ∧
    formatNumber (-1234) = "-1.234".toList := by
  decide!

theorem plainDigits_not_mem (d : Str) (hd : PlainDigits d) (x : Char)
    (hx : ¬ ('0' ≤ x ∧ x ≤ '9')) : x ∉ d :=
  fun h => hx (hd x h)

theorem stripChars_plain (d : Str) (hd : PlainDigits d) (x : Char)
    (hx : ¬ ('0' ≤ x ∧ x ≤ '9')) : stripChars d x = d := by
  unfold stripChars
  rw [List.filter_eq_self]
  intro c hc
  have : c ≠ x := fun h => plainDigits_not_mem d hd x hx (h ▸ hc)
  simpa using this

theorem formatTR_unsigned_tail (sign d : Str) (hd : PlainDigits d) :
    (let intPart0 : Str := if '.' ∈ d then d.takeWhile (fun c => c != '.') else d
     let fracPart0 : Str := if '.' ∈ d then (d.dropWhile (fun c => c != '.')).drop 1 else []
     let intPart1 := stripChars (stripChars intPart0 ',') '.'
     let fracPart := stripChars (stripChars fracPart0 ',') '.'
     let intPart := insertDots intPart1.length ((intPart1.length : Int) - 3) intPart1
     if fracPart ≠ [] then sign ++ intPart ++ ',' :: fracPart
     else sign ++ intPart) = sign ++ groupThousands d := by
  have hdot : '.' ∉ d := plainDigits_not_mem d hd '.' (by decide)
  simp only [if_neg hdot]
  rw [stripChars_plain d hd ',' (by decide), stripChars_plain d hd '.' (by decide)]
  simp [stripChars, insertDots_length]

theorem formatTR_digits (d : Str) (hd : PlainDigits d) :
    formatTR_fromInternal d = groupThousands d := by
  have he : ¬ ('e' ∈ d ∨ 'E' ∈ d) := by
    rintro (h | h)
    · exact plainDigits_not_mem d hd 'e' (by decide) h
    · exact plainDigits_not_mem d hd 'E' (by decide) h
  unfold formatTR_fromInternal
  rw [if_neg he]
  cases d with
  | nil => decide
  | cons c r =>
    have hc : ¬ (c = '-' ∨ c = '+') := by
      have := hd c (by simp)
      rintro (rfl | rfl) <;> revert this <;> decide
    simp only [if_neg hc]
    exact formatTR_unsigned_tail [] (c :: r) hd

theorem formatTR_neg_digits (d : Str) (hd : PlainDigits d) :
    formatTR_fromInternal ('-' :: d) = '-' :: groupThousands d := by
  have he : ¬ ('e' ∈ '-' :: d ∨ 'E' ∈ '-' :: d) := by
    simp only [List.mem_cons]
    rintro ((h | h) | (h | h))
    · exact absurd h (by decide)
    · exact plainDigits_not_mem d hd 'e' (by decide) h
    · exact absurd h (by decide)
    · exact plainDigits_not_mem d hd 'E' (by decide) h
  unfold formatTR_fromInternal
  rw [if_neg he]
  simp only [true_or, if_true]
  exact formatTR_unsigned_tail ['-'] d hd

theorem stold_digits (d : Str) (hd : PlainDigits d) (hne : d ≠ []) :
    stold d = some (ldRound ((digitsVal 0 d : Nat) : ℚ)) := by
  have hall : ∀ c ∈ d, isdigit c = true := by
    intro c hc
    simpa [isdigit] using hd c hc
  have htake : d.takeWhile isdigit = d := List.takeWhile_eq_self_iff.mpr hall
  have hdrop : d.dropWhile isdigit = [] := List.dropWhile_eq_nil_iff.mpr hall
  cases d with
  | nil => exact absurd rfl hne
  | cons c r =>
    have hc := hd c (by simp)
    have hsp : isspace c = false := by
      have h2 : 48 ≤ c.toNat ∧ c.toNat ≤ 57 := hc
      have hne32 : c ≠ ' ' := by rintro rfl; revert hc; decide
      simp only [isspace, decide_eq_false_iff_not, not_or, not_and, not_le]
      exact ⟨hne32, fun _ => by omega⟩
    have hsign : ¬ (c = '-' ∨ c = '+') := by
      rintro (rfl | rfl) <;> revert hc <;> decide
    have hminus : c ≠ '-' := fun h => hsign (Or.inl h)
    have hplus : c ≠ '+' := fun h => hsign (Or.inr h)
    simp only [stold, List.dropWhile_cons, hsp, Bool.false_eq_true, if_false, hminus, hplus,
      or_self, htake, hdrop, decide_False]
    simp [stoldExponent]

theorem round_intCast (z : Int) : round (z : ℚ) = z := by
  unfold round
  split_ifs
  · rw [Int.floor_eq_iff]
    constructor <;> norm_num
  · have : ⌊-(z : ℚ) + 1 / 2⌋ = -z := by
      rw [Int.floor_eq_iff]
      constructor <;> push_cast <;> norm_num
    rw [this]
    simp

theorem toInternalString_int (z : Int) (h : LLONG_MIN ≤ z ∧ z ≤ LLONG_MAX) :
    toInternalString (z : ℚ) = showLongLong z := by
  unfold toInternalString
  simp only [round_intCast, ldSub, sub_self, ldRound_zero, abs_zero]
  rw [if_pos ldRound_tolerance_pos, if_pos h]

theorem filter_isdigit_plain (d : Str) (hd : PlainDigits d) : d.filter isdigit = d := by
  rw [List.filter_eq_self]
  intro c hc
  simpa [isdigit] using hd c hc

/-- One digit key on an entry that is empty or the numeral of `m`: the entry
becomes the numeral of `10 * m + d`. -/
theorem press_digit_numeral (s : Calculator) (m : Nat) (key : Char)
    (hk : '0' ≤ key ∧ key ≤ '9') (he : s.error_ = false) (hj : s.justEvaluated_ = false)
    (hentry : (s.entry_ = [] ∧ m = 0) ∨ s.entry_ = Nat.toDigits 10 m)
    (hv : 10 * m + digitVal key < 10 ^ 10) :
    press s key =
      .returned true { s with entry_ := Nat.toDigits 10 (10 * m + digitVal key) } := by
  rw [press_digit s key hk he]
  have hs : startNewEntry s = s := by
    unfold startNewEntry
    rw [hj]
    rfl
  rw [hs]
  obtain ⟨hlt, hkey⟩ := key_eq_digitChar key hk
  have hcount : ¬ (kMaxDigits ≤ (s.entry_.filter isdigit).length) := by
    rcases hentry with ⟨h, _⟩ | h
    · rw [h]
      decide
    · rw [h, filter_isdigit_plain _ (toDigits_all_digits m)]
      have := toDigits_length_le 8 m (by omega)
      unfold kMaxDigits
      omega
  simp only [appendDigit, if_neg hcount]
  by_cases hm : m = 0
  · subst hm
    have hnum : Nat.toDigits 10 (10 * 0 + digitVal key) = [key] := by
      rw [toDigits_lt_ten _ (by omega)]
      simp only [Nat.mul_zero, Nat.zero_add]
      rw [← hkey]
    rw [hnum]
    rcases hentry with ⟨h, _⟩ | h
    · rw [if_neg (by rw [h]; simp), h]
      rfl
    · rw [if_pos (by rw [h]; rfl)]
  · have hent : s.entry_ = Nat.toDigits 10 m := by
      rcases hentry with ⟨_, h⟩ | h
      · exact absurd h hm
      · exact h
    have hnz : s.entry_ ≠ ['0'] := by
      rw [hent]
      intro h
      exact hm ((toDigits_eq_zero_iff m).mp h)
    rw [if_neg hnz]
    have hnum : Nat.toDigits 10 (10 * m + digitVal key) = s.entry_ ++ [key] := by
      rw [toDigits_step _ (by omega)]
      have h1 : (10 * m + digitVal key) / 10 = m := by omega
      have h2 : (10 * m + digitVal key) % 10 = digitVal key := by omega
      rw [h1, h2, ← hkey, hent]
    rw [hnum]

/-- A non-empty run of digit keys on an entry that is empty or the numeral of
`m`: every key is consumed and the entry becomes the numeral of the value
read, as long as that value has at most ten digits. -/
theorem pressAll_digits (ks : List Char) :
    ∀ (s : Calculator) (m : Nat), PlainDigits ks → ks ≠ [] → s.error_ = false →
      s.justEvaluated_ = false → ((s.entry_ = [] ∧ m = 0) ∨ s.entry_ = Nat.toDigits 10 m) →
      digitsVal m ks < 10 ^ 10 →
      pressAll s ks = some (List.replicate ks.length true,
        { s with entry_ := Nat.toDigits 10 (digitsVal m ks) }) := by
  induction ks with
  | nil => intro s m _ hne; exact absurd rfl hne
  | cons k ks ih =>
    intro s m hd _ he hj hentry hv
    have hk : '0' ≤ k ∧ k ≤ '9' := hd k (by simp)
    have hval : digitsVal m (k :: ks) = digitsVal (10 * m + digitVal k) ks := by
      simp [digitsVal]
    have hle := digitsVal_ge ks (10 * m + digitVal k)
    have hstep := press_digit_numeral s m k hk he hj hentry (by omega)
    simp only [pressAll, hstep]
    by_cases hks : ks = []
    · subst hks
      simp [pressAll, digitsVal]
    · have hd2 : PlainDigits ks := fun c hc => hd c (by simp [hc])
      rw [ih { s with entry_ := Nat.toDigits 10 (10 * m + digitVal k) } (10 * m + digitVal k)
        hd2 hks he hj (Or.inr rfl) (by omega)]
      simp [hval, List.replicate_succ]

/-! ## C4: digits, entry and display -/

/-- C4. For a non-empty sequence of digit keys on a fresh engine whose value
(leading zeros collapse) has at most ten digits: every press returns true, no
error is raised, the entry is the decimal numeral of the value without leading
zeros, and the display is that numeral with a `.` between each group of three
digits counted from the right. -/
theorem digits_entry_display (ks : List Char) (hd : ∀ c ∈ ks, '0' ≤ c ∧ c ≤ '9')
    (hne : ks ≠ []) (hv : digitsVal 0 ks < 10 ^ 10) :
    ∃ t, pressAll fresh ks = some (List.replicate ks.length true, t) ∧
      hasError t = false ∧
      t.entry_ = Nat.toDigits 10 (digitsVal 0 ks) ∧
      display t = groupThousands (Nat.toDigits 10 (digitsVal 0 ks)) := by
  refine ⟨{ fresh with entry_ := Nat.toDigits 10 (digitsVal 0 ks) },
    pressAll_digits ks fresh 0 hd hne rfl rfl (Or.inl ⟨rfl, rfl⟩) hv, rfl, rfl, ?_⟩
  have hnn : Nat.toDigits 10 (digitsVal 0 ks) ≠ [] := toDigits_ne_nil _
  simp only [display]
  rw [if_neg (by decide), if_pos hnn]
  exact formatTR_digits _ (toDigits_all_digits _)

/-- C4, at a concrete input: the keys `0`, `0`, `1`, `2`, `3`, `4`, `5`, `6`,
`7`, `8`, `9`, `0`: twelve keys, ten digits once the leading zeros collapse. -/
theorem digits_entry_display_witness :
    ∃ t, pressAll fresh "001234567890".toList = some (List.replicate 12 true, t) ∧
      hasError t = false ∧
      t.entry_ = "1234567890".toList ∧
      display t = "1.234.567.890".toList :=
  digits_entry_display "001234567890".toList (by decide) (by decide) (by decide)

/-! ## Operator keys and `=` on typed numbers -/

theorem pressAll_cons_returned (s s1 : Calculator) (k : Char) (ks : List Char) (b : Bool)
    (h : press s k = .returned b s1) :
    pressAll s (k :: ks) = (pressAll s1 ks).map (fun p => (b :: p.1, p.2)) := by
  simp only [pressAll, h]
  cases pressAll s1 ks with
  | none => rfl
  | some p => rfl

theorem pressAll_append (ks1 : List Char) :
    ∀ (s : Calculator) (ks2 : List Char) (bs1 : List Bool) (t : Calculator),
      pressAll s ks1 = some (bs1, t) →
      pressAll s (ks1 ++ ks2) = (pressAll t ks2).map (fun p => (bs1 ++ p.1, p.2)) := by
  induction ks1 with
  | nil =>
    intro s ks2 bs1 t h
    simp only [pressAll, Option.some.injEq, Prod.mk.injEq] at h
    obtain ⟨rfl, rfl⟩ := h
    simp only [List.nil_append]
    cases pressAll s ks2 <;> simp
  | cons k ks ih =>
    intro s ks2 bs1 t h
    simp only [pressAll] at h
    split at h
    · rename_i b s1 hk
      split at h
      · rename_i bs t1 hrest
        simp only [Option.some.injEq, Prod.mk.injEq] at h
        obtain ⟨rfl, rfl⟩ := h
        rw [List.cons_append, pressAll_cons_returned s s1 k _ b hk, ih s1 ks2 bs t1 hrest]
        cases pressAll t1 ks2 <;> simp
      · simp at h
    · simp at h

theorem isfinite_of_abs_lt (v : ℚ) (h : |v| < 10 ^ 40) : isfinite v = true := by
  unfold isfinite
  rw [decide_eq_true_iff]
  have h2 : (10 : ℚ) ^ 40 < 2 ^ 970 := by
    calc (10 : ℚ) ^ 40 < 16 ^ 40 := by norm_num
      _ = 2 ^ 160 := by norm_num
      _ ≤ 2 ^ 970 := pow_le_pow_right₀ (by norm_num) (by norm_num)
  have h3 : (2 : ℚ) ^ 1024 = 2 ^ 970 * 2 ^ 54 := by rw [← pow_add]
  have h4 : (2 : ℚ) ≤ 2 ^ 54 := by norm_num
  have h5 : (0 : ℚ) < 2 ^ 970 := by positivity
  nlinarith

/-- The function `applyPendingOp` with `+`, `-` or `*` pending: the accumulator becomes
the exact result rounded to `long double`, when that converts to a finite
`double`. -/
theorem applyPendingOp_arith (s : Calculator) (op : Char) (x y : ℚ)
    (hacc : s.acc_ = some x) (hop : s.op_ = some op)
    (hk : op = '+' ∨ op = '-' ∨ op = '*')
    (hfin : isfinite (ldRound (exactOpRat op x y)) = true) :
    applyPendingOp s y = (true, { s with acc_ := some (ldRound (exactOpRat op x y)) }) := by
  unfold applyPendingOp
  rw [hacc, hop]
  rcases hk with rfl | rfl | rfl
  · have hf : isfinite (ldRound (x + y)) = true := by simpa [exactOpRat] using hfin
    simp [storeResult, ldAdd, hf, hop, exactOpRat]
  · have hf : isfinite (ldRound (x - y)) = true := by simpa [exactOpRat] using hfin
    simp [storeResult, ldSub, hf, hop, exactOpRat]
  · have hf : isfinite (ldRound (x * y)) = true := by simpa [exactOpRat] using hfin
    simp [storeResult, ldMul, hf, hop, exactOpRat]

/-- A typed number below `2^64` converts to itself: `strtold` is exact on
it. -/
theorem entryValue_numeral (s : Calculator) (b : Nat) (hb : b < 2 ^ 64)
    (h : s.entry_ = Nat.toDigits 10 b) : entryValue s = some (b : ℚ) := by
  unfold entryValue
  rw [h, stold_digits _ (toDigits_all_digits b) (toDigits_ne_nil b), digitsVal_toDigits,
    ldRound_natCast b hb]

/-- An operator key after the first operand: the entry moves to the
accumulator and the operator is latched. -/
theorem press_operator_first (s : Calculator) (a : Nat) (key : Char) (hk : isOperatorKey key)
    (he : s.error_ = false) (hj : s.justEvaluated_ = false) (hacc : s.acc_ = none)
    (ha : a < 2 ^ 64) (hentry : s.entry_ = Nat.toDigits 10 a) :
    press s key = .returned true
      { s with acc_ := some (((a : Int) : ℚ)), op_ := some key, entry_ := [] } := by
  rw [press_operator s key hk he]
  have hs1 : ({ s with justEvaluated_ := false } : Calculator) = s := by
    cases s
    simp_all
  have hne : s.entry_ ≠ [] := by
    rw [hentry]
    exact toDigits_ne_nil a
  unfold pressOperator
  simp only [hs1]
  simp [hacc, hne, hj, entryValue_numeral s a ha hentry]

/-- The key `=` with `+`, `-` or `*` pending when the entry converts to
`y`. -/
theorem press_equals_value (s : Calculator) (x y : ℚ) (op : Char)
    (he : s.error_ = false) (hacc : s.acc_ = some x) (hop : s.op_ = some op)
    (hopk : op = '+' ∨ op = '-' ∨ op = '*') (hne : s.entry_ ≠ [])
    (hv : entryValue s = some y) (hfin : isfinite (ldRound (exactOpRat op x y)) = true) :
    press s '=' = .returned true
      { s with acc_ := some (ldRound (exactOpRat op x y)),
               entry_ := toInternalString (ldRound (exactOpRat op x y)),
               op_ := none, justEvaluated_ := true } := by
  rw [press_equals s he]
  unfold pressEquals
  simp [hacc, hop, hne, hv, applyPendingOp_arith s op x y hacc hop hopk hfin,
    setEntryFromNumber]

theorem toDouble_isSome (v : ℚ) (h : isfinite v = true) :
    toDouble v = some (roundToFormat 53 (-1022) v) := by
  unfold isfinite at h
  rw [decide_eq_true_iff] at h
  unfold toDouble
  rw [if_pos h]

/-- The display after an evaluation: the display conversion of the result. -/
theorem display_of_result (s : Calculator) (w : ℚ) (he : s.error_ = false)
    (hacc : s.acc_ = some w) (hentry : s.entry_ = toInternalString w) :
    display s = formatNumber w := by
  simp only [display, he, hacc, hentry]
  split_ifs <;> first | rfl | simp_all

theorem operator_of_arith (op : Char) (h : op = '+' ∨ op = '-' ∨ op = '*') :
    isOperatorKey op := by
  rcases h with rfl | rfl | rfl <;> decide

theorem natCast_in_range (a : Nat) (ha : a < 10 ^ 10) :
    LLONG_MIN ≤ (a : Int) ∧ (a : Int) ≤ LLONG_MAX := by
  unfold LLONG_MIN LLONG_MAX
  constructor <;> omega

theorem replicate_true_chain (m n : Nat) :
    List.replicate m true ++ true :: List.replicate n true =
      List.replicate (m + 1 + n) true := by
  rw [List.replicate_add, List.replicate_add]
  simp only [List.replicate_one, List.append_assoc, List.singleton_append]

/-- The state after typing `a`, an operator and `b` on a fresh engine. -/
theorem pressAll_operand_operator_operand (a b : Nat) (op : Char) (ha : a < 10 ^ 10)
    (hb : b < 10 ^ 10) (hop : isOperatorKey op) :
    pressAll fresh (Nat.toDigits 10 a ++ op :: Nat.toDigits 10 b) =
      some (List.replicate ((Nat.toDigits 10 a).length + 1 + (Nat.toDigits 10 b).length) true,
        { entry_ := Nat.toDigits 10 b, acc_ := some (((a : Int) : ℚ)), op_ := some op,
          justEvaluated_ := false, error_ := false, errorMsg_ := [], mem_ := none }) := by
  have h1 := pressAll_digits (Nat.toDigits 10 a) fresh 0 (toDigits_all_digits a)
    (toDigits_ne_nil a) rfl rfl (Or.inl ⟨rfl, rfl⟩) (by rw [digitsVal_toDigits]; exact ha)
  rw [digitsVal_toDigits] at h1
  have h2 := press_operator_first { fresh with entry_ := Nat.toDigits 10 a } a op hop
    rfl rfl rfl (lt_trans ha (by norm_num)) rfl
  have h3 := pressAll_digits (Nat.toDigits 10 b)
    { entry_ := [], acc_ := some (((a : Int) : ℚ)), op_ := some op,
      justEvaluated_ := false, error_ := false, errorMsg_ := [], mem_ := none } 0
    (toDigits_all_digits b) (toDigits_ne_nil b) rfl rfl (Or.inl ⟨rfl, rfl⟩)
    (by rw [digitsVal_toDigits]; exact hb)
  rw [digitsVal_toDigits] at h3
  rw [pressAll_append _ _ _ _ _ h1, pressAll_cons_returned _ _ _ _ _ h2]
  erw [h3]
  simp only [Option.map_some', ← replicate_true_chain]

/-- C11. In every state: when the memory register holds `m`, the key `R` is
consumed and sets the entry to the internal string of `m`, `justEvaluated` to
false, the error flag to false and the message to empty, leaving accumulator,
pending operator and memory as they were; when the memory register is empty,
as it is after memory-clear, the key `R` is consumed and changes no field.
The internal string is the one `toInternalString` prints through `double`:
with `2/3` in memory the entry becomes `0.6667`, and with
`123456789012345678.5` in memory it becomes `123456789012345680`. -/
theorem memory_recall_postcondition (s : Calculator) :
    (∀ m, s.mem_ = some m →
      press s 'R' = .returned true
        { s with entry_ := toInternalString m, justEvaluated_ := false,
                 error_ := false, errorMsg_ := [] } ∧
      memoryRecall s =
        { s with entry_ := toInternalString m, justEvaluated_ := false,
                 error_ := false, errorMsg_ := [] }) ∧
    (s.mem_ = none → press s 'R' = .returned true s ∧ memoryRecall s = s) ∧
    press (memoryClear s) 'R' = .returned true (memoryClear s) ∧
    (pressAll fresh "2/3+MR".toList).map (fun p => (p.2.mem_, p.2.entry_)) =
      some (some (ldDiv 2 3), "0.6667".toList) ∧
    (pressAll fresh "0.5Mc1234567890*100000000+12345678=MR".toList).map
        (fun p => (p.2.mem_, p.2.entry_)) =
      some (some (246913578024691357 / 2), "123456789012345680".toList) := by
  refine ⟨fun m hm => ?_, fun hm => ?_, ?_, by decide!, by decide!⟩
  · have h : memoryRecall s =
        { s with entry_ := toInternalString m, justEvaluated_ := false,
                 error_ := false, errorMsg_ := [] } := by
      simp [memoryRecall, hm, clearError, setEntryFromNumber]
    rw [press_R, h]
    exact ⟨rfl, rfl⟩
  · have h : memoryRecall s = s := by simp [memoryRecall, hm]
    rw [press_R, h]
    exact ⟨rfl, rfl⟩
  · rw [press_R]
    simp [memoryRecall, memoryClear]

/-! ## C15: the missing operand -/

/-- C15. In an error-free state with an accumulator, a pending operator and an
empty entry, the key `=` is consumed, raises the error
`Enter a number before '='`, and leaves accumulator, pending operator, entry,
`justEvaluated` and memory as they were. -/
theorem missing_operand (s : Calculator) (a : LongDouble) (op : Char)
    (he : s.error_ = false) (hacc : s.acc_ = some a) (hop : s.op_ = some op)
    (hentry : s.entry_ = []) :
    press s '=' = .returned true
      { s with error_ := true, errorMsg_ := "Enter a number before '='".toList } := by
  rw [press_equals s he]
  simp [pressEquals, hacc, hop, hentry, setError]

/-- C15, at a concrete input: the state after the keys `3`, `+`. -/
theorem missing_operand_witness :
    pressAll fresh "3+".toList = some ([true, true],
      { entry_ := [], acc_ := some 3, op_ := some '+', justEvaluated_ := false,
        error_ := false, errorMsg_ := [], mem_ := none }) ∧
    press { entry_ := [], acc_ := some 3, op_ := some '+', justEvaluated_ := false,
            error_ := false, errorMsg_ := [], mem_ := none } '=' =
      .returned true
        { entry_ := [], acc_ := some 3, op_ := some '+', justEvaluated_ := false,
          error_ := true, errorMsg_ := "Enter a number before '='".toList, mem_ := none } :=
  ⟨by decide!, missing_operand _ 3 '+' rfl rfl rfl rfl⟩

/-! ## C18: a pending operator has an accumulator -/

/-- C18. In every state reachable from a fresh engine by a key sequence, a
pending operator comes with an accumulator. -/
theorem operator_has_accumulator (s : Calculator) (h : Reachable s) :
    s.op_.isSome = true → s.acc_.isSome = true :=
  (reachable_consistent s h).2

/-- C18, at a concrete input: the state after the keys `3`, `+`. -/
theorem operator_has_accumulator_witness :
    ({ entry_ := [], acc_ := some 3, op_ := some '+', justEvaluated_ := false,
       error_ := false, errorMsg_ := [], mem_ := none } : Calculator).acc_.isSome = true :=
  operator_has_accumulator _ ⟨"3+".toList, [true, true], by decide!⟩ rfl

/-! ## C14: percent -/

/-- C14. The case table of `percent`, on any state whose entry, when not
empty, converts to a value `e`: (i) entry empty, accumulator `A`: the entry
becomes the internal string of the `long double` quotient `A / 100` and
nothing else changes; (ii) entry empty, no accumulator: nothing changes;
(iii) entry not empty, accumulator `A` and an operator pending: the entry
becomes the internal string of the `long double` product `A * (e / 100)`;
(iv) entry not empty otherwise: the entry becomes the internal string of the
`long double` quotient `e / 100`; in (iii) and (iv) `justEvaluated` becomes
false; accumulator, pending operator, memory, error flag and message never
change.  The key `%` is consumed with that state; `1`, `0`, `0`, `%` on a
fresh engine leaves entry `1`, and `9999999999`, `+`, `9999999999`, `%` leaves
entry `999999999800000000`, the rounded product. -/
theorem percent_case_table (s : Calculator) :
    (∀ A, s.entry_ = [] → s.acc_ = some A →
      percent s = some { s with entry_ := toInternalString (ldDiv A 100) }) ∧
    (s.entry_ = [] → s.acc_ = none → percent s = some s) ∧
    (∀ e A op, s.entry_ ≠ [] → entryValue s = some e → s.acc_ = some A → s.op_ = some op →
      percent s = some { s with entry_ := toInternalString (ldMul A (ldDiv e 100)),
                                justEvaluated_ := false }) ∧
    (∀ e, s.entry_ ≠ [] → entryValue s = some e → (s.acc_ = none ∨ s.op_ = none) →
      percent s = some { s with entry_ := toInternalString (ldDiv e 100),
                                justEvaluated_ := false }) ∧
    (∀ t, percent s = some t → press s '%' = .returned true t) ∧
    pressAll fresh "100%".toList = some ([true, true, true, true],
      { entry_ := ['1'], acc_ := none, op_ := none, justEvaluated_ := false,
        error_ := false, errorMsg_ := [], mem_ := none }) ∧
    (pressAll fresh "9999999999+9999999999%".toList).map (fun p => p.2) =
      some { entry_ := "999999999800000000".toList, acc_ := some 9999999999, op_ := some '+',
             justEvaluated_ := false, error_ := false, errorMsg_ := [], mem_ := none } := by
  refine ⟨?_, ?_, ?_, ?_, ?_, by decide!, by decide!⟩
  · intro A he ha
    simp [percent, he, ha, setEntryFromNumber]
  · intro he ha
    simp [percent, he, ha]
  · intro e A op hne hv ha ho
    simp [percent, hne, hv, ha, ho, setEntryFromNumber]
  · intro e hne hv hor
    rcases hor with ha | ho
    · simp [percent, hne, hv, ha, setEntryFromNumber]
    · cases hacc : s.acc_ <;> simp [percent, hne, hv, hacc, ho, setEntryFromNumber]
  · intro t ht
    rw [press_percent, ht]

/-! ## C19: `=` without an accumulator -/

/-- C19 as stated fails: after `5`, `=` on a fresh engine the entry is `5` and
`justEvaluated` is true, but there is no accumulator. -/
theorem equals_without_accumulator_counterexample :
    pressAll fresh "5=".toList = some ([true, true],
      { entry_ := ['5'], acc_ := none, op_ := none, justEvaluated_ := true,
        error_ := false, errorMsg_ := [], mem_ := none }) ∧
    entryValue { entry_ := ['5'], acc_ := none, op_ := none, justEvaluated_ := false,
                 error_ := false, errorMsg_ := [], mem_ := none } = some 5 ∧
    (press { entry_ := ['5'], acc_ := none, op_ := none, justEvaluated_ := false,
             error_ := false, errorMsg_ := [], mem_ := none } '=').state.acc_ ≠ some 5 := by
  decide!

/-- C19, amended. In an error-free state with no accumulator the key `=` is
consumed, keeps the entry as it is (an empty entry becomes `0`) without
converting it, sets `justEvaluated`, and leaves the accumulator absent and
every other field as it was.  The degenerate branch of `applyPendingOp`, which
adopts the right-hand value as accumulator when accumulator or operator is
missing, is not on this path. -/
theorem equals_without_accumulator (s : Calculator) (he : s.error_ = false)
    (hacc : s.acc_ = none) :
    press s '=' = .returned true
      { s with entry_ := if s.entry_ = [] then ['0'] else s.entry_,
               justEvaluated_ := true } ∧
    (press s '=').state.acc_ = none ∧
    (∀ rhs, applyPendingOp s rhs = (true, { s with acc_ := some rhs })) := by
  have h : press s '=' = .returned true
      { s with entry_ := if s.entry_ = [] then ['0'] else s.entry_,
               justEvaluated_ := true } := by
    rw [press_equals s he]
    simp [pressEquals, hacc]
  refine ⟨h, ?_, ?_⟩
  · rw [h]
    exact hacc
  · intro rhs
    simp [applyPendingOp, hacc]

/-- C19 amended, at a concrete input: the key `=` after `5` on a fresh
engine. -/
theorem equals_without_accumulator_witness :
    press { entry_ := ['5'], acc_ := none, op_ := none, justEvaluated_ := false,
            error_ := false, errorMsg_ := [], mem_ := none } '=' =
      .returned true
        { entry_ := ['5'], acc_ := none, op_ := none, justEvaluated_ := true,
          error_ := false, errorMsg_ := [], mem_ := none } :=
  (equals_without_accumulator
    { entry_ := ['5'], acc_ := none, op_ := none, justEvaluated_ := false,
      error_ := false, errorMsg_ := [], mem_ := none } rfl rfl).1

/-! ## The error message of the reachable states -/

theorem storeResult_messageClean (s : Calculator) (out : LongDouble) (hs : MessageClean s) :
    MessageClean (storeResult s out).2 := by
  unfold storeResult
  split
  · intro h
    simp [setError] at h
  · exact hs

theorem applyPendingOp_messageClean (s : Calculator) (rhs : LongDouble)
    (hs : MessageClean s) : MessageClean (applyPendingOp s rhs).2 := by
  unfold applyPendingOp
  split
  · split_ifs <;> first
      | exact storeResult_messageClean _ _ hs
      | (intro h; simp [setError] at h)
  · exact hs

theorem pressOperator_messageClean (s : Calculator) (key : Char) (b : Bool) (t : Calculator)
    (hs : MessageClean s) (h : pressOperator s key = .returned b t) : MessageClean t := by
  unfold pressOperator at h
  simp only at h
  split at h
  · split_ifs at h
    · split at h
      · simp at h
      · simp at h
        obtain ⟨_, rfl⟩ := h
        exact hs
    · simp at h
      obtain ⟨_, rfl⟩ := h
      exact hs
  · split_ifs at h
    · split at h
      · simp at h
      · rename_i v _
        have hm := applyPendingOp_messageClean { s with justEvaluated_ := false } v hs
        split at h <;> rename_i s2 heq <;> rw [heq] at hm <;> simp at h <;>
          obtain ⟨_, rfl⟩ := h <;> exact hm
    · simp at h
      obtain ⟨_, rfl⟩ := h
      exact hs

theorem pressEquals_messageClean (s : Calculator) (b : Bool) (t : Calculator)
    (hs : MessageClean s) (h : pressEquals s = .returned b t) : MessageClean t := by
  unfold pressEquals at h
  split at h
  · simp at h
    obtain ⟨_, rfl⟩ := h
    exact hs
  · split_ifs at h
    · simp at h
      obtain ⟨_, rfl⟩ := h
      intro h
      simp [setError] at h
    · split at h
      · simp at h
      · rename_i v _
        have hm := applyPendingOp_messageClean s v hs
        split at h <;> rename_i s2 heq <;> rw [heq] at hm <;> simp at h <;>
          obtain ⟨_, rfl⟩ := h <;> exact hm
    · simp at h
      obtain ⟨_, rfl⟩ := h
      exact hs

theorem startNewEntry_messageClean (s : Calculator) (hs : MessageClean s) :
    MessageClean (startNewEntry s) := by
  unfold startNewEntry
  split_ifs
  · exact hs
  · exact hs

theorem appendDigit_messageClean (s : Calculator) (d : Char) (hs : MessageClean s) :
    MessageClean (appendDigit s d).2 := by
  simp only [appendDigit]
  split_ifs
  · intro h
    simp [setError] at h
  · exact hs
  · exact hs

theorem pressUnlatched_messageClean (s : Calculator) (key : Char) (b : Bool) (t : Calculator)
    (hs : MessageClean s) (h : pressUnlatched s key = .returned b t) : MessageClean t := by
  unfold pressUnlatched at h
  split_ifs at h
  · simp at h
    obtain ⟨_, rfl⟩ := h
    exact appendDigit_messageClean _ key (startNewEntry_messageClean s hs)
  · simp at h
    obtain ⟨_, rfl⟩ := h
    intro _
    rfl
  · simp at h
    obtain ⟨_, rfl⟩ := h
    simp only [backspace]
    split_ifs <;> exact hs
  · have h1 := startNewEntry_messageClean s hs
    simp only at h
    split_ifs at h <;> simp at h <;> obtain ⟨_, rfl⟩ := h <;> exact h1
  · exact pressOperator_messageClean s key b t hs h
  · exact pressEquals_messageClean s b t hs h
  · simp at h
    obtain ⟨_, rfl⟩ := h
    exact hs

theorem press_messageClean (s : Calculator) (key : Char) (b : Bool) (t : Calculator)
    (hs : MessageClean s) (h : press s key = .returned b t) : MessageClean t := by
  by_cases hm : isMemoryOrPercentKey key
  · rcases hm with rfl | rfl | rfl | rfl
    · rw [press_X] at h
      simp at h
      obtain ⟨_, rfl⟩ := h
      exact hs
    · rw [press_R] at h
      simp at h
      obtain ⟨_, rfl⟩ := h
      unfold memoryRecall
      split
      · exact hs
      · intro _
        rfl
    · rw [press_M] at h
      split at h
      · rename_i u hu
        simp at h
        obtain ⟨_, rfl⟩ := h
        obtain ⟨_, _, _, _, h5, h6⟩ := memoryAdd_frame s u hu
        simp only [MessageClean, h5, h6]
        exact hs
      · simp at h
    · rw [press_percent] at h
      split at h
      · rename_i u hu
        simp at h
        obtain ⟨_, _, h3, h4⟩ := percent_frame s u hu
        obtain ⟨_, rfl⟩ := h
        simp only [MessageClean, h3, h4]
        exact hs
      · simp at h
  by_cases hw : isWhitespaceKey key
  · rw [press_whitespace s key hw] at h
    simp at h
    obtain ⟨_, rfl⟩ := h
    exact hs
  rw [press_gate s key hm hw] at h
  split_ifs at h
  · simp at h
    obtain ⟨_, rfl⟩ := h
    intro _
    rfl
  · simp at h
    obtain ⟨_, rfl⟩ := h
    exact hs
  · exact pressUnlatched_messageClean s key b t hs h

theorem pressAll_messageClean (ks : List Char) :
    ∀ (s : Calculator) (bs : List Bool) (t : Calculator),
      MessageClean s → pressAll s ks = some (bs, t) → MessageClean t := by
  induction ks with
  | nil =>
    intro s bs t hs h
    simp [pressAll] at h
    obtain ⟨_, rfl⟩ := h
    exact hs
  | cons k ks ih =>
    intro s bs t hs h
    simp only [pressAll] at h
    split at h
    · rename_i b s1 hk
      split at h
      · rename_i bs1 t1 hrest
        simp at h
        obtain ⟨_, rfl⟩ := h
        exact ih s1 bs1 _ (press_messageClean s k b s1 hs hk) hrest
      · simp at h
    · simp at h

theorem reachable_messageClean (s : Calculator) (h : Reachable s) : MessageClean s := by
  obtain ⟨ks, bs, hks⟩ := h
  exact pressAll_messageClean ks fresh bs s (fun _ => rfl) hks

/-! ## C20: a digit after an evaluation -/

/-- C20. In an error-free state with `justEvaluated` true a digit key `d` is
consumed and leaves entry `d` alone, no accumulator, no pending operator,
`justEvaluated` false, no error, and the memory register as it was; in a
reachable state that is the very state the digit leaves on the just-cleared
engine with that memory.  After `3`, `+`, `4`, `=`, `5` the display reads `5`
and the status line `Ready`. -/
theorem digit_after_evaluation (s : Calculator) (d : Char) (hd : '0' ≤ d ∧ d ≤ '9')
    (he : s.error_ = false) (hj : s.justEvaluated_ = true) :
    press s d = .returned true
      { entry_ := [d], acc_ := none, op_ := none, justEvaluated_ := false,
        error_ := false, errorMsg_ := s.errorMsg_, mem_ := s.mem_ } ∧
    (Reachable s → press s d = press (clearAll s) d) ∧
    (pressAll fresh "3+4=5".toList).map (fun p => (display p.2, statusLine p.2)) =
      some ("5".toList, "Ready".toList) := by
  have hpress : ∀ u : Calculator, u.error_ = false →
      startNewEntry u = { u with entry_ := [], acc_ := none, op_ := none,
                                 justEvaluated_ := false } →
      press u d = .returned true
        { entry_ := [d], acc_ := none, op_ := none, justEvaluated_ := false,
          error_ := false, errorMsg_ := u.errorMsg_, mem_ := u.mem_ } := by
    intro u hu hstart
    rw [press_digit u d hd hu, hstart]
    simp [appendDigit, kMaxDigits, hu]
  have h1 := hpress s he (by simp [startNewEntry, hj])
  refine ⟨h1, fun hr => ?_, by decide!⟩
  have hmsg := reachable_messageClean s hr he
  rw [h1, hpress (clearAll s) rfl (by simp [startNewEntry, clearAll, clearError]), hmsg]
  rfl

/-- C20, at a concrete input: the state after `3`, `+`, `4`, `=` and the key
`5`. -/
theorem digit_after_evaluation_witness :
    press { entry_ := ['7'], acc_ := some 7, op_ := none, justEvaluated_ := true,
            error_ := false, errorMsg_ := [], mem_ := none } '5' =
      .returned true
        { entry_ := ['5'], acc_ := none, op_ := none, justEvaluated_ := false,
          error_ := false, errorMsg_ := [], mem_ := none } :=
  (digit_after_evaluation
    { entry_ := ['7'], acc_ := some 7, op_ := none, justEvaluated_ := true,
      error_ := false, errorMsg_ := [], mem_ := none } '5' (by decide) rfl rfl).1

/-! ## C12: memory add and the round trip -/

theorem toInternalString_nat (n : Nat) (hn : n < 10 ^ 10) :
    toInternalString (n : ℚ) = Nat.toDigits 10 n := by
  have h := toInternalString_int (n : Int) (natCast_in_range n hn)
  rw [Int.cast_natCast] at h
  rw [h]
  simp [showLongLong]

/-- C12. For a natural number `n` of at most ten digits typed without leading
zeros into a fresh engine, the keys memory-add and memory-recall are consumed
and leave the memory register holding `n`, the entry equal to the digit string
typed, and the display its grouped form.  In general memory-add sets the
memory register to its previous value (0 if empty) plus the working value: the
value of the entry if the entry is not empty, else the accumulator, else 0.
The sum is the `long double` sum `ldAdd`, which is the exact sum on integers
whose sum is below `2^64` in absolute value. -/
theorem memory_round_trip (n : Nat) (hn : n < 10 ^ 10) :
    (∃ t, pressAll fresh (Nat.toDigits 10 n ++ ['M', 'R']) =
        some (List.replicate ((Nat.toDigits 10 n).length + 2) true, t) ∧
      hasMemory t = true ∧ t.mem_ = some (n : ℚ) ∧ t.entry_ = Nat.toDigits 10 n ∧
      display t = groupThousands (Nat.toDigits 10 n)) ∧
    (∀ (s : Calculator) (e : LongDouble), s.entry_ ≠ [] → entryValue s = some e →
      memoryAdd s = some { s with mem_ := some (ldAdd (s.mem_.getD 0) e) }) ∧
    (∀ (s : Calculator) (a : LongDouble), s.entry_ = [] → s.acc_ = some a →
      memoryAdd s = some { s with mem_ := some (ldAdd (s.mem_.getD 0) a) }) ∧
    (∀ s : Calculator, s.entry_ = [] → s.acc_ = none →
      memoryAdd s = some { s with mem_ := some (ldAdd (s.mem_.getD 0) 0) }) ∧
    (∀ x y : Int, |x + y| < 2 ^ 64 → ldAdd (x : ℚ) (y : ℚ) = (x : ℚ) + (y : ℚ)) := by
  refine ⟨?_, ?_, ?_, ?_, ?_⟩
  · have h1 := pressAll_digits (Nat.toDigits 10 n) fresh 0 (toDigits_all_digits n)
      (toDigits_ne_nil n) rfl rfl (Or.inl ⟨rfl, rfl⟩) (by rw [digitsVal_toDigits]; exact hn)
    rw [digitsVal_toDigits] at h1
    have hne : Nat.toDigits 10 n ≠ [] := toDigits_ne_nil n
    have hM : press
        { entry_ := Nat.toDigits 10 n, acc_ := none, op_ := none,
          justEvaluated_ := false, error_ := false, errorMsg_ := [], mem_ := none } 'M' =
        .returned true
          { entry_ := Nat.toDigits 10 n, acc_ := none, op_ := none,
            justEvaluated_ := false, error_ := false, errorMsg_ := [],
            mem_ := some (n : ℚ) } := by
      have hv := entryValue_numeral
        { entry_ := Nat.toDigits 10 n, acc_ := none, op_ := none,
          justEvaluated_ := false, error_ := false, errorMsg_ := [], mem_ := none } n
        (lt_trans hn (by norm_num)) rfl
      rw [press_M]
      simp [memoryAdd, hne, hv, ldAdd, ldRound_natCast n (lt_trans hn (by norm_num))]
    have hR : press
        { entry_ := Nat.toDigits 10 n, acc_ := none, op_ := none,
          justEvaluated_ := false, error_ := false, errorMsg_ := [],
          mem_ := some (n : ℚ) } 'R' =
        .returned true
          { entry_ := Nat.toDigits 10 n, acc_ := none, op_ := none,
            justEvaluated_ := false, error_ := false, errorMsg_ := [],
            mem_ := some (n : ℚ) } := by
      rw [press_R]
      simp [memoryRecall, setEntryFromNumber, clearError, toInternalString_nat n hn]
    have hall : pressAll fresh (Nat.toDigits 10 n ++ ['M', 'R']) =
        some (List.replicate ((Nat.toDigits 10 n).length + 2) true,
          { entry_ := Nat.toDigits 10 n, acc_ := none, op_ := none,
            justEvaluated_ := false, error_ := false, errorMsg_ := [],
            mem_ := some (n : ℚ) }) := by
      rw [pressAll_append _ _ _ _ _ h1]
      erw [pressAll_cons_returned _ _ _ _ _ hM, pressAll_cons_returned _ _ _ _ _ hR]
      simp only [pressAll, Option.map_some']
      rw [List.replicate_add]
      rfl
    refine ⟨_, hall, rfl, rfl, rfl, ?_⟩
    simp only [display]
    rw [if_neg (by decide), if_pos hne]
    exact formatTR_digits _ (toDigits_all_digits n)
  · intro s e hne hv
    simp [memoryAdd, hne, hv]
  · intro s a he ha
    simp [memoryAdd, he, ha]
  · intro s he ha
    simp [memoryAdd, he, ha]
  · intro x y h
    have := ldRound_intCast (x + y) h
    unfold ldAdd
    push_cast at this
    exact this

/-- C12, at a concrete input: `5`, memory-add, memory-recall on a fresh
engine. -/
theorem memory_round_trip_witness :
    ∃ t, pressAll fresh "5MR".toList = some ([true, true, true], t) ∧
      hasMemory t = true ∧ t.mem_ = some 5 ∧ t.entry_ = ['5'] ∧ display t = ['5'] := by
  obtain ⟨⟨t, h1, h2, h3, h4, h5⟩, _⟩ := memory_round_trip 5 (by norm_num)
  exact ⟨t, h1, h2, by rw [h3]; norm_num, h4, h5⟩

/-! ## C16: the display conversion -/

theorem takeWhile_plain_append (d r : Str) (x : Char) (hd : PlainDigits d)
    (hx : ¬ ('0' ≤ x ∧ x ≤ '9')) :
    (d ++ x :: r).takeWhile (fun c => c != x) = d ∧
    (d ++ x :: r).dropWhile (fun c => c != x) = x :: r := by
  induction d with
  | nil => simp
  | cons c d ih =>
    have hc : c ≠ x := fun h => hx (h ▸ hd c (by simp))
    have hd2 : PlainDigits d := fun y hy => hd y (by simp [hy])
    obtain ⟨h1, h2⟩ := ih hd2
    simp only [List.cons_append, List.takeWhile_cons, List.dropWhile_cons]
    simp [hc, h1, h2]

theorem formatTR_fraction_tail (sign d f : Str) (hd : PlainDigits d) (hf : PlainDigits f)
    (hfne : f ≠ []) :
    (let s1 := d ++ '.' :: f
     let intPart0 : Str := if '.' ∈ s1 then s1.takeWhile (fun c => c != '.') else s1
     let fracPart0 : Str := if '.' ∈ s1 then (s1.dropWhile (fun c => c != '.')).drop 1 else []
     let intPart1 := stripChars (stripChars intPart0 ',') '.'
     let fracPart := stripChars (stripChars fracPart0 ',') '.'
     let intPart := insertDots intPart1.length ((intPart1.length : Int) - 3) intPart1
     if fracPart ≠ [] then sign ++ intPart ++ ',' :: fracPart
     else sign ++ intPart) = sign ++ groupThousands d ++ ',' :: f := by
  have hdot : '.' ∈ d ++ '.' :: f := by simp
  obtain ⟨h1, h2⟩ := takeWhile_plain_append d f '.' hd (by decide)
  simp only [if_pos hdot, h1, h2, List.drop_succ_cons, List.drop_zero]
  rw [stripChars_plain d hd ',' (by decide), stripChars_plain d hd '.' (by decide),
    stripChars_plain f hf ',' (by decide), stripChars_plain f hf '.' (by decide),
    insertDots_length, if_pos hfne]

theorem formatTR_digits_fraction (d f : Str) (hd : PlainDigits d) (hdne : d ≠ [])
    (hf : PlainDigits f) (hfne : f ≠ []) :
    formatTR_fromInternal (d ++ '.' :: f) = groupThousands d ++ ',' :: f := by
  have he : ¬ ('e' ∈ d ++ '.' :: f ∨ 'E' ∈ d ++ '.' :: f) := by
    simp only [List.mem_append, List.mem_cons]
    rintro ((h | h | h) | (h | h | h))
    · exact plainDigits_not_mem d hd 'e' (by decide) h
    · exact absurd h (by decide)
    · exact plainDigits_not_mem f hf 'e' (by decide) h
    · exact plainDigits_not_mem d hd 'E' (by decide) h
    · exact absurd h (by decide)
    · exact plainDigits_not_mem f hf 'E' (by decide) h
  unfold formatTR_fromInternal
  rw [if_neg he]
  cases d with
  | nil => exact absurd rfl hdne
  | cons c r =>
    have hc : ¬ (c = '-' ∨ c = '+') := by
      have := hd c (by simp)
      rintro (rfl | rfl) <;> revert this <;> decide
    simp only [List.cons_append, if_neg hc]
    exact formatTR_fraction_tail [] (c :: r) f hd hf hfne

theorem formatTR_neg_digits_fraction (d f : Str) (hd : PlainDigits d)
    (hf : PlainDigits f) (hfne : f ≠ []) :
    formatTR_fromInternal ('-' :: (d ++ '.' :: f)) = '-' :: (groupThousands d ++ ',' :: f) := by
  have he : ¬ ('e' ∈ '-' :: (d ++ '.' :: f) ∨ 'E' ∈ '-' :: (d ++ '.' :: f)) := by
    simp only [List.mem_append, List.mem_cons]
    rintro ((h | h | h | h) | (h | h | h | h))
    · exact absurd h (by decide)
    · exact plainDigits_not_mem d hd 'e' (by decide) h
    · exact absurd h (by decide)
    · exact plainDigits_not_mem f hf 'e' (by decide) h
    · exact absurd h (by decide)
    · exact plainDigits_not_mem d hd 'E' (by decide) h
    · exact absurd h (by decide)
    · exact plainDigits_not_mem f hf 'E' (by decide) h
  unfold formatTR_fromInternal
  rw [if_neg he]
  simp only [true_or, if_true]
  exact formatTR_fraction_tail ['-'] d f hd hf hfne

theorem joinWithDots_append_singleton (gs : List Str) (g : Str) (h : gs ≠ []) :
    joinWithDots (gs ++ [g]) = joinWithDots gs ++ '.' :: g := by
  induction gs with
  | nil => exact absurd rfl h
  | cons x xs ih =>
    cases xs with
    | nil => simp [joinWithDots]
    | cons y ys =>
      have := ih (by simp)
      simp only [List.cons_append] at this ⊢
      simp only [joinWithDots, this, List.append_assoc, List.cons_append]

/-- The grouped form of a non-empty string is its groups joined by dots: a
first group of one to three characters, then groups of exactly three. -/
theorem groupThousands_groups (n : Nat) :
    ∀ d : Str, d.length = n → d ≠ [] →
      ∃ gs : List Str, groupThousands d = joinWithDots gs ∧ gs.flatten = d ∧ gs ≠ [] ∧
        (∀ g ∈ gs.head?, 1 ≤ g.length ∧ g.length ≤ 3) ∧ (∀ g ∈ gs.tail, g.length = 3) := by
  induction n using Nat.strong_induction_on with
  | _ n ih =>
    intro d hlen hne
    have hpos : 0 < d.length := List.length_pos.mpr hne
    by_cases hn : n ≤ 3
    · refine ⟨[d], ?_, by simp, by simp, ?_, by simp⟩
      · rw [groupThousands_short d (by omega)]
        rfl
      · intro g hg
        simp only [List.head?_cons, Option.mem_def, Option.some.injEq] at hg
        subst hg
        omega
    · have hsplit : d = d.take (n - 3) ++ d.drop (n - 3) := (List.take_append_drop _ _).symm
      have htl : (d.drop (n - 3)).length = 3 := by
        rw [List.length_drop]
        omega
      have hpl : (d.take (n - 3)).length = n - 3 := by
        rw [List.length_take]
        omega
      obtain ⟨a, b, c, habc⟩ : ∃ a b c, d.drop (n - 3) = [a, b, c] := by
        match hq : d.drop (n - 3), htl with
        | [a, b, c], _ => exact ⟨a, b, c, rfl⟩
      have hpne : d.take (n - 3) ≠ [] := by
        intro h
        rw [h] at hpl
        simp at hpl
        omega
      obtain ⟨gs, h1, h2, h3, h4, h5⟩ := ih (n - 3) (by omega) (d.take (n - 3)) hpl hpne
      refine ⟨gs ++ [[a, b, c]], ?_, ?_, by simp, ?_, ?_⟩
      · rw [joinWithDots_append_singleton gs _ h3, ← h1]
        conv_lhs => rw [hsplit, habc]
        exact groupThousands_append_three _ a b c hpne
      · rw [List.flatten_append, h2]
        conv_rhs => rw [hsplit, habc]
        simp
      · intro g hg
        rw [List.head?_append_of_ne_nil _ h3] at hg
        exact h4 g hg
      · intro g hg
        rw [List.tail_append_of_ne_nil h3] at hg
        simp only [List.mem_append, List.mem_singleton] at hg
        rcases hg with hg | rfl
        · exact h5 g hg
        · rfl

theorem stripChars_joinWithDots (gs : List Str) (h : ∀ g ∈ gs, PlainDigits g) :
    stripChars (joinWithDots gs) '.' = gs.flatten := by
  induction gs with
  | nil => rfl
  | cons x xs ih =>
    have hx : stripChars x '.' = x := stripChars_plain x (h x (by simp)) '.' (by decide)
    have hxs : ∀ g ∈ xs, PlainDigits g := fun g hg => h g (by simp [hg])
    cases xs with
    | nil => simpa [joinWithDots] using hx
    | cons y ys =>
      have := ih hxs
      unfold stripChars at this hx ⊢
      simp only [joinWithDots, List.filter_append, List.filter_cons, hx, this,
        List.flatten_cons]
      simp

theorem plainDigits_of_flatten (gs : List Str) (d : Str) (h : gs.flatten = d)
    (hd : PlainDigits d) : ∀ g ∈ gs, PlainDigits g := by
  intro g hg c hc
  exact hd c (h ▸ List.mem_flatten.mpr ⟨g, hg, hc⟩)

theorem joinWithDots_head (gs : List Str) (h : ∀ g ∈ gs, PlainDigits g)
    (hfirst : ∀ g ∈ gs.head?, 1 ≤ g.length ∧ g.length ≤ 3) :
    (joinWithDots gs).head? ≠ some '.' := by
  cases gs with
  | nil => simp [joinWithDots]
  | cons x xs =>
    have hx := hfirst x (by simp)
    cases x with
    | nil => simp at hx
    | cons c r =>
      have hc : '0' ≤ c ∧ c ≤ '9' := h (c :: r) (by simp) c (by simp)
      have hne : c ≠ '.' := by rintro rfl; revert hc; decide
      cases xs <;> simpa [joinWithDots] using hne

/-- C16. For an internal string made of an optional leading `-`, a non-empty
string of digits `d` and optionally a `.` followed by a non-empty string of
digits `f`, `formatTR_fromInternal` returns the sign, then `g`, then (when `f`
is present) `,` followed by `f`; here `g` is the groups `gs` of `d` joined by
`.`: the groups concatenate to `d`, removing the separators from `g` gives `d`
back, `g` does not begin with a separator, the first group has one to three
digits and every later group exactly three.  A string containing `e` or `E`
is returned unchanged, and `1234.5` becomes `1.234,5`. -/
theorem formatTR_fromInternal_spec (neg : Bool) (d : Str) (frac : Option Str)
    (hd : PlainDigits d) (hdne : d ≠ [])
    (hf : ∀ f, frac = some f → PlainDigits f ∧ f ≠ []) :
    (∃ gs : List Str,
      formatTR_fromInternal
          ((if neg then ['-'] else []) ++ (d ++ (match frac with
            | some f => '.' :: f
            | none => []))) =
        (if neg then ['-'] else []) ++ (joinWithDots gs ++ (match frac with
            | some f => ',' :: f
            | none => [])) ∧
      gs.flatten = d ∧ stripChars (joinWithDots gs) '.' = d ∧
      (joinWithDots gs).head? ≠ some '.' ∧ (∀ g ∈ gs, PlainDigits g) ∧
      (∀ g ∈ gs.head?, 1 ≤ g.length ∧ g.length ≤ 3) ∧ (∀ g ∈ gs.tail, g.length = 3)) ∧
    (∀ s : Str, 'e' ∈ s ∨ 'E' ∈ s → formatTR_fromInternal s = s) ∧
    formatTR_fromInternal "1234.5".toList = "1.234,5".toList := by
  refine ⟨?_, ?_, by decide⟩
  · obtain ⟨gs, h1, h2, _, h4, h5⟩ := groupThousands_groups d.length d rfl hdne
    have hg := plainDigits_of_flatten gs d h2 hd
    refine ⟨gs, ?_, h2, ?_, joinWithDots_head gs hg h4, hg, h4, h5⟩
    · rw [← h1]
      cases frac with
      | none =>
        cases neg with
        | false => simpa using formatTR_digits d hd
        | true => simpa using formatTR_neg_digits d hd
      | some f =>
        obtain ⟨hf1, hf2⟩ := hf f rfl
        cases neg with
        | false => simpa using formatTR_digits_fraction d f hd hdne hf1 hf2
        | true => simpa using formatTR_neg_digits_fraction d f hd hf1 hf2
    · rw [stripChars_joinWithDots gs hg, h2]
  · intro s hs
    unfold formatTR_fromInternal
    rw [if_pos hs]

/-- C16, at a concrete input: the internal string `-1234567.50`. -/
theorem formatTR_fromInternal_spec_witness :
    ∃ gs : List Str,
      formatTR_fromInternal "-1234567.50".toList = '-' :: (joinWithDots gs ++ ",50".toList) ∧
      gs.flatten = "1234567".toList ∧
      (∀ g ∈ gs.head?, 1 ≤ g.length ∧ g.length ≤ 3) ∧ (∀ g ∈ gs.tail, g.length = 3) := by
  obtain ⟨⟨gs, h1, h2, _, _, _, h6, h7⟩, _⟩ :=
    formatTR_fromInternal_spec true "1234567".toList (some "50".toList)
      (by unfold PlainDigits; decide) (by decide)
      (by
        intro f hf
        cases hf
        exact ⟨by unfold PlainDigits; decide, by decide⟩)
  exact ⟨gs, h1, h2, h6, h7⟩

/-! ## Decimal points of the entry -/

theorem count_dot_plain (d : Str) (hd : PlainDigits d) : d.count '.' = 0 :=
  List.count_eq_zero.mpr (plainDigits_not_mem d hd '.' (by decide))

theorem count_dot_toDigits (n : Nat) : (Nat.toDigits 10 n).count '.' = 0 :=
  count_dot_plain _ (toDigits_all_digits n)

theorem count_dot_padZeros (w n : Nat) : (padZeros w (Nat.toDigits 10 n)).count '.' = 0 := by
  unfold padZeros
  rw [List.count_append, count_dot_toDigits, List.count_replicate]
  simp

theorem count_dot_take_drop (n k : Nat) :
    ((Nat.toDigits 10 n).take k).count '.' = 0 ∧ ((Nat.toDigits 10 n).drop k).count '.' = 0 := by
  have h := count_dot_toDigits n
  have h1 := (List.take_sublist k (Nat.toDigits 10 n)).count_le '.'
  have h2 := (List.drop_sublist k (Nat.toDigits 10 n)).count_le '.'
  omega

theorem count_dot_tail (n : Nat) : (Nat.toDigits 10 n).tail.count '.' = 0 := by
  have h := count_dot_toDigits n
  have h1 := (List.tail_sublist (Nat.toDigits 10 n)).count_le '.'
  omega

theorem count_dot_showLongLong (z : Int) : (showLongLong z).count '.' = 0 := by
  unfold showLongLong
  split_ifs
  · rw [List.count_cons, count_dot_toDigits]
    simp
  · exact count_dot_toDigits _

theorem count_dot_showScientific10 (v : LongDouble) : (showScientific10 v).count '.' ≤ 1 := by
  unfold showScientific10
  cases toDouble v with
  | none =>
    simp only
    split_ifs <;> decide
  | some d =>
    simp only
    split_ifs <;> first
      | decide
      | simp [List.count_append, List.count_cons, (count_dot_take_drop _ _).1,
          (count_dot_take_drop _ _).2, count_dot_padZeros, count_dot_tail]

theorem count_dot_showFixed4 (v : LongDouble) : (showFixed4 v).count '.' ≤ 1 := by
  unfold showFixed4
  cases toDouble v with
  | none =>
    simp only
    split_ifs <;> decide
  | some d =>
    simp only
    split_ifs <;>
      simp [List.count_append, List.count_cons, count_dot_toDigits, count_dot_padZeros]

/-- The internal string of any value holds at most one decimal point. -/
theorem count_dot_toInternalString (v : LongDouble) : (toInternalString v).count '.' ≤ 1 := by
  unfold toInternalString
  simp only
  split_ifs
  · rw [count_dot_showLongLong]
    omega
  · exact count_dot_showScientific10 v
  · have h1 : ((showFixed4 v).reverse.dropWhile (fun c => c == '0')).reverse.dropLast.count '.'
        ≤ ((showFixed4 v).reverse.dropWhile (fun c => c == '0')).reverse.count '.' :=
      (List.dropLast_sublist _).count_le '.'
    have h2 : ((showFixed4 v).reverse.dropWhile (fun c => c == '0')).reverse.count '.'
        ≤ (showFixed4 v).count '.' := by
      have := ((List.dropWhile_sublist (fun c => c == '0')
        (l := (showFixed4 v).reverse)).reverse).count_le '.'
      simpa using this
    have h3 := count_dot_showFixed4 v
    omega
  · have h2 : ((showFixed4 v).reverse.dropWhile (fun c => c == '0')).reverse.count '.'
        ≤ (showFixed4 v).count '.' := by
      have := ((List.dropWhile_sublist (fun c => c == '0')
        (l := (showFixed4 v).reverse)).reverse).count_le '.'
      simpa using this
    have h3 := count_dot_showFixed4 v
    omega
  · exact count_dot_showFixed4 v

theorem pressOperator_entry (s : Calculator) (key : Char) (b : Bool) (t : Calculator)
    (h : pressOperator s key = .returned b t) : t.entry_ = [] ∨ t.entry_ = s.entry_ := by
  unfold pressOperator at h
  simp only at h
  split at h
  · split_ifs at h
    · split at h
      · simp at h
      · simp at h
        obtain ⟨_, rfl⟩ := h
        exact Or.inl rfl
    · simp at h
      obtain ⟨_, rfl⟩ := h
      exact Or.inl rfl
  · split_ifs at h
    · split at h
      · simp at h
      · rename_i v _
        have hf := (applyPendingOp_frame { s with justEvaluated_ := false } v).1
        split at h <;> rename_i s2 heq <;> rw [heq] at hf <;> simp at h <;>
          obtain ⟨_, rfl⟩ := h
        · exact Or.inr hf
        · exact Or.inl rfl
    · simp at h
      obtain ⟨_, rfl⟩ := h
      exact Or.inl rfl

theorem pressEquals_entry (s : Calculator) (b : Bool) (t : Calculator)
    (h : pressEquals s = .returned b t) :
    t.entry_ = s.entry_ ∨ t.entry_ = ['0'] ∨ ∃ v, t.entry_ = toInternalString v := by
  unfold pressEquals at h
  split at h
  · simp at h
    obtain ⟨_, rfl⟩ := h
    by_cases he : s.entry_ = []
    · exact Or.inr (Or.inl (by simp [he]))
    · exact Or.inl (by simp [he])
  · split_ifs at h
    · simp at h
      obtain ⟨_, rfl⟩ := h
      exact Or.inl rfl
    · split at h
      · simp at h
      · rename_i v _
        have hf := (applyPendingOp_frame s v).1
        split at h <;> rename_i s2 heq <;> rw [heq] at hf <;> simp at h <;>
          obtain ⟨_, rfl⟩ := h
        · exact Or.inl hf
        · exact Or.inr (Or.inr ⟨_, rfl⟩)
    · simp at h
      obtain ⟨_, rfl⟩ := h
      exact Or.inr (Or.inr ⟨_, rfl⟩)

theorem percent_entry (s t : Calculator) (h : percent s = some t) :
    t.entry_ = s.entry_ ∨ ∃ v, t.entry_ = toInternalString v := by
  unfold percent at h
  split_ifs at h
  · split at h <;> simp [setEntryFromNumber] at h <;> subst h
    · exact Or.inr ⟨_, rfl⟩
    · exact Or.inl rfl
  · split at h
    · simp at h
    · simp [setEntryFromNumber] at h
      subst h
      exact Or.inr ⟨_, rfl⟩

theorem startNewEntry_oneDot (s : Calculator) (hs : OneDot s) : OneDot (startNewEntry s) := by
  unfold startNewEntry
  split_ifs
  · simp [OneDot]
  · exact hs

theorem appendDigit_oneDot (s : Calculator) (d : Char) (hd : '0' ≤ d ∧ d ≤ '9')
    (hs : OneDot s) : OneDot (appendDigit s d).2 := by
  have hne : d ≠ '.' := by rintro rfl; revert hd; decide
  simp only [appendDigit]
  split_ifs
  · exact hs
  · simp [OneDot, List.count_cons, hne]
  · unfold OneDot at hs ⊢
    simpa [List.count_append, List.count_cons, hne] using hs

theorem pressUnlatched_oneDot (s : Calculator) (key : Char) (b : Bool) (t : Calculator)
    (hs : OneDot s) (h : pressUnlatched s key = .returned b t) : OneDot t := by
  unfold pressUnlatched at h
  split_ifs at h with hd
  · simp at h
    obtain ⟨_, rfl⟩ := h
    exact appendDigit_oneDot _ key hd (startNewEntry_oneDot s hs)
  · simp at h
    obtain ⟨_, rfl⟩ := h
    simp [OneDot, clearAll, clearError]
  · simp at h
    obtain ⟨_, rfl⟩ := h
    have hsub := (List.dropLast_sublist s.entry_).count_le '.'
    unfold OneDot at hs ⊢
    simp only [backspace]
    split_ifs
    · simp only
      omega
    · simp only
      omega
    · exact hs
  · have h1 := startNewEntry_oneDot s hs
    simp only at h
    by_cases he : (startNewEntry s).entry_ = []
    · rw [if_pos he] at h
      simp at h
      obtain ⟨_, rfl⟩ := h
      simp [OneDot]
    · rw [if_neg he] at h
      by_cases hdot : '.' ∉ (startNewEntry s).entry_
      · rw [if_pos hdot] at h
        simp at h
        obtain ⟨_, rfl⟩ := h
        unfold OneDot
        have : (startNewEntry s).entry_.count '.' = 0 := List.count_eq_zero.mpr hdot
        simp [List.count_append, this]
      · rw [if_neg hdot] at h
        simp at h
        obtain ⟨_, rfl⟩ := h
        exact h1
  · rcases pressOperator_entry s key b t h with h1 | h1
    · simp [OneDot, h1]
    · unfold OneDot
      rw [h1]
      exact hs
  · rcases pressEquals_entry s b t h with h1 | h1 | ⟨v, h1⟩
    · unfold OneDot
      rw [h1]
      exact hs
    · simp [OneDot, h1]
    · unfold OneDot
      rw [h1]
      exact count_dot_toInternalString v
  · simp at h
    obtain ⟨_, rfl⟩ := h
    exact hs

theorem press_oneDot (s : Calculator) (key : Char) (b : Bool) (t : Calculator)
    (hs : OneDot s) (h : press s key = .returned b t) : OneDot t := by
  by_cases hm : isMemoryOrPercentKey key
  · rcases hm with rfl | rfl | rfl | rfl
    · rw [press_X] at h
      simp at h
      obtain ⟨_, rfl⟩ := h
      exact hs
    · rw [press_R] at h
      simp at h
      obtain ⟨_, rfl⟩ := h
      unfold memoryRecall
      split
      · exact hs
      · exact count_dot_toInternalString _
    · rw [press_M] at h
      split at h
      · rename_i u hu
        simp at h
        obtain ⟨_, rfl⟩ := h
        unfold OneDot
        rw [(memoryAdd_frame s u hu).1]
        exact hs
      · simp at h
    · rw [press_percent] at h
      split at h
      · rename_i u hu
        simp at h
        obtain ⟨_, rfl⟩ := h
        rcases percent_entry s u hu with h1 | ⟨v, h1⟩
        · unfold OneDot
          rw [h1]
          exact hs
        · unfold OneDot
          rw [h1]
          exact count_dot_toInternalString v
      · simp at h
  by_cases hw : isWhitespaceKey key
  · rw [press_whitespace s key hw] at h
    simp at h
    obtain ⟨_, rfl⟩ := h
    exact hs
  rw [press_gate s key hm hw] at h
  split_ifs at h
  · simp at h
    obtain ⟨_, rfl⟩ := h
    simp [OneDot, clearAll, clearError]
  · simp at h
    obtain ⟨_, rfl⟩ := h
    exact hs
  · exact pressUnlatched_oneDot s key b t hs h

theorem pressAll_oneDot (ks : List Char) :
    ∀ (s : Calculator) (bs : List Bool) (t : Calculator),
      OneDot s → pressAll s ks = some (bs, t) → OneDot t := by
  induction ks with
  | nil =>
    intro s bs t hs h
    simp [pressAll] at h
    obtain ⟨_, rfl⟩ := h
    exact hs
  | cons k ks ih =>
    intro s bs t hs h
    simp only [pressAll] at h
    split at h
    · rename_i b s1 hk
      split at h
      · rename_i bs1 t1 hrest
        simp at h
        obtain ⟨_, rfl⟩ := h
        exact ih s1 bs1 _ (press_oneDot s k b s1 hs hk) hrest
      · simp at h
    · simp at h

theorem reachable_oneDot (s : Calculator) (h : Reachable s) : OneDot s := by
  obtain ⟨ks, bs, hks⟩ := h
  exact pressAll_oneDot ks fresh bs s (by simp [OneDot, fresh, clearAll, clearError]) hks

/-! ## C17: the entry invariant -/

/-- C17 as stated fails: `9999999999`, `+`, `9999999999`, `=` on a fresh
engine leaves entry `19999999998`, eleven digit characters. -/
theorem entry_invariant_counterexample :
    (pressAll fresh "9999999999+9999999999=".toList).map
        (fun p => (p.2.entry_, (p.2.entry_.filter isdigit).length)) =
      some ("19999999998".toList, 11) := by
  decide!

/-- C17, amended. In every state reachable from a fresh engine by a key
sequence the entry holds at most one decimal point.  The bound of ten digit
characters is what digit keys keep: a digit key that is consumed leaves an
entry of at most ten digit characters or leaves the entry as it was.  Entries
written by `=`, percent or memory-recall are the internal string of a value
and may hold more. -/
theorem entry_invariant (s : Calculator) (h : Reachable s) :
    s.entry_.count '.' ≤ 1 ∧
    (∀ (d : Char) (t : Calculator), '0' ≤ d ∧ d ≤ '9' → press s d = .returned true t →
      (t.entry_.filter isdigit).length ≤ 10 ∨ t.entry_ = s.entry_) := by
  refine ⟨reachable_oneDot s h, ?_⟩
  intro d t hd ht
  by_cases he : s.error_ = true
  · obtain ⟨hm, hw, hc⟩ := digit_not_special d hd
    rw [press_gate s d hm hw, if_pos he, if_neg hc] at ht
    simp at ht
  · have he2 : s.error_ = false := by simpa using he
    rw [press_digit s d hd he2] at ht
    simp only [Outcome.returned.injEq, true_and] at ht
    subst ht
    have hdig : isdigit d = true := by simpa [isdigit] using hd
    by_cases hj : s.justEvaluated_ = true
    · left
      simp [appendDigit, startNewEntry, hj, kMaxDigits, hdig]
    · have hs : startNewEntry s = s := by simp [startNewEntry, hj]
      rw [hs]
      simp only [appendDigit]
      split_ifs with h1 h2
      · right
        rfl
      · left
        simp [hdig]
      · left
        unfold kMaxDigits at h1
        simp only [List.filter_append, List.length_append]
        simp [hdig]
        omega

/-- C17 amended, at a concrete input: the state after `9999999999`, `+`,
`9999999999`, `=`, whose entry has eleven digits and no decimal point. -/
theorem entry_invariant_witness :
    ("19999999998".toList).count '.' ≤ 1 :=
  (entry_invariant
    { entry_ := "19999999998".toList, acc_ := some 19999999998, op_ := none,
      justEvaluated_ := true, error_ := false, errorMsg_ := [], mem_ := none }
    ⟨"9999999999+9999999999=".toList, List.replicate 22 true, by decide!⟩).1

/-! ## Numbers with two decimals: internal string, parsing, display -/

theorem twoDecimals_facts :
    ∀ r, r < 100 → 0 < r →
      (padZeros 4 (Nat.toDigits 10 (r * 100))).reverse.dropWhile (fun c => c == '0') =
        (twoDecimals r).reverse ∧
      (∀ c ∈ twoDecimals r, '0' ≤ c ∧ c ≤ '9') ∧
      digitsVal 0 (twoDecimals r) * 100 = r * 10 ^ (twoDecimals r).length := by
  decide

theorem twoDecimals_ne_nil (r : Nat) : twoDecimals r ≠ [] := by
  unfold twoDecimals
  split_ifs <;> simp

/-- A value `k / 100` that is not an integer is at least a hundredth away from
every integer. -/
theorem hundredths_far_from_int (k z : Int) (hk : k.natAbs % 100 ≠ 0) :
    1 / 100 ≤ |(k : ℚ) / 100 - (z : ℚ)| := by
  have hne : k - 100 * z ≠ 0 := by
    intro h
    apply hk
    have : k = 100 * z := by omega
    rw [this, Int.natAbs_mul]
    simp
  have h1 : (1 : Int) ≤ |k - 100 * z| := Int.one_le_abs hne
  have h2 : (1 : ℚ) ≤ |((k - 100 * z : Int) : ℚ)| := by exact_mod_cast h1
  have h3 : (k : ℚ) / 100 - (z : ℚ) = ((k - 100 * z : Int) : ℚ) / 100 := by
    push_cast
    ring
  rw [h3, abs_div, abs_of_pos (by norm_num : (0 : ℚ) < 100)]
  apply div_le_div_of_nonneg_right h2 (by norm_num)

/-- The function `round` gives the integer a value is less than a half away from. -/
theorem round_of_near (w : ℚ) (z : Int) (h : |w - (z : ℚ)| < 1 / 2) : round w = z := by
  rw [abs_lt] at h
  obtain ⟨h1, h2⟩ := h
  unfold round
  split_ifs with h0
  · rw [Int.floor_eq_iff]
    constructor <;> linarith
  · have : ⌊-w + 1 / 2⌋ = -z := by
      rw [Int.floor_eq_iff]
      push_cast
      constructor <;> linarith
    rw [this]
    simp

theorem two_zpow_le (e : Int) (he : e ≤ -100) : (2 : ℚ) ^ e ≤ 1 / 2 ^ 100 := by
  have h1 : (2 : ℚ) ^ e ≤ (2 : ℚ) ^ (-100 : Int) := zpow_le_zpow_right₀ (by norm_num) he
  have h2 : (2 : ℚ) ^ (-100 : Int) = 1 / 2 ^ 100 := by
    rw [zpow_neg, one_div]
    norm_cast
  rw [← h2]
  exact h1

/-- The error of rounding to `long double`. -/
theorem ldRound_error_le (v B : ℚ) (hv : |v| ≤ B) :
    |ldRound v - v| ≤ B / 2 ^ 64 + 1 / 2 ^ 100 := by
  have h := roundToFormat_error_le 64 (-16382) v
  have h2 := two_zpow_le (-16382 - ((64 : Nat) : Int)) (by norm_num)
  have h3 : |v| / 2 ^ 64 ≤ B / 2 ^ 64 := div_le_div_of_nonneg_right hv (by positivity)
  unfold ldRound
  linarith

/-- The error of the conversion to `double`. -/
theorem toDouble_error_le (v B : ℚ) (hv : |v| ≤ B) (hB : B < 10 ^ 40) :
    ∃ d, toDouble v = some d ∧ |d - v| ≤ B / 2 ^ 53 + 1 / 2 ^ 100 := by
  have hfin := isfinite_of_abs_lt v (lt_of_le_of_lt hv hB)
  refine ⟨_, toDouble_isSome v hfin, ?_⟩
  have h := roundToFormat_error_le 53 (-1022) v
  have h2 := two_zpow_le (-1022 - ((53 : Nat) : Int)) (by norm_num)
  have h3 : |v| / 2 ^ 53 ≤ B / 2 ^ 53 := div_le_div_of_nonneg_right hv (by positivity)
  linarith

/-- What the stream prints, with four decimals, for a `long double` within
`10^-6` of a non-zero `k / 100` below `10^11`. -/
theorem showFixed4_near_hundredths (w : ℚ) (k : Int) (hk0 : k ≠ 0) (hk : |k| < 10 ^ 13)
    (hw : |w - (k : ℚ) / 100| ≤ 1 / 10 ^ 6) :
    showFixed4 w =
      (if k < 0 then ['-'] else []) ++ Nat.toDigits 10 (k.natAbs / 100) ++
        '.' :: padZeros 4 (Nat.toDigits 10 (k.natAbs % 100 * 100)) := by
  have hkq : |(k : ℚ)| < 10 ^ 13 := by exact_mod_cast hk
  have hk1 : (1 : ℚ) ≤ |(k : ℚ)| := by
    have : (1 : Int) ≤ |k| := Int.one_le_abs hk0
    exact_mod_cast this
  have habsk : |(k : ℚ) / 100| = |(k : ℚ)| / 100 := by
    rw [abs_div, abs_of_pos (by norm_num : (0 : ℚ) < 100)]
  have hwB : |w| ≤ 10 ^ 11 + 1 := by
    have h1 : |w| ≤ |w - (k : ℚ) / 100| + |(k : ℚ) / 100| := by
      have := abs_add (w - (k : ℚ) / 100) ((k : ℚ) / 100)
      simpa using this
    rw [habsk] at h1
    have h2 : |(k : ℚ)| / 100 < 10 ^ 11 := by
      rw [div_lt_iff₀ (by norm_num)]
      calc |(k : ℚ)| < 10 ^ 13 := hkq
        _ = 10 ^ 11 * 100 := by norm_num
    have h3 : (1 : ℚ) / 10 ^ 6 ≤ 1 := by norm_num
    linarith
  obtain ⟨d, hd, hderr⟩ := toDouble_error_le w (10 ^ 11 + 1) hwB (by norm_num)
  have hdk : |d - (k : ℚ) / 100| ≤ 1 / 10 ^ 6 + ((10 ^ 11 + 1) / 2 ^ 53 + 1 / 2 ^ 100) := by
    have := abs_add (d - w) (w - (k : ℚ) / 100)
    have h2 : d - w + (w - (k : ℚ) / 100) = d - (k : ℚ) / 100 := by ring
    rw [h2] at this
    linarith
  have hsmall : (1 : ℚ) / 10 ^ 6 + ((10 ^ 11 + 1) / 2 ^ 53 + 1 / 2 ^ 100) < 1 / (4 * 10 ^ 4) := by
    norm_num
  have hnear : |(|d| * 10 ^ 4) - ((k.natAbs * 100 : Nat) : ℚ)| < 1 / 2 := by
    have h1 : ((k.natAbs * 100 : Nat) : ℚ) = |(k : ℚ) / 100| * 10 ^ 4 := by
      rw [habsk]
      push_cast
      rw [Nat.cast_natAbs, Int.cast_abs]
      ring
    rw [h1, ← sub_mul, abs_mul, abs_of_pos (by positivity : (0 : ℚ) < 10 ^ 4)]
    have h2 : |(|d| - |(k : ℚ) / 100|)| ≤ |d - (k : ℚ) / 100| := abs_abs_sub_abs_le_abs_sub _ _
    have h3 : |(|d| - |(k : ℚ) / 100|)| < 1 / (4 * 10 ^ 4) := by linarith
    calc |(|d| - |(k : ℚ) / 100|)| * 10 ^ 4 < 1 / (4 * 10 ^ 4) * 10 ^ 4 :=
          mul_lt_mul_of_pos_right h3 (by positivity)
      _ = 1 / 4 := by norm_num
      _ < 1 / 2 := by norm_num
  have hneg : (w < 0) ↔ k < 0 := by
    rw [abs_le] at hw
    constructor
    · intro h
      by_contra hcon
      push_neg at hcon
      have hkp : (0 : ℚ) ≤ (k : ℚ) := by exact_mod_cast hcon
      rw [abs_of_nonneg hkp] at hk1
      have h5 : (1 : ℚ) / 10 ^ 6 < 1 / 100 := by norm_num
      linarith [hw.1]
    · intro h
      have hkn : (k : ℚ) < 0 := by exact_mod_cast h
      rw [abs_of_neg hkn] at hk1
      have h5 : (1 : ℚ) / 10 ^ 6 < 1 / 100 := by norm_num
      linarith [hw.2]
  have hq : k.natAbs * 100 / 10 ^ 4 = k.natAbs / 100 := by
    norm_num
    omega
  have hr : k.natAbs * 100 % 10 ^ 4 = k.natAbs % 100 * 100 := by
    norm_num
    omega
  unfold showFixed4
  rw [hd]
  simp only [roundHalfEven_of_near _ _ hnear, hq, hr, hneg]

theorem strip_zeros_fraction (pre : Str) (r : Nat) (h0 : 0 < r) (h100 : r < 100) :
    ((pre ++ '.' :: padZeros 4 (Nat.toDigits 10 (r * 100))).reverse.dropWhile
        (fun c => c == '0')).reverse = pre ++ '.' :: twoDecimals r := by
  obtain ⟨h1, _, _⟩ := twoDecimals_facts r h100 h0
  have hne : (twoDecimals r).reverse ≠ [] := by
    simpa using twoDecimals_ne_nil r
  rw [List.reverse_append, List.reverse_cons, List.append_assoc, List.dropWhile_append, h1]
  have : (twoDecimals r).reverse.isEmpty = false := by
    cases h : (twoDecimals r).reverse with
    | nil => exact absurd h hne
    | cons _ _ => rfl
  simp [this]

/-- Stripping the zeros of `pre.0000` leaves `pre.`. -/
theorem strip_zeros_int (pre : Str) :
    ((pre ++ '.' :: padZeros 4 (Nat.toDigits 10 (0 * 100))).reverse.dropWhile
        (fun c => c == '0')).reverse = pre ++ ['.'] := by
  have h : padZeros 4 (Nat.toDigits 10 (0 * 100)) = ['0', '0', '0', '0'] := by decide
  rw [h]
  simp [List.dropWhile]

theorem twoDecimals_plain (r : Nat) (h0 : 0 < r) (h100 : r < 100) :
    PlainDigits (twoDecimals r) :=
  (twoDecimals_facts r h100 h0).2.1

theorem hundredths_int_facts (k : Int) (hk : k.natAbs % 100 = 0) :
    k = 100 * (k / 100) ∧ ((k / 100 < 0) ↔ k < 0) ∧ (k / 100).natAbs = k.natAbs / 100 := by
  omega

/-- The internal string of a `long double` within `10^-6` of `k / 100`, for
`k / 100` below `10^11` in absolute value: the internal form of `k / 100`. -/
theorem toInternalString_near_hundredths (w : ℚ) (k : Int) (hk : |k| < 10 ^ 13)
    (hw : |w - (k : ℚ) / 100| ≤ 1 / 10 ^ 6) (h0 : k = 0 → w = 0) :
    toInternalString w = internalFormHundredths k := by
  by_cases hk0 : k = 0
  · subst hk0
    rw [h0 rfl]
    have := toInternalString_int 0 (by unfold LLONG_MIN LLONG_MAX; constructor <;> norm_num)
    simp only [Int.cast_zero] at this
    rw [this]
    decide
  have hfix := showFixed4_near_hundredths w k hk0 hk hw
  have hdot : '.' ∈ showFixed4 w := by
    rw [hfix]
    simp
  by_cases hm : k.natAbs % 100 = 0
  · -- an integer value
    obtain ⟨h1, h2, h3⟩ := hundredths_int_facts k hm
    have hv : (k : ℚ) / 100 = ((k / 100 : Int) : ℚ) := by
      conv_lhs => rw [h1]
      push_cast
      field_simp
    have hround : round w = k / 100 := by
      apply round_of_near
      rw [← hv]
      exact lt_of_le_of_lt hw (by norm_num)
    have hrange : LLONG_MIN ≤ k / 100 ∧ k / 100 ≤ LLONG_MAX := by
      rw [abs_lt] at hk
      unfold LLONG_MIN LLONG_MAX
      constructor <;> omega
    have hform : internalFormHundredths k =
        (if k < 0 then ['-'] else []) ++ Nat.toDigits 10 (k.natAbs / 100) := by
      unfold internalFormHundredths
      rw [if_pos hm]
      simp
    unfold toInternalString
    simp only [hround]
    split_ifs with hclose
    · unfold showLongLong
      rw [hform, h3]
      by_cases hneg : k < 0
      · rw [if_pos (h2.mpr hneg), if_pos hneg]
        simp
      · rw [if_neg (fun h => hneg (h2.mp h)), if_neg hneg]
        simp
    · rw [hfix, hm, strip_zeros_int, hform]
      simp
    · exfalso
      rename_i hlast
      apply hlast
      rw [hfix, hm, strip_zeros_int]
      simp
  · -- two decimals
    have hpos : 0 < k.natAbs % 100 := Nat.pos_of_ne_zero hm
    have h100 : k.natAbs % 100 < 100 := Nat.mod_lt _ (by norm_num)
    have hplain := twoDecimals_plain _ hpos h100
    have hstrip := strip_zeros_fraction
      ((if k < 0 then ['-'] else []) ++ Nat.toDigits 10 (k.natAbs / 100)) _ hpos h100
    have hfar : ¬ |ldSub w ((round w : Int) : ℚ)| < ldRound (1 / 10 ^ 12) := by
      have hf := hundredths_far_from_int k (round w) hm
      have hx : 1 / 100 - 1 / 10 ^ 6 ≤ |w - ((round w : Int) : ℚ)| := by
        have := abs_sub_abs_le_abs_sub ((k : ℚ) / 100 - ((round w : Int) : ℚ))
          ((k : ℚ) / 100 - w)
        have h2 : (k : ℚ) / 100 - ((round w : Int) : ℚ) - ((k : ℚ) / 100 - w) =
            w - ((round w : Int) : ℚ) := by ring
        rw [h2, abs_sub_comm ((k : ℚ) / 100) w] at this
        linarith
      have hxB : |w - ((round w : Int) : ℚ)| ≤ |w - ((round w : Int) : ℚ)| := le_refl _
      have herr := ldRound_error_le (w - ((round w : Int) : ℚ)) _ hxB
      have hlow : |w - ((round w : Int) : ℚ)| - |ldRound (w - ((round w : Int) : ℚ))| ≤
          |ldRound (w - ((round w : Int) : ℚ)) - (w - ((round w : Int) : ℚ))| := by
        rw [abs_sub_comm (ldRound _) _]
        exact abs_sub_abs_le_abs_sub _ _
      have hc := ldRound_tolerance_lt
      have hpos2 : (0 : ℚ) ≤ |w - ((round w : Int) : ℚ)| := abs_nonneg _
      have h64 : |w - ((round w : Int) : ℚ)| / 2 ^ 64 ≤ |w - ((round w : Int) : ℚ)| / 2 := by
        apply div_le_div_of_nonneg_left hpos2 (by norm_num) (by norm_num)
      have hn1 : (1 : ℚ) / 2 ^ 100 < 1 / 10 ^ 6 := by norm_num
      have hn2 : (1 : ℚ) / 10 ^ 11 < 1 / 10 ^ 6 := by norm_num
      unfold ldSub
      intro hcon
      norm_num at hx
      linarith
    unfold toInternalString
    simp only
    rw [if_neg hfar, if_pos hdot, hfix, hstrip]
    have hlast : ((if k < 0 then ['-'] else []) ++ Nat.toDigits 10 (k.natAbs / 100) ++
        '.' :: twoDecimals (k.natAbs % 100)).getLast? ≠ some '.' := by
      obtain ⟨c, hc⟩ : ∃ c, (twoDecimals (k.natAbs % 100)).getLast? = some c := by
        cases hl : (twoDecimals (k.natAbs % 100)).getLast? with
        | none => exact absurd (List.getLast?_eq_none_iff.mp hl) (twoDecimals_ne_nil _)
        | some c => exact ⟨c, rfl⟩
      have hmem : c ∈ twoDecimals (k.natAbs % 100) := List.mem_of_getLast?_eq_some hc
      have hcd := hplain c hmem
      have hne : c ≠ '.' := by rintro rfl; revert hcd; decide
      rw [List.getLast?_append, List.getLast?_cons, hc]
      simpa using hne
    rw [if_neg hlast]
    unfold internalFormHundredths
    rw [if_neg hm]
    simp

/-- The display conversion of the internal form of `k / 100` is its display
form. -/
theorem formatTR_hundredths (k : Int) :
    formatTR_fromInternal (internalFormHundredths k) = displayFormHundredths k := by
  have hd := toDigits_all_digits (k.natAbs / 100)
  have hdne := toDigits_ne_nil (k.natAbs / 100)
  unfold internalFormHundredths displayFormHundredths
  by_cases hk : k.natAbs % 100 = 0
  · rw [if_pos hk, if_pos hk]
    by_cases hneg : k < 0
    · rw [if_pos hneg]
      simpa using formatTR_neg_digits _ hd
    · rw [if_neg hneg]
      simpa using formatTR_digits _ hd
  · rw [if_neg hk, if_neg hk]
    have hf := twoDecimals_plain _ (Nat.pos_of_ne_zero hk) (Nat.mod_lt _ (by norm_num))
    have hfne := twoDecimals_ne_nil (k.natAbs % 100)
    by_cases hneg : k < 0
    · rw [if_pos hneg]
      simpa using formatTR_neg_digits_fraction _ _ hd hf hfne
    · rw [if_neg hneg]
      simpa using formatTR_digits_fraction _ _ hd hdne hf hfne

theorem digitsVal_shift (f : Str) :
    ∀ acc : Nat, digitsVal acc f = acc * 10 ^ f.length + digitsVal 0 f := by
  induction f with
  | nil => intro acc; simp [digitsVal]
  | cons c f ih =>
    intro acc
    have h1 := ih (10 * acc + digitVal c)
    have h2 := ih (10 * 0 + digitVal c)
    simp only [digitsVal, List.foldl_cons, List.length_cons] at h1 h2 ⊢
    rw [h1, h2]
    ring

theorem takeWhile_isdigit_append (d r : Str) (x : Char) (hd : PlainDigits d)
    (hx : isdigit x = false) :
    (d ++ x :: r).takeWhile isdigit = d ∧ (d ++ x :: r).dropWhile isdigit = x :: r := by
  induction d with
  | nil => simp [hx]
  | cons c d ih =>
    have hc : isdigit c = true := by simpa [isdigit] using hd c (by simp)
    have hd2 : PlainDigits d := fun y hy => hd y (by simp [hy])
    obtain ⟨h1, h2⟩ := ih hd2
    simp only [List.cons_append, List.takeWhile_cons, List.dropWhile_cons]
    simp [hc, h1, h2]

/-- The conversion `std::stold` of digits, a decimal point and digits. -/
theorem stold_decimal (d f : Str) (hd : PlainDigits d) (hdne : d ≠ []) (hf : PlainDigits f) :
    stold (d ++ '.' :: f) =
      some (ldRound ((digitsVal 0 (d ++ f) : Nat) / (10 : ℚ) ^ f.length)) := by
  have hall : ∀ c ∈ f, isdigit c = true := by
    intro c hc
    simpa [isdigit] using hf c hc
  have htake : f.takeWhile isdigit = f := List.takeWhile_eq_self_iff.mpr hall
  have hdrop : f.dropWhile isdigit = [] := List.dropWhile_eq_nil_iff.mpr hall
  cases d with
  | nil => exact absurd rfl hdne
  | cons c r =>
    obtain ⟨h1, h2⟩ := takeWhile_isdigit_append (c :: r) f '.' hd (by decide)
    have hc := hd c (by simp)
    have hsp : isspace c = false := by
      have h2 : 48 ≤ c.toNat ∧ c.toNat ≤ 57 := hc
      have hne32 : c ≠ ' ' := by rintro rfl; revert hc; decide
      simp only [isspace, decide_eq_false_iff_not, not_or, not_and, not_le]
      exact ⟨hne32, fun _ => by omega⟩
    have hminus : c ≠ '-' := by rintro rfl; revert hc; decide
    have hplus : c ≠ '+' := by rintro rfl; revert hc; decide
    simp only [List.cons_append] at h1 h2
    simp only [stold, List.cons_append, List.dropWhile_cons, hsp, Bool.false_eq_true, if_false,
      hminus, hplus, or_self, h1, h2, htake, hdrop, decide_False, if_true]
    simp [stoldExponent]

/-- Parsing the internal form of a non-negative `k / 100` gives `k / 100`
back, rounded to `long double`. -/
theorem stold_internalFormHundredths (k : Nat) :
    stold (internalFormHundredths (k : Int)) = some (ldRound ((k : ℚ) / 100)) := by
  have hd := toDigits_all_digits (k / 100)
  have hdne := toDigits_ne_nil (k / 100)
  unfold internalFormHundredths
  simp only [Int.natAbs_ofNat, Int.natCast_nonneg, not_lt.mpr, if_false, List.nil_append]
  by_cases hk : k % 100 = 0
  · rw [if_pos hk, List.append_nil, stold_digits _ hd hdne, digitsVal_toDigits]
    congr 2
    have : k = 100 * (k / 100) := by omega
    conv_rhs => rw [this]
    push_cast
    field_simp
  · rw [if_neg hk]
    obtain ⟨_, hf, hval⟩ := twoDecimals_facts (k % 100) (Nat.mod_lt _ (by norm_num))
      (Nat.pos_of_ne_zero hk)
    rw [stold_decimal _ _ hd hdne hf, digitsVal_append, digitsVal_toDigits, digitsVal_shift]
    congr 2
    have hpow : ((10 : ℚ) ^ (twoDecimals (k % 100)).length) ≠ 0 := by positivity
    have hval' : (digitsVal 0 (twoDecimals (k % 100)) : ℚ) * 100 =
        ((k % 100 : Nat) : ℚ) * 10 ^ (twoDecimals (k % 100)).length := by exact_mod_cast hval
    have hk' : (k : ℚ) = 100 * ((k / 100 : Nat) : ℚ) + ((k % 100 : Nat) : ℚ) := by
      have : k = 100 * (k / 100) + k % 100 := by omega
      exact_mod_cast this
    rw [div_eq_div_iff hpow (by norm_num)]
    push_cast
    rw [hk']
    linear_combination hval'

/-! ## Percent of the accumulator -/

theorem percentHundredths_cast (op : Char) (a b : Nat) (hk : op = '+' ∨ op = '-' ∨ op = '*') :
    ((percentHundredths op a b : Int) : ℚ) / 100 =
      exactOpRat op (a : ℚ) (((a * b : Nat) : ℚ) / 100) := by
  rcases hk with rfl | rfl | rfl <;> simp [percentHundredths, exactOpRat] <;> ring

/-- The key `%` with an accumulator, an operator pending and a second operand
typed. -/
theorem press_percent_numeral (s : Calculator) (x : ℚ) (b : Nat) (op : Char)
    (hb : b < 2 ^ 64) (hacc : s.acc_ = some x) (hop : s.op_ = some op)
    (hentry : s.entry_ = Nat.toDigits 10 b) :
    press s '%' = .returned true
      { s with entry_ := toInternalString (ldMul x (ldDiv (b : ℚ) 100)),
               justEvaluated_ := false } := by
  have hne : s.entry_ ≠ [] := by
    rw [hentry]
    exact toDigits_ne_nil b
  rw [press_percent]
  simp [percent, hne, entryValue_numeral s b hb hentry, hacc, hop, setEntryFromNumber]

theorem percent_bounds : (10 : ℚ) ^ 11 / 2 ^ 64 + 10 ^ 10 / 2 ^ 100 +
    ((10 ^ 11 + 1) / 2 ^ 64 + 1 / 2 ^ 100) ≤ 1 / 10 ^ 6 ∧
    (10 : ℚ) ^ 11 / 2 ^ 64 + 10 ^ 10 / 2 ^ 100 ≤ 1 := by
  constructor <;> norm_num

/-- The `long double` product `a * (b / 100)` is within `10^-6` of `a * b / 100`
when that is below `10^11`. -/
theorem percent_value_near (a b : Nat) (ha : a < 10 ^ 10) (hab : a * b < 10 ^ 13) :
    |ldMul (a : ℚ) (ldDiv (b : ℚ) 100) - ((a * b : Nat) : ℚ) / 100| ≤ 1 / 10 ^ 6 ∧
    (a * b = 0 → ldMul (a : ℚ) (ldDiv (b : ℚ) 100) = 0) := by
  constructor
  · have ha0 : (0 : ℚ) ≤ (a : ℚ) := by positivity
    have hb0 : (0 : ℚ) ≤ (b : ℚ) / 100 := by positivity
    have haq : (a : ℚ) ≤ 10 ^ 10 := by
      have : (a : ℚ) < 10 ^ 10 := by exact_mod_cast ha
      linarith
    have habq : (a : ℚ) * ((b : ℚ) / 100) ≤ 10 ^ 11 := by
      have : ((a * b : Nat) : ℚ) < 10 ^ 13 := by exact_mod_cast hab
      push_cast at this
      linarith
    have h1 := ldRound_error_le ((b : ℚ) / 100) ((b : ℚ) / 100) (by rw [abs_of_nonneg hb0])
    have hx : |(a : ℚ) * ldRound ((b : ℚ) / 100) - (a : ℚ) * ((b : ℚ) / 100)| ≤
        10 ^ 11 / 2 ^ 64 + 10 ^ 10 / 2 ^ 100 := by
      rw [← mul_sub, abs_mul, abs_of_nonneg ha0]
      calc (a : ℚ) * |ldRound ((b : ℚ) / 100) - (b : ℚ) / 100|
          ≤ (a : ℚ) * ((b : ℚ) / 100 / 2 ^ 64 + 1 / 2 ^ 100) :=
            mul_le_mul_of_nonneg_left h1 ha0
        _ = (a : ℚ) * ((b : ℚ) / 100) / 2 ^ 64 + (a : ℚ) / 2 ^ 100 := by ring
        _ ≤ 10 ^ 11 / 2 ^ 64 + 10 ^ 10 / 2 ^ 100 := by
          have e1 : (a : ℚ) * ((b : ℚ) / 100) / 2 ^ 64 ≤ 10 ^ 11 / 2 ^ 64 :=
            div_le_div_of_nonneg_right habq (by positivity)
          have e2 : (a : ℚ) / 2 ^ 100 ≤ 10 ^ 10 / 2 ^ 100 :=
            div_le_div_of_nonneg_right haq (by positivity)
          linarith
    have hxB : |(a : ℚ) * ldRound ((b : ℚ) / 100)| ≤ 10 ^ 11 + 1 := by
      have := abs_add ((a : ℚ) * ldRound ((b : ℚ) / 100) - (a : ℚ) * ((b : ℚ) / 100))
        ((a : ℚ) * ((b : ℚ) / 100))
      rw [sub_add_cancel, abs_of_nonneg (mul_nonneg ha0 hb0)] at this
      have := percent_bounds.2
      linarith
    have h2 := ldRound_error_le ((a : ℚ) * ldRound ((b : ℚ) / 100)) _ hxB
    have h3 := abs_add
      (ldRound ((a : ℚ) * ldRound ((b : ℚ) / 100)) - (a : ℚ) * ldRound ((b : ℚ) / 100))
      ((a : ℚ) * ldRound ((b : ℚ) / 100) - (a : ℚ) * ((b : ℚ) / 100))
    rw [sub_add_sub_cancel] at h3
    have ht : ((a * b : Nat) : ℚ) / 100 = (a : ℚ) * ((b : ℚ) / 100) := by
      push_cast
      ring
    unfold ldMul ldDiv
    rw [ht]
    have := percent_bounds.1
    linarith
  · intro h0
    unfold ldMul ldDiv
    rcases Nat.mul_eq_zero.mp h0 with h | h
    · subst h
      simp [ldRound_zero]
    · subst h
      simp [ldRound_zero]

/-- The `long double` result of `a op y`, for `y` the `long double` nearest to
`a * b / 100`, is within `10^-6` of `a op (a * b / 100)` when both are below
`10^11` in absolute value. -/
theorem percent_result_near (a b : Nat) (op : Char) (hop : op = '+' ∨ op = '-' ∨ op = '*')
    (ha : a < 10 ^ 10) (hab : a * b < 10 ^ 13) (hres : |percentHundredths op a b| < 10 ^ 13) :
    |ldRound (exactOpRat op (a : ℚ) (ldRound (((a * b : Nat) : ℚ) / 100))) -
        ((percentHundredths op a b : Int) : ℚ) / 100| ≤ 1 / 10 ^ 6 ∧
    (percentHundredths op a b = 0 →
      ldRound (exactOpRat op (a : ℚ) (ldRound (((a * b : Nat) : ℚ) / 100))) = 0) := by
  have ha0 : (0 : ℚ) ≤ (a : ℚ) := by positivity
  have haq : (a : ℚ) ≤ 10 ^ 10 := by
    have : (a : ℚ) < 10 ^ 10 := by exact_mod_cast ha
    linarith
  have ht0 : (0 : ℚ) ≤ ((a * b : Nat) : ℚ) / 100 := by positivity
  have htq : ((a * b : Nat) : ℚ) / 100 ≤ 10 ^ 11 := by
    have : ((a * b : Nat) : ℚ) < 10 ^ 13 := by exact_mod_cast hab
    linarith
  have hT : |((percentHundredths op a b : Int) : ℚ) / 100| ≤ 10 ^ 11 := by
    rw [abs_div, abs_of_pos (by norm_num : (0 : ℚ) < 100)]
    have : |((percentHundredths op a b : Int) : ℚ)| < 10 ^ 13 := by exact_mod_cast hres
    linarith
  have hcast := percentHundredths_cast op a b hop
  have hy := ldRound_error_le (((a * b : Nat) : ℚ) / 100) _
    (le_of_eq (abs_of_nonneg ht0))
  have hyB : |ldRound (((a * b : Nat) : ℚ) / 100) - ((a * b : Nat) : ℚ) / 100| ≤
      10 ^ 11 / 2 ^ 64 + 1 / 2 ^ 100 := by
    have : ((a * b : Nat) : ℚ) / 100 / 2 ^ 64 ≤ 10 ^ 11 / 2 ^ 64 :=
      div_le_div_of_nonneg_right htq (by positivity)
    linarith
  have hn1 : (1 : ℚ) / 2 ^ 100 ≤ 10 ^ 10 / 2 ^ 100 := by norm_num
  -- the error before the last rounding
  have hx : |exactOpRat op (a : ℚ) (ldRound (((a * b : Nat) : ℚ) / 100)) -
      exactOpRat op (a : ℚ) (((a * b : Nat) : ℚ) / 100)| ≤
      10 ^ 11 / 2 ^ 64 + 10 ^ 10 / 2 ^ 100 := by
    rcases hop with rfl | rfl | rfl
    · simp only [exactOpRat, if_true]
      rw [add_sub_add_left_eq_sub]
      linarith
    · simp only [exactOpRat, show ¬ ('-' = '+') by decide, if_false, if_true]
      rw [sub_sub_sub_cancel_left, abs_sub_comm]
      linarith
    · simp only [exactOpRat, show ¬ ('*' = '+') by decide, show ¬ ('*' = '-') by decide,
        if_false]
      rw [← mul_sub, abs_mul, abs_of_nonneg ha0]
      have hTm : (a : ℚ) * (((a * b : Nat) : ℚ) / 100) ≤ 10 ^ 11 := by
        have h1 := hT
        rw [hcast] at h1
        simp only [exactOpRat, show ¬ ('*' = '+') by decide, show ¬ ('*' = '-') by decide,
          if_false] at h1
        exact le_trans (le_abs_self _) h1
      calc (a : ℚ) * |ldRound (((a * b : Nat) : ℚ) / 100) - ((a * b : Nat) : ℚ) / 100|
          ≤ (a : ℚ) * (((a * b : Nat) : ℚ) / 100 / 2 ^ 64 + 1 / 2 ^ 100) :=
            mul_le_mul_of_nonneg_left hy ha0
        _ = (a : ℚ) * (((a * b : Nat) : ℚ) / 100) / 2 ^ 64 + (a : ℚ) / 2 ^ 100 := by ring
        _ ≤ 10 ^ 11 / 2 ^ 64 + 10 ^ 10 / 2 ^ 100 := by
          have e1 : (a : ℚ) * (((a * b : Nat) : ℚ) / 100) / 2 ^ 64 ≤ 10 ^ 11 / 2 ^ 64 :=
            div_le_div_of_nonneg_right hTm (by positivity)
          have e2 : (a : ℚ) / 2 ^ 100 ≤ 10 ^ 10 / 2 ^ 100 :=
            div_le_div_of_nonneg_right haq (by positivity)
          linarith
  rw [← hcast] at hx
  have hxB : |exactOpRat op (a : ℚ) (ldRound (((a * b : Nat) : ℚ) / 100))| ≤ 10 ^ 11 + 1 := by
    have := abs_add
      (exactOpRat op (a : ℚ) (ldRound (((a * b : Nat) : ℚ) / 100)) -
        ((percentHundredths op a b : Int) : ℚ) / 100)
      (((percentHundredths op a b : Int) : ℚ) / 100)
    rw [sub_add_cancel] at this
    have := percent_bounds.2
    linarith
  have h2 := ldRound_error_le _ _ hxB
  have h3 := abs_add
    (ldRound (exactOpRat op (a : ℚ) (ldRound (((a * b : Nat) : ℚ) / 100))) -
      exactOpRat op (a : ℚ) (ldRound (((a * b : Nat) : ℚ) / 100)))
    (exactOpRat op (a : ℚ) (ldRound (((a * b : Nat) : ℚ) / 100)) -
      ((percentHundredths op a b : Int) : ℚ) / 100)
  rw [sub_add_sub_cancel] at h3
  refine ⟨by have := percent_bounds.1; linarith, ?_⟩
  intro hzero
  have ha64 : a < 2 ^ 64 := lt_trans ha (by norm_num)
  rcases hop with rfl | rfl | rfl
  · simp only [percentHundredths, if_true] at hzero
    have ha' : a = 0 := by
      have h1 : (0 : Int) ≤ (a : Int) * b := by positivity
      have h2 : (0 : Int) ≤ (a : Int) := by positivity
      have : (a : Int) = 0 := by omega
      exact_mod_cast this
    subst ha'
    simp [exactOpRat, ldRound_zero]
  · simp only [percentHundredths, show ¬ ('-' = '+') by decide, if_false, if_true] at hzero
    have hfac : (a : Int) * (100 - (b : Int)) = 0 := by linarith
    rcases mul_eq_zero.mp hfac with h | h
    · have ha' : a = 0 := by exact_mod_cast h
      subst ha'
      simp [exactOpRat, ldRound_zero]
    · have hb' : b = 100 := by omega
      subst hb'
      have : ((a * 100 : Nat) : ℚ) / 100 = (a : ℚ) := by
        push_cast
        field_simp
      simp only [exactOpRat, show ¬ ('-' = '+') by decide, if_false, if_true]
      rw [this, ldRound_natCast a ha64, sub_self, ldRound_zero]
  · simp only [percentHundredths, show ¬ ('*' = '+') by decide, show ¬ ('*' = '-') by decide,
      if_false] at hzero
    have hz : a * (a * b) = 0 := by exact_mod_cast hzero
    rcases Nat.mul_eq_zero.mp hz with h | h
    · subst h
      simp [exactOpRat, ldRound_zero]
    · rcases Nat.mul_eq_zero.mp h with h | h
      · subst h
        simp [exactOpRat, ldRound_zero]
      · subst h
        simp [exactOpRat, ldRound_zero]

/-! ## C13: percent of the accumulator -/

/-- C13 as stated fails: `9999999999`, `+`, `9999999999`, `%` leaves entry
`999999999800000000`, the `long double` product printed through `double`,
not the internal form `999999999800000000.01` of `a * b / 100`; and
`9999999999`, `*`, `11`, `%`, `=` displays `1.0999999998e+19`, not the display
form `10.999.999.997.800.000.000,11` of `a * (a * b / 100)`. -/
theorem percent_of_accumulator_counterexample :
    (pressAll fresh "9999999999+9999999999%".toList).map
        (fun p => (p.1, hasError p.2, p.2.entry_)) =
      some (List.replicate 22 true, false, "999999999800000000".toList) ∧
    internalFormHundredths ((9999999999 * 9999999999 : Nat) : Int) =
      "999999999800000000.01".toList ∧
    (pressAll fresh "9999999999*11%=".toList).map
        (fun p => (p.1, hasError p.2, display p.2)) =
      some (List.replicate 15 true, false, "1.0999999998e+19".toList) ∧
    displayFormHundredths (percentHundredths '*' 9999999999 11) =
      "10.999.999.997.800.000.000,11".toList := by
  decide!

/-- C13, amended. For natural numbers `a` and `b` of at most ten digits typed
into a fresh engine and `op` one of `+`, `-`, `*`, with `a * b / 100` and
`a op (a * b / 100)` below `10^11` in absolute value: after the keys `a`,
`op`, `b`, `%` (all consumed) the entry is the internal string of the
`long double` product `a * (b / 100)`, which is the internal form of
`a * b / 100`, while the accumulator is still `a` and the pending operator
still `op`; the further key `=` is consumed without error, the accumulator
becomes a value within `10^-6` of `a op (a * b / 100)`, and the display is the
display form of `a op (a * b / 100)` (sign, grouped integer part, `,` and
decimals). -/
theorem percent_of_accumulator (a b : Nat) (op : Char) (ha : a < 10 ^ 10) (hb : b < 10 ^ 10)
    (hop : op = '+' ∨ op = '-' ∨ op = '*') (hab : a * b < 10 ^ 13)
    (hres : |percentHundredths op a b| < 10 ^ 13) :
    ∃ t u,
      pressAll fresh (Nat.toDigits 10 a ++ op :: Nat.toDigits 10 b ++ ['%']) =
        some (List.replicate
          ((Nat.toDigits 10 a).length + 1 + (Nat.toDigits 10 b).length + 1) true, t) ∧
      t.entry_ = toInternalString (ldMul (a : ℚ) (ldDiv (b : ℚ) 100)) ∧
      t.entry_ = internalFormHundredths ((a * b : Nat) : Int) ∧
      t.acc_ = some (a : ℚ) ∧ t.op_ = some op ∧
      press t '=' = .returned true u ∧
      hasError u = false ∧
      (∃ w, u.acc_ = some w ∧ |w - ((percentHundredths op a b : Int) : ℚ) / 100| ≤ 1 / 10 ^ 6) ∧
      ((percentHundredths op a b : Int) : ℚ) / 100 =
        exactOpRat op (a : ℚ) (((a * b : Nat) : ℚ) / 100) ∧
      display u = displayFormHundredths (percentHundredths op a b) := by
  have hcast := percentHundredths_cast op a b hop
  have hb64 : b < 2 ^ 64 := lt_trans hb (by norm_num)
  have hfirst := pressAll_operand_operator_operand a b op ha hb (operator_of_arith op hop)
  rw [Int.cast_natCast] at hfirst
  have hpct := press_percent_numeral
    { entry_ := Nat.toDigits 10 b, acc_ := some (a : ℚ), op_ := some op,
      justEvaluated_ := false, error_ := false, errorMsg_ := [], mem_ := none }
    a b op hb64 rfl rfl rfl
  have hkeys : Nat.toDigits 10 a ++ op :: Nat.toDigits 10 b ++ ['%'] =
      (Nat.toDigits 10 a ++ op :: Nat.toDigits 10 b) ++ ['%'] := by simp
  have hA : pressAll fresh (Nat.toDigits 10 a ++ op :: Nat.toDigits 10 b ++ ['%']) =
      some (List.replicate
        ((Nat.toDigits 10 a).length + 1 + (Nat.toDigits 10 b).length + 1) true,
        { entry_ := toInternalString (ldMul (a : ℚ) (ldDiv (b : ℚ) 100)), acc_ := some (a : ℚ),
          op_ := some op, justEvaluated_ := false, error_ := false, errorMsg_ := [],
          mem_ := none }) := by
    rw [hkeys, pressAll_append _ _ _ _ _ hfirst, pressAll_cons_returned _ _ _ _ _ hpct]
    simp only [pressAll, Option.map_some']
    rw [List.replicate_succ' ((Nat.toDigits 10 a).length + 1 + (Nat.toDigits 10 b).length)]
  obtain ⟨hnear, hzero⟩ := percent_value_near a b ha hab
  have hentry : toInternalString (ldMul (a : ℚ) (ldDiv (b : ℚ) 100)) =
      internalFormHundredths ((a * b : Nat) : Int) := by
    apply toInternalString_near_hundredths
    · rw [abs_of_nonneg (by positivity)]
      exact_mod_cast hab
    · rw [Int.cast_natCast]
      exact hnear
    · intro h
      exact hzero (by exact_mod_cast h)
  have hne : toInternalString (ldMul (a : ℚ) (ldDiv (b : ℚ) 100)) ≠ [] := by
    rw [hentry]
    unfold internalFormHundredths
    intro h
    simp only [List.append_eq_nil] at h
    exact toDigits_ne_nil _ h.2.1
  have hv : entryValue
      { entry_ := toInternalString (ldMul (a : ℚ) (ldDiv (b : ℚ) 100)), acc_ := some (a : ℚ),
        op_ := some op, justEvaluated_ := false, error_ := false, errorMsg_ := [],
        mem_ := none } = some (ldRound (((a * b : Nat) : ℚ) / 100)) := by
    unfold entryValue
    simp only
    rw [hentry, stold_internalFormHundredths]
  obtain ⟨hrnear, hrzero⟩ := percent_result_near a b op hop ha hab hres
  have hT : |((percentHundredths op a b : Int) : ℚ) / 100| ≤ 10 ^ 11 := by
    rw [abs_div, abs_of_pos (by norm_num : (0 : ℚ) < 100)]
    have : |((percentHundredths op a b : Int) : ℚ)| < 10 ^ 13 := by exact_mod_cast hres
    linarith
  have hfin : isfinite
      (ldRound (exactOpRat op (a : ℚ) (ldRound (((a * b : Nat) : ℚ) / 100)))) = true := by
    apply isfinite_of_abs_lt
    have h1 := abs_add
      (ldRound (exactOpRat op (a : ℚ) (ldRound (((a * b : Nat) : ℚ) / 100))) -
        ((percentHundredths op a b : Int) : ℚ) / 100)
      (((percentHundredths op a b : Int) : ℚ) / 100)
    rw [sub_add_cancel] at h1
    have h2 : (1 : ℚ) / 10 ^ 6 + 10 ^ 11 < 10 ^ 40 := by norm_num
    linarith
  have heq := press_equals_value
    { entry_ := toInternalString (ldMul (a : ℚ) (ldDiv (b : ℚ) 100)), acc_ := some (a : ℚ),
      op_ := some op, justEvaluated_ := false, error_ := false, errorMsg_ := [],
      mem_ := none }
    a (ldRound (((a * b : Nat) : ℚ) / 100)) op rfl rfl rfl hop hne hv hfin
  have hdisp := display_of_result
    { entry_ := toInternalString
        (ldRound (exactOpRat op (a : ℚ) (ldRound (((a * b : Nat) : ℚ) / 100)))),
      acc_ := some (ldRound (exactOpRat op (a : ℚ) (ldRound (((a * b : Nat) : ℚ) / 100)))),
      op_ := none, justEvaluated_ := true, error_ := false, errorMsg_ := [], mem_ := none }
    _ rfl rfl rfl
  have hstr := toInternalString_near_hundredths _ (percentHundredths op a b) hres hrnear hrzero
  refine ⟨_, _, hA, rfl, hentry, rfl, rfl, heq, rfl, ⟨_, rfl, hrnear⟩, hcast, ?_⟩
  rw [hdisp]
  unfold formatNumber
  rw [hstr, formatTR_hundredths]

/-- C13 amended, at a concrete input: `50`, `+`, `10`, `%` leaves entry `5`
with accumulator 50 and `+` pending, and `=` then displays `55`. -/
theorem percent_of_accumulator_witness :
    ∃ t u,
      pressAll fresh "50+10%".toList = some (List.replicate 6 true, t) ∧
      t.entry_ = ['5'] ∧ t.acc_ = some 50 ∧ t.op_ = some '+' ∧
      press t '=' = .returned true u ∧
      hasError u = false ∧
      display u = "55".toList := by
  obtain ⟨t, u, h1, _, h3, h4, h5, h6, h7, _, _, h10⟩ :=
    percent_of_accumulator 50 10 '+' (by norm_num) (by norm_num) (Or.inl rfl) (by norm_num)
      (by decide)
  exact ⟨t, u, h1, h3, by rw [h4]; norm_num, h5, h6, h7, h10⟩

/-! ## C21: an operator key with an accumulator and no pending operator -/

/-- C21. In an error-free state with an accumulator `A` and no pending
operator, whatever the entry holds, an operator key `o` is consumed without
converting the entry and leaves the accumulator `A`, the pending operator `o`,
an empty entry and `justEvaluated` false, every other field as it was; the
outcome is the same for every entry.  With 5 in memory, `3`, `+`, `4`, `=`,
`R`, `+`, `1`, `=` displays `8`: the recalled entry is discarded. -/
theorem operator_ignores_entry (s : Calculator) (key : Char) (A : LongDouble)
    (hk : isOperatorKey key) (he : s.error_ = false) (hacc : s.acc_ = some A)
    (hop : s.op_ = none) :
    press s key = .returned true
      { s with acc_ := some A, op_ := some key, entry_ := [], justEvaluated_ := false } ∧
    (∀ e : Str, press { s with entry_ := e } key = press s key) ∧
    pressAll fresh "5Mc".toList = some ([true, true, true], clearedWithMemoryFive) ∧
    (pressAll clearedWithMemoryFive "3+4=R".toList).map (fun p => (p.2.entry_, p.2.acc_)) =
      some (['5'], some 7) ∧
    (pressAll clearedWithMemoryFive "3+4=R+1=".toList).map
        (fun p => (p.1, hasError p.2, display p.2)) =
      some (List.replicate 8 true, false, ['8']) := by
  have hgen : ∀ u : Calculator, u.error_ = false → u.acc_ = some A → u.op_ = none →
      press u key = .returned true
        { u with acc_ := some A, op_ := some key, entry_ := [], justEvaluated_ := false } := by
    intro u hu1 hu2 hu3
    rw [press_operator u key hk hu1]
    unfold pressOperator
    simp [hu2, hu3]
  refine ⟨hgen s he hacc hop, ?_, by decide!, by decide!, by decide!⟩
  intro e
  rw [hgen s he hacc hop, hgen { s with entry_ := e } he hacc hop]

/-- C21, at a concrete input: the state after `3`, `+`, `4`, `=`, `R` with 5
in memory (entry `5`, accumulator 7) and the key `+`. -/
theorem operator_ignores_entry_witness :
    press { entry_ := ['5'], acc_ := some 7, op_ := none, justEvaluated_ := false,
            error_ := false, errorMsg_ := [], mem_ := some 5 } '+' =
      .returned true
        { entry_ := [], acc_ := some 7, op_ := some '+', justEvaluated_ := false,
          error_ := false, errorMsg_ := [], mem_ := some 5 } :=
  (operator_ignores_entry
    { entry_ := ['5'], acc_ := some 7, op_ := none, justEvaluated_ := false,
      error_ := false, errorMsg_ := [], mem_ := some 5 } '+' 7 (by decide) rfl rfl rfl).1

end CalculatorGUI
